import Mathlib

/-!
# Disease index: hash table and red-black tree

A verification development for the two index structures of the repository,
`HashTable` (src/HashTable.h) and `RBTree` (src/RBTree.h).

## Representation

* A `std::string` is a finite sequence of bytes (`CString`); `==` is equality of
  the sequences and `<` is the lexicographic order on the unsigned byte values,
  which is what `std::string::compare` computes.
* `int` fields that are only stored and compared (`year`, `deathCount`) are
  integers.  The accumulator of `hashFunction` is a 32-bit `int`: every addition
  is reduced to the two's complement range, and `char` is a signed 8-bit value.
* `std::vector::operator[]` outside the vector, and a dereference of `nullptr`,
  have no defined result: the operation returns `none`.
* What is written to `std::cout` is a list of `Line` values, one per printed line.
* A `Node*` of the tree is the subtree hanging at that node (`Node`), the sentinel
  being `Node.TNULL`; where the code follows `parent` links, the pointer is the
  subtree together with the list of its ancestors (`Ancestors`), innermost first, and
  the empty path is the `nullptr` parent of the root.
* The class is given a second time statement by statement on a memory of nodes with
  their `left`, `right` and `parent` pointers (`Mem`).  After every call the memory
  holds the tree of the first model, with child and parent links that agree
  (`Mem.insertAll_refines`).
-/

/-- A `std::string`. -/
abbrev CString := List (Fin 256)

/-- The record `struct hashTableVars` (HashTable.h, lines 6-15). -/
structure hashTableVars where
  disease : CString
  year : Int
  deathCount : Int
  isMortality : CString
deriving DecidableEq

/-- One line written to `std::cout`. -/
inductive Line where
  | record (state disease : CString) (year deathCount : Int) (isMortality : CString)
  | diseaseNotFound (disease state : CString)
  | stateNotFound (state : CString)
  | keyRemoved
  | keyNotFound
deriving DecidableEq

/-- The test of HashTable.h line 58 and RBTree.h line 187: the stored `entry` and the
incoming `info` agree on disease, year and mortality flag. -/
def sameRecordKey (entry info : hashTableVars) : Bool :=
  decide (entry.disease = info.disease) && decide (entry.year = info.year)
    && decide (entry.isMortality = info.isMortality)

/-- The scan of a record list on insertion (HashTable.h lines 57-67, RBTree.h lines
186-197): the first entry with the same disease, year and mortality flag takes the
larger death count and the scan stops; without such an entry `info` is appended. -/
def mergeRecord (info : hashTableVars) : List hashTableVars → List hashTableVars
  | [] => [info]
  | entry :: rest =>
    if sameRecordKey entry info then
      (if info.deathCount > entry.deathCount then
        { entry with deathCount := info.deathCount } else entry) :: rest
    else entry :: mergeRecord info rest

/-- The record lines of the loop over a record list (HashTable.h lines 118-126,
RBTree.h lines 247-255): one line per record of the queried disease, in list order. -/
def recordLines (state disease : CString) (diseases : List hashTableVars) : List Line :=
  diseases.filterMap fun entry =>
    if entry.disease = disease then
      some (Line.record state disease entry.year entry.deathCount entry.isMortality)
    else none

/-- The lines printed for the records of one state (HashTable.h lines 117-129,
RBTree.h lines 246-259): the record lines, and the disease-not-found line when the loop
printed none (`diseaseFound` stayed false). -/
def displayRecords (state disease : CString) (diseases : List hashTableVars) : List Line :=
  let printed := recordLines state disease diseases
  if printed.isEmpty then [Line.diseaseNotFound disease state] else printed

/-! ## HashTable.h -/

/-- The constant `hashGroups` (line 20). -/
def hashGroups : Nat := 100

/-- The value of a `char` holding the byte `ch`, `char` being signed. -/
def charValue (ch : Fin 256) : Int :=
  if ch.val < 128 then (ch.val : Int) else (ch.val : Int) - 256

/-- Reduction of an integer to the range of a 32-bit `int`. -/
def wrapInt32 (z : Int) : Int :=
  (z + 2147483648) % 4294967296 - 2147483648

/-- One bucket: `list<pair<string, list<hashTableVars>>>`. -/
abbrev Bucket := List (CString × List hashTableVars)

/-- The class `HashTable`: its only field is the vector of buckets. -/
structure HashTable where
  table : List Bucket
deriving DecidableEq

namespace HashTable

/-- The constructor (lines 25-27): `hashGroups` empty buckets. -/
def new : HashTable := ⟨List.replicate hashGroups []⟩

/-- The loop of `hashFunction` (lines 36-38). -/
def hashLoop : Int → CString → Int
  | hash, [] => hash
  | hash, ch :: rest => hashLoop (wrapInt32 (hash + charValue ch)) rest

/-- `hashFunction` (lines 34-40); `%` truncates toward zero. -/
def hashFunction (key : CString) : Int :=
  Int.tmod (hashLoop 0 key) (hashGroups : Int)

/-- `table[hashValue]`: defined only for an index inside the vector. -/
def cell (t : HashTable) (hashValue : Int) : Option Bucket :=
  if 0 ≤ hashValue then t.table[hashValue.toNat]? else none

/-- The bucket scan of `insertItem` (lines 54-76). -/
def insertCell (key : CString) (info : hashTableVars) : Bucket → Bucket
  | [] => [(key, [info])]
  | entry :: rest =>
    if entry.1 = key then (entry.1, mergeRecord info entry.2) :: rest
    else entry :: insertCell key info rest

/-- `insertItem` (lines 48-77). -/
def insertItem (t : HashTable) (key : CString) (info : hashTableVars) : Option HashTable :=
  let hashValue := hashFunction key
  match t.cell hashValue with
  | none => none
  | some cell => some ⟨t.table.set hashValue.toNat (insertCell key info cell)⟩

/-- The bucket scan of `removeItem` (lines 89-96): the bucket afterwards and `keyExists`. -/
def removeCell (key : CString) : Bucket → Bucket × Bool
  | [] => ([], false)
  | entry :: rest =>
    if entry.1 = key then (rest, true)
    else ((entry :: (removeCell key rest).1), (removeCell key rest).2)

/-- `removeItem` (lines 83-101): the table afterwards and the line printed. -/
def removeItem (t : HashTable) (key : CString) : Option (HashTable × List Line) :=
  let hashValue := hashFunction key
  match t.cell hashValue with
  | none => none
  | some cell =>
    let scan := removeCell key cell
    some (⟨t.table.set hashValue.toNat scan.1⟩,
      if scan.2 then [Line.keyRemoved] else [Line.keyNotFound])

/-- The bucket scan of `displayDeathCount` (lines 114-136). -/
def displayCell (state disease : CString) : Bucket → List Line
  | [] => [Line.stateNotFound state]
  | entry :: rest =>
    if entry.1 = state then displayRecords state disease entry.2
    else displayCell state disease rest

/-- `displayDeathCount` (lines 108-137): the lines printed. -/
def displayDeathCount (t : HashTable) (state disease : CString) : Option (List Line) :=
  match t.cell (hashFunction state) with
  | none => none
  | some cell => some (displayCell state disease cell)

end HashTable

/-! ## RBTree.h -/

/-- The colours of `enum Color` (line 6). -/
inductive Color where
  | RED
  | BLACK
deriving DecidableEq

/-- A node pointer with what hangs below it: the sentinel `TNULL`, or a node with its
colour, left child, state, record list and right child (`struct Node`, lines 9-21). -/
inductive Node where
  | TNULL
  | node (color : Color) (left : Node) (state : CString) (diseases : List hashTableVars)
      (right : Node)
deriving DecidableEq

/-- An ancestor seen from below: its own fields and its other child. -/
inductive Frame where
  | leftOf (color : Color) (state : CString) (diseases : List hashTableVars) (right : Node)
  | rightOf (color : Color) (left : Node) (state : CString) (diseases : List hashTableVars)
deriving DecidableEq

/-- The chain `parent`, `parent->parent`, ... of a node, ending at the root. -/
abbrev Ancestors := List Frame

namespace Node

/-- The field `color`; the sentinel is black (line 162). -/
def color : Node → Color
  | TNULL => Color.BLACK
  | node c _ _ _ _ => c

/-- The assignment `n->color = c` on a node. -/
def setColor (c : Color) : Node → Node
  | TNULL => TNULL
  | node _ l s d r => node c l s d r

end Node

namespace Frame

/-- The field `color` of the ancestor. -/
def color : Frame → Color
  | leftOf c _ _ _ => c
  | rightOf c _ _ _ => c

/-- The assignment `n->color = c` on the ancestor. -/
def setColor (c : Color) : Frame → Frame
  | leftOf _ s d r => leftOf c s d r
  | rightOf _ l s d => rightOf c l s d

/-- The ancestor node, with `t` as the child the frame was entered from. -/
def fill : Frame → Node → Node
  | leftOf c s d r, t => Node.node c t s d r
  | rightOf c l s d, t => Node.node c l s d t

end Frame

/-- The root of the tree in which `t` hangs below the ancestors `path`. -/
def plug : Node → Ancestors → Node
  | t, [] => t
  | t, f :: path => plug (f.fill t) path

/-- The class `RBTree`: `root`; the sentinel is `Node.TNULL`. -/
structure RBTree where
  root : Node
deriving DecidableEq

namespace RBTree

/-- The constructor (lines 160-164). -/
def new : RBTree := ⟨Node.TNULL⟩

/-- `searchTreeHelper` (lines 48-57). -/
def searchTreeHelper : Node → CString → Node
  | Node.TNULL, _ => Node.TNULL
  | Node.node c l s d r, key =>
    if key = s then Node.node c l s d r
    else if key < s then searchTreeHelper l key
    else searchTreeHelper r key

/-- `leftRotate(x)` (lines 114-132) on the subtree at `x`: the node `y` that takes the
place of `x`.  The links between `y` and the former parent of `x`, or `root` when `x`
had none (lines 120-129), are the place of the result among the ancestors of `x`.  With
`x->right` the sentinel, line 118 dereferences `nullptr`. -/
def leftRotate : Node → Option Node
  | Node.node cx a sx dx (Node.node cy b sy dy c) =>
    some (Node.node cy (Node.node cx a sx dx b) sy dy c)
  | _ => none

/-- `rightRotate(x)` (lines 138-156) on the subtree at `x`, the mirror image of
`leftRotate`.  With `x->left` the sentinel, line 142 dereferences `nullptr`. -/
def rightRotate : Node → Option Node
  | Node.node cx (Node.node cy a sy dy b) sx dx c =>
    some (Node.node cy a sy dy (Node.node cx b sx dx c))
  | _ => none

/-- The right child of the node a rotation put in place, as a pointer: the child and
its parent. -/
def rightChild : Option Node → Option (Node × Frame)
  | some (Node.node c l s d r) => some (r, Frame.rightOf c l s d)
  | _ => none

/-- The left child of the node a rotation put in place, as a pointer. -/
def leftChild : Option Node → Option (Node × Frame)
  | some (Node.node c l s d r) => some (l, Frame.leftOf c s d r)
  | _ => none

/-- Lines 75-78, for `k` with parent `p`: when `k` is a left child, `k` moves to its
parent and `rightRotate(k)` runs, after which `k` is the right child of the node
rotated up.  The result is `k` and `k->parent` at line 79. -/
def innerRight (k : Node) (p : Frame) : Option (Node × Frame) :=
  match p with
  | Frame.leftOf _ _ _ _ => rightChild (rightRotate (p.fill k))
  | Frame.rightOf _ _ _ _ => some (k, p)

/-- Lines 94-97, the mirror image of `innerRight`. -/
def innerLeft (k : Node) (p : Frame) : Option (Node × Frame) :=
  match p with
  | Frame.rightOf _ _ _ _ => leftChild (leftRotate (p.fill k))
  | Frame.leftOf _ _ _ _ => some (k, p)

/-- The loop of `balanceInsert` (lines 65-107) from its test on, for the pointer `k`
with ancestors `path`; `fuel` bounds the number of tests.  The result is the root
after line 107. -/
def balanceLoop : Nat → Node → Ancestors → Option Node
  | 0, _, _ => none
  | _ + 1, _, [] => none -- line 65 reads the colour of the parent: the parent is nullptr
  | fuel + 1, k, p :: rest =>
    if p.color = Color.RED then
      match rest with
      | [] => none -- line 66 reads a child of the grandparent: the grandparent is nullptr
      | Frame.rightOf _ u gs gd :: up =>
        -- line 66: the parent is the right child of the grandparent; u is line 67
        if u.color = Color.RED then
          -- lines 69-72, and the test of line 103
          let k1 := Node.node Color.RED (u.setColor Color.BLACK) gs gd
            ((p.setColor Color.BLACK).fill k)
          if up = [] then some (k1.setColor Color.BLACK) else balanceLoop fuel k1 up
        else
          match innerRight k p with
          | none => none
          | some (k1, p1) =>
            -- lines 79-81: k1 stays the right child of its parent, which is rotated up
            match rightChild (leftRotate
              (Node.node Color.RED u gs gd ((p1.setColor Color.BLACK).fill k1))) with
            | none => none
            | some (k2, p2) => balanceLoop fuel k2 (p2 :: up)
      | Frame.leftOf _ gs gd u :: up =>
        -- line 85
        if u.color = Color.RED then
          -- lines 88-91, and the test of line 103
          let k1 := Node.node Color.RED ((p.setColor Color.BLACK).fill k) gs gd
            (u.setColor Color.BLACK)
          if up = [] then some (k1.setColor Color.BLACK) else balanceLoop fuel k1 up
        else
          match innerLeft k p with
          | none => none
          | some (k1, p1) =>
            -- lines 98-100: k1 stays the left child of its parent, which is rotated up
            match leftChild (rightRotate
              (Node.node Color.RED ((p1.setColor Color.BLACK).fill k1) gs gd u)) with
            | none => none
            | some (k2, p2) => balanceLoop fuel k2 (p2 :: up)
    else some ((plug k (p :: rest)).setColor Color.BLACK)

/-- `balanceInsert(k)` (lines 63-108): the root afterwards. -/
def balanceInsert (k : Node) (path : Ancestors) : Option Node :=
  balanceLoop (path.length + 1) k path

/-- The descent of `insert` (lines 183-207) from `x` with ancestors `path`, followed by
the linking and rebalancing of lines 209-231: the root afterwards. -/
def insertLoop (key : CString) (info : hashTableVars) : Node → Ancestors → Option Node
  | Node.TNULL, path =>
    -- lines 209-219: the new red node takes the place of the sentinel the descent reached
    match path with
    | [] => some (Node.node Color.BLACK Node.TNULL key [info] Node.TNULL) -- lines 222-225
    | [p] => some (p.fill (Node.node Color.RED Node.TNULL key [info] Node.TNULL)) -- 227-229
    | _ => balanceInsert (Node.node Color.RED Node.TNULL key [info] Node.TNULL) path
  | Node.node c l s d r, path =>
    -- lines 185-200, then 201-206
    if key = s then some (plug (Node.node c l s (mergeRecord info d) r) path)
    else if key < s then insertLoop key info l (Frame.leftOf c s d r :: path)
    else insertLoop key info r (Frame.rightOf c l s d :: path)

/-- `insert` (lines 172-232). -/
def insert (t : RBTree) (key : CString) (info : hashTableVars) : Option RBTree :=
  (insertLoop key info t.root []).map RBTree.mk

/-- `displayDeathCount` (lines 239-260): the lines printed. -/
def displayDeathCount (t : RBTree) (state disease : CString) : List Line :=
  match searchTreeHelper t.root state with
  | Node.TNULL => [Line.stateNotFound state]
  | Node.node _ _ _ diseases _ => displayRecords state disease diseases

end RBTree

/-! ## Sequences of calls -/

/-- One call `insert(key, info)` or `insertItem(key, info)`. -/
abbrev Insertion := CString × hashTableVars

/-- The table after the insertions `ops`, in this order, on a new table. -/
def HashTable.insertAll (ops : List Insertion) : Option HashTable :=
  ops.foldl (fun acc op => acc.bind fun t => t.insertItem op.1 op.2) (some HashTable.new)

/-- The tree after the insertions `ops`, in this order, on an empty tree. -/
def RBTree.insertAll (ops : List Insertion) : Option RBTree :=
  ops.foldl (fun acc op => acc.bind fun t => t.insert op.1 op.2) (some RBTree.new)

/-! ## Notions used in the statements and proofs -/

/-- The fields on which two records are merged. -/
def recordKey (e : hashTableVars) : CString × Int × CString :=
  (e.disease, e.year, e.isMortality)

/-- The record list of state `s` after one more insertion, `none` standing for a state
that has no entry. -/
def storeStep (s : CString) (cur : Option (List hashTableVars)) (op : Insertion) :
    Option (List hashTableVars) :=
  if op.1 = s then some (mergeRecord op.2 (cur.getD [])) else cur

/-- The record list of state `s` after the insertions `ops`, in this order. -/
def stored (ops : List Insertion) (s : CString) : Option (List hashTableVars) :=
  ops.foldl (storeStep s) none

/-- The death count `c` is the largest one inserted under state `s` and merge key `k`. -/
def IsMaxDeath (ops : List Insertion) (s : CString) (k : CString × Int × CString)
    (c : Int) : Prop :=
  (∃ op ∈ ops, op.1 = s ∧ recordKey op.2 = k ∧ op.2.deathCount = c) ∧
  ∀ op ∈ ops, op.1 = s → recordKey op.2 = k → op.2.deathCount ≤ c

/-- The relation between the insertions and the record list kept for a state. -/
def RecordsInv (ops : List Insertion) (s : CString) (ds : List hashTableVars) : Prop :=
  (ds.map recordKey).Nodup ∧
  (∀ k, k ∈ ds.map recordKey ↔ ∃ op ∈ ops, op.1 = s ∧ recordKey op.2 = k) ∧
  ∀ e ∈ ds, IsMaxDeath ops s (recordKey e) e.deathCount

/-- The record list of the first entry for state `s`. -/
def lookupState (s : CString) : List (CString × List hashTableVars) → Option (List hashTableVars)
  | [] => none
  | e :: rest => if e.1 = s then some e.2 else lookupState s rest

/-- The states of the list increase strictly from left to right. -/
def StateSorted (L : List (CString × List hashTableVars)) : Prop :=
  L.Pairwise fun a b => a.1 < b.1

/-- The list `L2` is the list `L1` after `info` went in under `key`: a new entry in its
place in the order, or the entry of `key` with `info` merged in. -/
def InsertedInto (key : CString) (info : hashTableVars)
    (L1 L2 : List (CString × List hashTableVars)) : Prop :=
  ∃ A B, (L1 = A ++ B ∧ L2 = A ++ (key, [info]) :: B ∧
      (∀ a ∈ A, a.1 < key) ∧ (∀ b ∈ B, key < b.1)) ∨
    (∃ d, L1 = A ++ (key, d) :: B ∧ L2 = A ++ (key, mergeRecord info d) :: B)

namespace Node

/-- The states and record lists of a tree from left to right. -/
def toList : Node → List (CString × List hashTableVars)
  | TNULL => []
  | node _ l s d r => l.toList ++ (s, d) :: r.toList

/-- No red node has a red child. -/
def redRedFree : Node → Bool
  | TNULL => true
  | node c l _ _ r =>
    (decide (c = Color.BLACK) || (decide (l.color = Color.BLACK) && decide (r.color = Color.BLACK)))
      && l.redRedFree && r.redRedFree

/-- The number of black nodes on each path from the node down to the sentinel, the
sentinel not counted, one number per path. -/
def blackCounts : Node → List Nat
  | TNULL => [0]
  | node c l _ _ r =>
    (l.blackCounts ++ r.blackCounts).map fun n => n + (if c = Color.BLACK then 1 else 0)

/-- The number of black nodes on the leftmost path down to the sentinel. -/
def blackHeight : Node → Nat
  | TNULL => 0
  | node c l _ _ _ => l.blackHeight + (if c = Color.BLACK then 1 else 0)

/-- The colour conditions of a red-black tree below a node: children of a red node are
black, and the two subtrees of every node have the same black height. -/
def Ok : Node → Prop
  | TNULL => True
  | node c l _ _ r =>
    (c = Color.RED → l.color = Color.BLACK ∧ r.color = Color.BLACK) ∧
      l.blackHeight = r.blackHeight ∧ l.Ok ∧ r.Ok

/-- A red-black tree: black root and the colour conditions below it. -/
def Valid (t : Node) : Prop := t.color = Color.BLACK ∧ t.Ok

end Node

/-- The other child of an ancestor. -/
def Frame.sibling : Frame → Node
  | Frame.leftOf _ _ _ r => r
  | Frame.rightOf _ l _ _ => l

/-- The entries to the left of the subtree below the ancestors `path`. -/
def entriesBefore : Ancestors → List (CString × List hashTableVars)
  | [] => []
  | Frame.leftOf _ _ _ _ :: path => entriesBefore path
  | Frame.rightOf _ l s d :: path => entriesBefore path ++ (l.toList ++ [(s, d)])

/-- The entries to the right of the subtree below the ancestors `path`. -/
def entriesAfter : Ancestors → List (CString × List hashTableVars)
  | [] => []
  | Frame.leftOf _ s d r :: path => (s, d) :: r.toList ++ entriesAfter path
  | Frame.rightOf _ _ _ _ :: path => entriesAfter path

/-- The innermost ancestor exists and is black. -/
def topBlack : Ancestors → Prop
  | [] => False
  | f :: _ => f.color = Color.BLACK

/-- The colour conditions on the ancestors of a subtree of black height `n`. -/
def PathOk : Ancestors → Nat → Prop
  | [], _ => True
  | f :: rest, n =>
    f.sibling.Ok ∧ f.sibling.blackHeight = n ∧
      (f.color = Color.RED → f.sibling.color = Color.BLACK ∧ topBlack rest) ∧
      PathOk rest (n + (if f.color = Color.BLACK then 1 else 0))

/-- The lines printed for a state from the record list kept for it, `none` standing
for a state without entry. -/
def displayStored (state disease : CString) : Option (List hashTableVars) → List Line
  | none => [Line.stateNotFound state]
  | some ds => displayRecords state disease ds

/-- The year and mortality flag a printed record line shows. -/
def Line.yearFlag : Line → Option (Int × CString)
  | Line.record _ _ year _ isMortality => some (year, isMortality)
  | _ => none

/-- The year a printed record line shows. -/
def Line.year : Line → Option Int
  | Line.record _ _ year _ _ => some year
  | _ => none

/-- A call of the hash table that changes it. -/
inductive HashCall where
  | insertItem (key : CString) (info : hashTableVars)
  | removeItem (key : CString)

/-- One call on a table: the table afterwards. -/
def HashTable.call (t : HashTable) : HashCall → Option HashTable
  | HashCall.insertItem key info => t.insertItem key info
  | HashCall.removeItem key => (t.removeItem key).map Prod.fst

/-- The table after the calls `calls`, in this order, on a new table. -/
def HashTable.run (calls : List HashCall) : Option HashTable :=
  calls.foldl (fun acc c => acc.bind fun t => t.call c) (some HashTable.new)

/-- The buckets of a table are as the calls leave them: `hashGroups` buckets, at most
one entry per state in a bucket, every entry in the bucket of its state. -/
def HashTable.Wf (t : HashTable) : Prop :=
  t.table.length = hashGroups ∧
  ∀ (i : Nat) (b : Bucket), t.table[i]? = some b →
    (b.map Prod.fst).Nodup ∧ ∀ e ∈ b, HashTable.hashFunction e.1 = (i : Int)

/-! ## Strings of the scenarios -/

/-- The string "California". -/
def California : CString := [67, 97, 108, 105, 102, 111, 114, 110, 105, 97]

/-- The string "Cancer". -/
def Cancer : CString := [67, 97, 110, 99, 101, 114]

/-- The string "mortality". -/
def mortality : CString := [109, 111, 114, 116, 97, 108, 105, 116, 121]

/-- The string "crude mortality". -/
def crudeMortality : CString :=
  [99, 114, 117, 100, 101, 32, 109, 111, 114, 116, 97, 108, 105, 116, 121]

/-- The string "Texas". -/
def Texas : CString := [84, 101, 120, 97, 115]

/-- The string "Asthma". -/
def Asthma : CString := [65, 115, 116, 104, 109, 97]

/-- The string "Florida". -/
def Florida : CString := [70, 108, 111, 114, 105, 100, 97]

/-- The string "東京" in UTF-8: six bytes, each above 0x7F. -/
def Tokyo : CString := [230, 157, 177, 228, 186, 172]

/-- An entry for state `s` is stored in the table. -/
def HashTable.hasEntry (t : HashTable) (s : CString) : Prop :=
  ∃ b ∈ t.table, ∃ e ∈ b, e.1 = s

/-- The record list `ds` is stored for state `s` in the table. -/
def HashTable.holds (t : HashTable) (s : CString) (ds : List hashTableVars) : Prop :=
  ∃ b ∈ t.table, (s, ds) ∈ b

/-- The first scenario: two insertions for California that differ in the death count. -/
def californiaTwice : List Insertion :=
  [(California, ⟨Cancer, 2019, 500, mortality⟩), (California, ⟨Cancer, 2019, 300, mortality⟩)]

/-- The second scenario: one insertion for Texas. -/
def texasOnce : List Insertion := [(Texas, ⟨Asthma, 2020, 50, mortality⟩)]

/-- Two records of one state, disease and year that differ in the mortality flag. -/
def texasSameYear : List Insertion :=
  [(Texas, ⟨Asthma, 2020, 50, mortality⟩), (Texas, ⟨Asthma, 2020, 70, crudeMortality⟩)]

/-- One insertion under a state whose bytes are all above 0x7F. -/
def tokyoOnce : List Insertion := [(Tokyo, ⟨Cancer, 2019, 500, mortality⟩)]

/-! ## Notions for the shape of the tree, its height, the passes of the rebalancing loop
and the order of records -/

/-- Two trees have the same shape, colours and states, and the same record list at
every node whose state is not `key`. -/
def Node.SameExceptAt (key : CString) : Node → Node → Prop
  | Node.TNULL, Node.TNULL => True
  | Node.node c1 l1 s1 d1 r1, Node.node c2 l2 s2 d2 r2 =>
    c1 = c2 ∧ s1 = s2 ∧ (s1 ≠ key → d1 = d2) ∧
      Node.SameExceptAt key l1 l2 ∧ Node.SameExceptAt key r1 r2
  | _, _ => False

namespace Node

/-- The number of nodes of the tree, the sentinel not counted. -/
def size : Node → Nat
  | TNULL => 0
  | node _ l _ _ r => l.size + r.size + 1

/-- The number of nodes on the longest path from the node down to the sentinel, the
sentinel not counted. -/
def depth : Node → Nat
  | TNULL => 0
  | node _ l _ _ r => max l.depth r.depth + 1

end Node

/-- The number of nodes at which `searchTreeHelper` compares the key (lines 49-56): the
nodes on the way from the root to the node returned, or to the sentinel. -/
def RBTree.searchVisits : Node → CString → Nat
  | Node.TNULL, _ => 0
  | Node.node _ l s _ r, key =>
    if key = s then 1
    else if key < s then searchVisits l key + 1
    else searchVisits r key + 1

/-- The number of passes through the loop of `insert` (lines 183-207) from `x` on. -/
def RBTree.insertVisits (key : CString) : Node → Nat
  | Node.TNULL => 0
  | Node.node _ l s _ r =>
    if key = s then 1
    else if key < s then insertVisits key l + 1
    else insertVisits key r + 1

/-- The number of rotations of lines 75-78: one when `k` is a left child. -/
def RBTree.innerRightRotations : Frame → Nat
  | Frame.leftOf _ _ _ _ => 1
  | Frame.rightOf _ _ _ _ => 0

/-- The number of rotations of lines 94-97: one when `k` is a right child. -/
def RBTree.innerLeftRotations : Frame → Nat
  | Frame.rightOf _ _ _ _ => 1
  | Frame.leftOf _ _ _ _ => 0

/-- The loop of `balanceInsert` as in `balanceLoop`, with a record of its passes: for
every pass through the loop body the number of rotations called in it, which is 0 in the
uncle-red branch and 1 or 2 in the uncle-black branch. -/
def RBTree.balanceLoopTrace : Nat → Node → Ancestors → Option (Node × List Nat)
  | 0, _, _ => none
  | _ + 1, _, [] => none
  | fuel + 1, k, p :: rest =>
    if p.color = Color.RED then
      match rest with
      | [] => none
      | Frame.rightOf _ u gs gd :: up =>
        if u.color = Color.RED then
          let k1 := Node.node Color.RED (u.setColor Color.BLACK) gs gd
            ((p.setColor Color.BLACK).fill k)
          if up = [] then some (k1.setColor Color.BLACK, [0])
          else (balanceLoopTrace fuel k1 up).map fun r => (r.1, 0 :: r.2)
        else
          match innerRight k p with
          | none => none
          | some (k1, p1) =>
            match rightChild (leftRotate
              (Node.node Color.RED u gs gd ((p1.setColor Color.BLACK).fill k1))) with
            | none => none
            | some (k2, p2) =>
              (balanceLoopTrace fuel k2 (p2 :: up)).map fun r =>
                (r.1, (innerRightRotations p + 1) :: r.2)
      | Frame.leftOf _ gs gd u :: up =>
        if u.color = Color.RED then
          let k1 := Node.node Color.RED ((p.setColor Color.BLACK).fill k) gs gd
            (u.setColor Color.BLACK)
          if up = [] then some (k1.setColor Color.BLACK, [0])
          else (balanceLoopTrace fuel k1 up).map fun r => (r.1, 0 :: r.2)
        else
          match innerLeft k p with
          | none => none
          | some (k1, p1) =>
            match leftChild (rightRotate
              (Node.node Color.RED ((p1.setColor Color.BLACK).fill k1) gs gd u)) with
            | none => none
            | some (k2, p2) =>
              (balanceLoopTrace fuel k2 (p2 :: up)).map fun r =>
                (r.1, (innerLeftRotations p + 1) :: r.2)
    else some ((plug k (p :: rest)).setColor Color.BLACK, [])

/-- The record of passes is that of a run of at most two rotations, all in the last pass. -/
def RotationsAtEnd (passes : List Nat) : Prop :=
  ∃ m, passes = List.replicate m 0 ∨ passes = List.replicate m 0 ++ [1] ∨
    passes = List.replicate m 0 ++ [2]

/-- The elements of a list in the order of their first occurrence. -/
def firstOccurrences {α : Type} [DecidableEq α] (l : List α) : List α :=
  l.foldl (fun acc a => if a ∈ acc then acc else acc ++ [a]) []

/-- The merge keys inserted under state `s`, in the order of the insertions. -/
def insertedKeys (ops : List Insertion) (s : CString) : List (CString × Int × CString) :=
  (ops.filter fun op => decide (op.1 = s)).map fun op => recordKey op.2

/-! ## Further inputs of the scenarios -/

/-- The string "Utah". -/
def Utah : CString := [85, 116, 97, 104]

/-- The string "saxeT", the letters of "Texas" in reverse. -/
def saxeT : CString := [115, 97, 120, 101, 84]

/-- An insertion for Texas followed by the removal of a state without entry. -/
def texasCalls : List HashCall :=
  [HashCall.insertItem Texas ⟨Asthma, 2020, 50, mortality⟩, HashCall.removeItem Florida]

/-- The table with the one entry of Texas, in bucket 17. -/
def texasTable : HashTable :=
  ⟨(List.replicate 100 []).set 17 [(Texas, [⟨Asthma, 2020, 50, mortality⟩])]⟩

/-- Two insertions under a state whose bytes are all above 0x7F. -/
def tokyoTwice : List Insertion :=
  [(Tokyo, ⟨Cancer, 2019, 500, mortality⟩), (Tokyo, ⟨Cancer, 2020, 400, mortality⟩)]

/-- The ancestors of the right child of Texas, Texas being the red right child of the
black root Florida. -/
def rightSpine : Ancestors :=
  [Frame.rightOf Color.RED Node.TNULL Texas [⟨Asthma, 2020, 50, mortality⟩],
    Frame.rightOf Color.BLACK Node.TNULL Florida [⟨Asthma, 2020, 60, mortality⟩]]

/-! ## RBTree.h with its pointers

The same class once more, this time statement by statement on a memory of nodes: an
address is a position in the list of allocated nodes, a pointer is an address or
`nullptr`, and reading or writing through `nullptr` or an address that is not allocated
has no result.  The sentinel is the first node allocated. -/

/-- A pointer to a node: an address, or `nullptr`. -/
abbrev Ptr := Option Nat

/-- A `struct Node` in memory (lines 9-21). -/
structure Cell where
  state : CString
  diseases : List hashTableVars
  color : Color
  left : Ptr
  right : Ptr
  parent : Ptr
deriving DecidableEq

/-- The memory of an `RBTree` object: the nodes allocated, and the fields `root` and
`TNULL` (lines 26-27).  `colorWrites` is not part of the C++ state: it records the
assignments to a `color` field made so far, the latest first, each with the pointer it
went through and the colour assigned. -/
structure Mem where
  cells : List Cell
  root : Ptr
  TNULL : Ptr
  colorWrites : List (Ptr × Color)
deriving DecidableEq

namespace Mem

/-- The node `*p`. -/
def get (m : Mem) (p : Ptr) : Option Cell :=
  match p with
  | none => none
  | some a => m.cells[a]?

/-- An assignment to fields of `*p`. -/
def set (m : Mem) (p : Ptr) (f : Cell → Cell) : Option Mem :=
  match p with
  | none => none
  | some a =>
    match m.cells[a]? with
    | none => none
    | some c => some { m with cells := m.cells.set a (f c) }

/-- The value of `p->left`. -/
def left (m : Mem) (p : Ptr) : Option Ptr := (m.get p).map Cell.left

/-- The value of `p->right`. -/
def right (m : Mem) (p : Ptr) : Option Ptr := (m.get p).map Cell.right

/-- The value of `p->parent`. -/
def parent (m : Mem) (p : Ptr) : Option Ptr := (m.get p).map Cell.parent

/-- The value of `p->color`. -/
def color (m : Mem) (p : Ptr) : Option Color := (m.get p).map Cell.color

/-- The value of `p->state`. -/
def state (m : Mem) (p : Ptr) : Option CString := (m.get p).map Cell.state

/-- The assignment `p->color = c`, recorded in `colorWrites`. -/
def setColor (m : Mem) (p : Ptr) (c : Color) : Option Mem :=
  (m.set p fun cell => { cell with color := c }).map fun m2 =>
    { m2 with colorWrites := (p, c) :: m2.colorWrites }

/-- The assignment `p->left = q`. -/
def setLeft (m : Mem) (p q : Ptr) : Option Mem :=
  m.set p fun cell => { cell with left := q }

/-- The assignment `p->right = q`. -/
def setRight (m : Mem) (p q : Ptr) : Option Mem :=
  m.set p fun cell => { cell with right := q }

/-- The assignment `p->parent = q`. -/
def setParent (m : Mem) (p q : Ptr) : Option Mem :=
  m.set p fun cell => { cell with parent := q }

/-- The node the constructor `Node(key, info)` builds (lines 18-20). -/
def newCell (key : CString) (info : hashTableVars) : Cell :=
  ⟨key, [info], Color.RED, none, none, none⟩

/-- The constructor `RBTree()` (lines 160-164): the sentinel is the first node
allocated, and line 162 is the first assignment to a `color` field. -/
def new : Mem :=
  ⟨[{ newCell [] ⟨[], 0, 0, []⟩ with color := Color.BLACK }], some 0, some 0,
    [(some 0, Color.BLACK)]⟩

/-- `leftRotate(x)` (lines 114-132). -/
def leftRotate (m : Mem) (x : Ptr) : Option Mem := do
  let y ← m.right x                                         -- line 115
  let m ← m.setRight x (← m.left y)                          -- line 116
  let m ← (do
    if (← m.left y) ≠ m.TNULL then                            -- line 117
      m.setParent (← m.left y) x                             -- line 118
    else some m)
  let m ← m.setParent y (← m.parent x)                       -- line 120
  let m ← (do
    if (← m.parent x) = none then                             -- line 121
      some { m with root := y }                              -- line 122
    else if x = (← m.left (← m.parent x)) then                -- line 124
      m.setLeft (← m.parent x) y                             -- line 125
    else m.setRight (← m.parent x) y)                        -- line 128
  let m ← m.setLeft y x                                      -- line 130
  m.setParent x y                                            -- line 131

/-- `rightRotate(x)` (lines 138-156). -/
def rightRotate (m : Mem) (x : Ptr) : Option Mem := do
  let y ← m.left x                                          -- line 139
  let m ← m.setLeft x (← m.right y)                          -- line 140
  let m ← (do
    if (← m.right y) ≠ m.TNULL then                           -- line 141
      m.setParent (← m.right y) x                            -- line 142
    else some m)
  let m ← m.setParent y (← m.parent x)                       -- line 144
  let m ← (do
    if (← m.parent x) = none then                             -- line 145
      some { m with root := y }                              -- line 146
    else if x = (← m.right (← m.parent x)) then               -- line 148
      m.setRight (← m.parent x) y                            -- line 149
    else m.setLeft (← m.parent x) y)                         -- line 152
  let m ← m.setRight y x                                     -- line 154
  m.setParent x y                                            -- line 155

/-- Lines 69-72 of `balanceInsert`, and the same statements at lines 88-91: the uncle
`u` is red. -/
def balanceRecolor (m : Mem) (k u : Ptr) : Option (Mem × Ptr) := do
  let m ← m.setColor u Color.BLACK                           -- line 69
  let m ← m.setColor (← m.parent k) Color.BLACK               -- line 70
  let m ← m.setColor (← m.parent (← m.parent k)) Color.RED    -- line 71
  some (m, ← m.parent (← m.parent k))                        -- line 72

/-- Lines 75-78 of `balanceInsert`. -/
def balanceInnerRight (m : Mem) (k : Ptr) : Option (Mem × Ptr) := do
  if k = (← m.left (← m.parent k)) then                      -- line 75
    let k ← m.parent k                                       -- line 76
    some (← m.rightRotate k, k)                              -- line 77
  else some (m, k)

/-- Lines 79-81 of `balanceInsert`. -/
def balanceOuterLeft (m : Mem) (k : Ptr) : Option (Mem × Ptr) := do
  let m ← m.setColor (← m.parent k) Color.BLACK               -- line 79
  let m ← m.setColor (← m.parent (← m.parent k)) Color.RED    -- line 80
  let m ← m.leftRotate (← m.parent (← m.parent k))            -- line 81
  some (m, k)

/-- Lines 94-97 of `balanceInsert`. -/
def balanceInnerLeft (m : Mem) (k : Ptr) : Option (Mem × Ptr) := do
  if k = (← m.right (← m.parent k)) then                     -- line 94
    let k ← m.parent k                                       -- line 95
    some (← m.leftRotate k, k)                               -- line 96
  else some (m, k)

/-- Lines 98-100 of `balanceInsert`. -/
def balanceOuterRight (m : Mem) (k : Ptr) : Option (Mem × Ptr) := do
  let m ← m.setColor (← m.parent k) Color.BLACK               -- line 98
  let m ← m.setColor (← m.parent (← m.parent k)) Color.RED    -- line 99
  let m ← m.rightRotate (← m.parent (← m.parent k))           -- line 100
  some (m, k)

/-- Lines 66-101 of `balanceInsert`: the body of the loop up to the test of line 103;
the result is the memory and the value of `k`. -/
def balancePass (m : Mem) (k : Ptr) : Option (Mem × Ptr) := do
  if (← m.parent k) = (← m.right (← m.parent (← m.parent k))) then   -- line 66
    let u ← m.left (← m.parent (← m.parent k))               -- line 67
    if (← m.color u) = Color.RED then                        -- line 68
      m.balanceRecolor k u                                   -- lines 69-72
    else
      let mk ← m.balanceInnerRight k                         -- lines 75-78
      mk.1.balanceOuterLeft mk.2                             -- lines 79-81
  else
    let u ← m.right (← m.parent (← m.parent k))              -- line 85
    if (← m.color u) = Color.RED then                        -- line 87
      m.balanceRecolor k u                                   -- lines 88-91
    else
      let mk ← m.balanceInnerLeft k                          -- lines 94-97
      mk.1.balanceOuterRight mk.2                            -- lines 98-100

/-- The loop of `balanceInsert` (lines 65-107) from its test on; `fuel` bounds the number
of tests.  The result is the memory after line 107. -/
def balanceLoop : Nat → Mem → Ptr → Option Mem
  | 0, _, _ => none
  | fuel + 1, m, k => do
    if (← m.color (← m.parent k)) = Color.RED then           -- line 65
      let mk ← m.balancePass k                               -- lines 66-101
      if mk.2 = mk.1.root then                               -- line 103
        mk.1.setColor mk.1.root Color.BLACK                  -- lines 104, 107
      else balanceLoop fuel mk.1 mk.2
    else m.setColor m.root Color.BLACK                       -- line 107

/-- `balanceInsert(k)` (lines 63-108). -/
def balanceInsert (m : Mem) (k : Ptr) : Option Mem :=
  balanceLoop m.cells.length m k

/-- The scan of the record list of `*x` on a duplicate state (lines 186-199), and
`delete node` for the node allocated last. -/
def mergeAt (m : Mem) (x : Ptr) (info : hashTableVars) : Option Mem := do
  let m ← m.set x fun cell => { cell with diseases := mergeRecord info cell.diseases }
  some { m with cells := m.cells.dropLast }

/-- The loop of `insert` (lines 183-207) for the new node `node`, from the test of the
loop on, followed by lines 209-231; `fuel` bounds the number of tests. -/
def insertLoop : Nat → Mem → Ptr → hashTableVars → Ptr → Ptr → Option Mem
  | 0, _, _, _, _, _ => none
  | fuel + 1, m, node, info, y, x =>
    if x ≠ m.TNULL then do                                        -- line 183
      let y := x                                                  -- line 184
      if (← m.state node) = (← m.state x) then                    -- line 185
        m.mergeAt x info                                          -- lines 186-199
      else if (← m.state node) < (← m.state x) then               -- line 201
        insertLoop fuel m node info y (← m.left x)                -- line 202
      else insertLoop fuel m node info y (← m.right x)            -- line 205
    else do
      let m ← m.setParent node y                                  -- line 210
      let m ← (do
        if y = none then some { m with root := node }             -- lines 211-213
        else if (← m.state node) < (← m.state y) then             -- line 214
          m.setLeft y node                                        -- line 215
        else m.setRight y node)                                   -- line 218
      if (← m.parent node) = none then                            -- line 222
        m.setColor node Color.BLACK                               -- lines 223-224
      else if (← m.parent (← m.parent node)) = none then          -- line 227
        some m                                                    -- line 228
      else m.balanceInsert node                                   -- line 231

/-- `insert(key, info)` (lines 172-232). -/
def insert (m : Mem) (key : CString) (info : hashTableVars) : Option Mem := do
  let node : Ptr := some m.cells.length                           -- line 173
  let m := { m with cells := m.cells ++ [newCell key info] }
  let m ← m.setParent node none                                   -- line 174
  let m ← m.setLeft node m.TNULL                                  -- line 175
  let m ← m.setRight node m.TNULL                                 -- line 176
  let m ← m.setColor node Color.RED                               -- line 177
  insertLoop m.cells.length m node info none m.root               -- lines 179-231

/-- `searchTreeHelper(node, key)` (lines 48-57); `fuel` bounds the depth of the calls. -/
def searchTreeHelper : Nat → Mem → Ptr → CString → Option Ptr
  | 0, _, _, _ => none
  | fuel + 1, m, node, key => do
    if node = m.TNULL then some node                              -- line 49
    else if key = (← m.state node) then some node                 -- line 49
    else if key < (← m.state node) then                           -- line 53
      searchTreeHelper fuel m (← m.left node) key                 -- line 54
    else searchTreeHelper fuel m (← m.right node) key             -- line 56

/-- `displayDeathCount(state, disease)` (lines 239-260): the lines printed. -/
def displayDeathCount (m : Mem) (state disease : CString) : Option (List Line) := do
  let node ← searchTreeHelper m.cells.length m m.root state       -- line 240
  if node = m.TNULL then some [Line.stateNotFound state]          -- lines 241-244
  else some (displayRecords state disease (← m.get node).diseases) -- lines 246-259

/-- The memory after the insertions `ops`, in this order, on a new tree. -/
def insertAll (ops : List Insertion) : Option Mem :=
  ops.foldl (fun acc op => acc.bind fun m => m.insert op.1 op.2) (some Mem.new)

/-- The tree at pointer `p`, read from the memory down to the sentinel; `fuel` bounds
the depth. -/
def readTree : Nat → Mem → Ptr → Option Node
  | 0, _, _ => none
  | fuel + 1, m, p =>
    if p = m.TNULL then some Node.TNULL
    else do
      let c ← m.get p
      some (Node.node c.color (← readTree fuel m c.left) c.state c.diseases
        (← readTree fuel m c.right))

end Mem

/-! ## The tree a memory holds -/

/-- The node of the ancestor `f` in memory: `hole` points to the child the frame was
entered from, `other` to the other child and `par` to the parent of the ancestor. -/
def Frame.cell : Frame → Ptr → Ptr → Ptr → Cell
  | Frame.leftOf c s d _, hole, other, par => ⟨s, d, c, hole, other, par⟩
  | Frame.rightOf c _ s d, hole, other, par => ⟨s, d, c, other, hole, par⟩

namespace Mem

/-- The sentinel as the constructor `RBTree()` leaves it (lines 161-162). -/
def sentinelCell : Cell := { newCell [] ⟨[], 0, 0, []⟩ with color := Color.BLACK }

/-- The field `TNULL` points to a node that is as the constructor left it, and every
assignment to a `color` field made through a pointer equal to `TNULL` assigned black. -/
def Sentinel (m : Mem) : Prop :=
  m.get m.TNULL = some sentinelCell ∧
    ∀ e ∈ m.colorWrites, e.1 = m.TNULL → e.2 = Color.BLACK

/-- The pointer `p` is the root of the tree `t` in memory, at the addresses `fp`: every
node of `t` is a node in memory other than the sentinel with the fields of `t`, its
`left` and `right` point to its children, the leaves being `TNULL`, and the `parent` of
every child points back; the `parent` of `p` is `par`. -/
def TreeAt (m : Mem) : Ptr → Ptr → Node → List Nat → Prop
  | _, p, Node.TNULL, fp => p = m.TNULL ∧ fp = []
  | par, p, Node.node c l s d r, fp =>
    ∃ a pl pr fl fr, p = some a ∧ p ≠ m.TNULL ∧ fp = a :: (fl ++ fr) ∧
      m.cells[a]? = some ⟨s, d, c, pl, pr, par⟩ ∧
      TreeAt m (some a) pl l fl ∧ TreeAt m (some a) pr r fr

/-- The ancestors `path` of the pointer `hole` in memory, at the addresses `fp`: `par`,
the parent of `hole`, is the innermost of them, each has `hole` or the ancestor below
as the child of its side and the tree of its frame as the other child, the `parent` of
the outermost is `nullptr` and `root` points to it; without ancestors `root` is `hole`. -/
def PathAt (m : Mem) : Ptr → Ptr → Ancestors → List Nat → Prop
  | hole, par, [], fp => par = none ∧ m.root = hole ∧ fp = []
  | hole, par, f :: rest, fp =>
    ∃ a other gp fs frest, par = some a ∧ par ≠ m.TNULL ∧ fp = a :: (fs ++ frest) ∧
      m.cells[a]? = some (f.cell hole other gp) ∧
      TreeAt m (some a) other f.sibling fs ∧ PathAt m (some a) gp rest frest

/-- The memory holds a well-formed tree in which the pointer `k`, with parent `par`, is
the root of the subtree `kt` below the ancestors `path`: child and parent links agree
everywhere, no node is reached twice, and the sentinel is as the constructor left it. -/
def Zip (m : Mem) (par k : Ptr) (kt : Node) (path : Ancestors) : Prop :=
  ∃ fk fp, TreeAt m par k kt fk ∧ PathAt m k par path fp ∧ (fk ++ fp).Nodup ∧ Sentinel m

/-- The memory holds the well-formed tree `t` at `root`. -/
def Represents (m : Mem) (t : Node) : Prop := Zip m none m.root t []

end Mem

/-- The memories `m` and `m2` have the same sentinel pointer, the same addresses
allocated, the same node at every address outside `S` and the same record of colour
assignments. -/
def Mem.SameOutside (S : List Nat) (m m2 : Mem) : Prop :=
  m2.TNULL = m.TNULL ∧ m2.cells.length = m.cells.length ∧
    (∀ a, a ∉ S → m2.cells[a]? = m.cells[a]?) ∧ m2.colorWrites = m.colorWrites

/-- The memories `m` and `m2` have the same `root`, the same sentinel pointer, the same
addresses allocated, and at every address the same links and the same state. -/
def Mem.SameLinks (m m2 : Mem) : Prop :=
  m2.root = m.root ∧ m2.TNULL = m.TNULL ∧ m2.cells.length = m.cells.length ∧
    ∀ p, m2.left p = m.left p ∧ m2.right p = m.right p ∧ m2.parent p = m.parent p ∧
      m2.state p = m.state p

/-- The pointer read through `p` on the side of the ancestor `f` from which the frame
was entered: `p->left` for a left-hand frame, `p->right` for a right-hand one. -/
def Mem.child (m : Mem) (f : Frame) (p : Ptr) : Option Ptr :=
  match f with
  | Frame.leftOf _ _ _ _ => m.left p
  | Frame.rightOf _ _ _ _ => m.right p

/-- The innermost ancestor is on the side of it that the descent of `insert` takes for
`key` (lines 201-206): the left below a state greater than `key`, else the right. -/
def keySide (key : CString) : Ancestors → Prop
  | [] => True
  | Frame.leftOf _ s _ _ :: _ => key < s
  | Frame.rightOf _ _ s _ :: _ => ¬ key < s

/-- The memories `m` and `m2` have the same `root`, the same sentinel pointer and the
same addresses allocated, every node has the same state, colour and links in both, and
every node whose state is not `key` the same record list. -/
def Mem.SameExceptRecordsAt (key : CString) (m m2 : Mem) : Prop :=
  m2.root = m.root ∧ m2.TNULL = m.TNULL ∧ m2.cells.length = m.cells.length ∧
    ∀ (a : Nat) (c : Cell), m.cells[a]? = some c →
      ∃ c2 : Cell, m2.cells[a]? = some c2 ∧ c2.state = c.state ∧
      c2.color = c.color ∧ c2.left = c.left ∧ c2.right = c.right ∧ c2.parent = c.parent ∧
      (c.state ≠ key → c2.diseases = c.diseases)

/-- The memory after lines 173-177 of `insert`: the new node is at the next address,
red, with the sentinel as both children and without parent. -/
def Mem.withNode (m : Mem) (key : CString) (info : hashTableVars) : Mem :=
  { m with
    cells := m.cells ++ [⟨key, [info], Color.RED, m.TNULL, m.TNULL, none⟩]
    colorWrites := (some m.cells.length, Color.RED) :: m.colorWrites }

/-! ## A memory for the rotations -/

/-- Insertions for Florida and Texas. -/
def floridaTexas : List Insertion :=
  [(Florida, ⟨Asthma, 2020, 60, mortality⟩), (Texas, ⟨Asthma, 2020, 50, mortality⟩)]

/-- The memory after the insertions for Florida and Texas: the sentinel at address 0, the
black root Florida at 1 and Texas, its red right child, at 2. -/
def floridaTexasMem : Mem :=
  ⟨[Mem.sentinelCell,
      ⟨Florida, [⟨Asthma, 2020, 60, mortality⟩], Color.BLACK, some 0, some 2, none⟩,
      ⟨Texas, [⟨Asthma, 2020, 50, mortality⟩], Color.RED, some 0, some 0, some 1⟩],
    some 1, some 0,
    [(some 2, Color.RED), (some 1, Color.BLACK), (some 1, Color.RED), (some 0, Color.BLACK)]⟩

/-- The memory `floridaTexasMem` after `leftRotate` at Florida: Texas is the root and
Florida its left child. -/
def texasFloridaMem : Mem :=
  ⟨[Mem.sentinelCell,
      ⟨Florida, [⟨Asthma, 2020, 60, mortality⟩], Color.BLACK, some 0, some 0, some 2⟩,
      ⟨Texas, [⟨Asthma, 2020, 50, mortality⟩], Color.RED, some 1, some 0, none⟩],
    some 2, some 0,
    [(some 2, Color.RED), (some 1, Color.BLACK), (some 1, Color.RED), (some 0, Color.BLACK)]⟩

open RBTree

/-! ## Record lists -/

theorem sameRecordKey_iff (e info : hashTableVars) :
    sameRecordKey e info = true ↔ recordKey e = recordKey info := by
  simp [sameRecordKey, recordKey, and_assoc]

theorem eq_of_recordKey_of_deathCount {a b : hashTableVars}
    (hk : recordKey a = recordKey b) (hd : a.deathCount = b.deathCount) : a = b := by
  cases a; cases b
  simp only [recordKey, Prod.mk.injEq] at hk
  simp_all

theorem recordKey_setDeath (e : hashTableVars) (c : Int) :
    recordKey { e with deathCount := c } = recordKey e := rfl

theorem mergeRecord_keys_of_mem (info : hashTableVars) :
    ∀ ds : List hashTableVars, recordKey info ∈ ds.map recordKey →
      (mergeRecord info ds).map recordKey = ds.map recordKey
  | [], h => by simp at h
  | e :: rest, h => by
    by_cases hk : sameRecordKey e info = true
    · simp only [mergeRecord, hk, if_true, List.map_cons]
      split <;> simp [recordKey_setDeath]
    · have hne : recordKey info ≠ recordKey e := fun hh =>
        hk ((sameRecordKey_iff e info).2 hh.symm)
      have h2 : recordKey info ∈ rest.map recordKey := by
        simpa [hne] using h
      simp [mergeRecord, hk, mergeRecord_keys_of_mem info rest h2]

theorem mergeRecord_keys_of_not_mem (info : hashTableVars) :
    ∀ ds : List hashTableVars, recordKey info ∉ ds.map recordKey →
      (mergeRecord info ds).map recordKey = ds.map recordKey ++ [recordKey info]
  | [], _ => by simp [mergeRecord]
  | e :: rest, h => by
    have hne : recordKey e ≠ recordKey info := fun hh => h (by simp [hh])
    have hk : ¬ sameRecordKey e info = true := fun hh => hne ((sameRecordKey_iff e info).1 hh)
    have h2 : recordKey info ∉ rest.map recordKey := fun hh => h (by simp [hh])
    simp [mergeRecord, hk, mergeRecord_keys_of_not_mem info rest h2]

theorem mergeRecord_nodup (info : hashTableVars) (ds : List hashTableVars)
    (h : (ds.map recordKey).Nodup) : ((mergeRecord info ds).map recordKey).Nodup := by
  by_cases hm : recordKey info ∈ ds.map recordKey
  · rw [mergeRecord_keys_of_mem info ds hm]; exact h
  · rw [mergeRecord_keys_of_not_mem info ds hm]
    exact List.Nodup.append h (List.nodup_singleton _) (by simpa using hm)

theorem mem_keys_mergeRecord (info : hashTableVars) (ds : List hashTableVars)
    (k : CString × Int × CString) :
    k ∈ (mergeRecord info ds).map recordKey ↔ k ∈ ds.map recordKey ∨ k = recordKey info := by
  by_cases hm : recordKey info ∈ ds.map recordKey
  · rw [mergeRecord_keys_of_mem info ds hm]
    constructor
    · exact Or.inl
    · rintro (h | h)
      · exact h
      · exact h ▸ hm
  · rw [mergeRecord_keys_of_not_mem info ds hm]; simp

/-- Where a record of the merged list comes from. -/
theorem mem_mergeRecord (info : hashTableVars) :
    ∀ ds : List hashTableVars, (ds.map recordKey).Nodup → ∀ e, e ∈ mergeRecord info ds →
      (e ∈ ds ∧ recordKey e ≠ recordKey info) ∨
      (recordKey e = recordKey info ∧ e ∈ ds ∧ info.deathCount ≤ e.deathCount) ∨
      (recordKey e = recordKey info ∧ e.deathCount = info.deathCount ∧
        ∀ e0 ∈ ds, recordKey e0 = recordKey info → e0.deathCount < info.deathCount)
  | [], _, e, h => by
    simp only [mergeRecord, List.mem_singleton] at h
    subst h
    exact Or.inr (Or.inr ⟨rfl, rfl, by simp⟩)
  | e1 :: rest, hnd, e, h => by
    have hnd1 : recordKey e1 ∉ rest.map recordKey := (List.nodup_cons.1 hnd).1
    have hnd2 : (rest.map recordKey).Nodup := (List.nodup_cons.1 hnd).2
    by_cases hk : sameRecordKey e1 info = true
    · have hk1 : recordKey e1 = recordKey info := (sameRecordKey_iff e1 info).1 hk
      have hrest : ∀ e0 ∈ rest, recordKey e0 ≠ recordKey info := by
        intro e0 h0 h1
        exact hnd1 (hk1 ▸ h1 ▸ List.mem_map_of_mem recordKey h0)
      simp only [mergeRecord, hk, if_true, List.mem_cons] at h
      rcases h with h | h
      · by_cases hlt : info.deathCount > e1.deathCount
        · simp only [hlt, if_true] at h
          subst h
          refine Or.inr (Or.inr ⟨hk1, rfl, ?_⟩)
          intro e0 h0 h1
          rcases List.mem_cons.1 h0 with h0 | h0
          · subst h0; exact hlt
          · exact absurd h1 (hrest e0 h0)
        · simp only [hlt, if_false] at h
          subst h
          exact Or.inr (Or.inl ⟨hk1, List.mem_cons_self _ _, not_lt.1 hlt⟩)
      · exact Or.inl ⟨List.mem_cons_of_mem _ h, hrest e h⟩
    · have hne : recordKey e1 ≠ recordKey info := fun hh => hk ((sameRecordKey_iff e1 info).2 hh)
      rw [mergeRecord, if_neg hk] at h
      rcases List.mem_cons.1 h with h | h
      · subst h
        exact Or.inl ⟨List.mem_cons_self _ _, hne⟩
      · rcases mem_mergeRecord info rest hnd2 e h with h1 | h1 | h1
        · exact Or.inl ⟨List.mem_cons_of_mem _ h1.1, h1.2⟩
        · exact Or.inr (Or.inl ⟨h1.1, List.mem_cons_of_mem _ h1.2.1, h1.2.2⟩)
        · refine Or.inr (Or.inr ⟨h1.1, h1.2.1, ?_⟩)
          intro e0 h0 h2
          rcases List.mem_cons.1 h0 with h0 | h0
          · subst h0; exact absurd h2 hne
          · exact h1.2.2 e0 h0 h2

/-! ## The record list of a state after a sequence of insertions -/

theorem stored_snoc (ops : List Insertion) (op : Insertion) (s : CString) :
    stored (ops ++ [op]) s = storeStep s (stored ops s) op := by
  simp [stored, List.foldl_append]

theorem IsMaxDeath.unique {ops : List Insertion} {s : CString} {k : CString × Int × CString}
    {c1 c2 : Int} (h1 : IsMaxDeath ops s k c1) (h2 : IsMaxDeath ops s k c2) : c1 = c2 := by
  obtain ⟨⟨o1, m1, s1, k1, d1⟩, u1⟩ := h1
  obtain ⟨⟨o2, m2, s2, k2, d2⟩, u2⟩ := h2
  have a := u1 o2 m2 s2 k2
  have b := u2 o1 m1 s1 k1
  omega

theorem RecordsInv.nil (s : CString) : RecordsInv [] s [] := by
  refine ⟨List.nodup_nil, ?_, ?_⟩ <;> simp

theorem RecordsInv.other {ops : List Insertion} {s : CString} {ds : List hashTableVars}
    (h : RecordsInv ops s ds) (op : Insertion) (hne : op.1 ≠ s) :
    RecordsInv (ops ++ [op]) s ds := by
  obtain ⟨ha, hb, hc⟩ := h
  refine ⟨ha, ?_, ?_⟩
  · intro k
    rw [hb k]
    constructor
    · rintro ⟨o, m, h1, h2⟩
      exact ⟨o, List.mem_append_left _ m, h1, h2⟩
    · rintro ⟨o, m, h1, h2⟩
      rcases List.mem_append.1 m with m | m
      · exact ⟨o, m, h1, h2⟩
      · rw [List.mem_singleton] at m; subst m; exact absurd h1 hne
  · intro e he
    obtain ⟨⟨o, m, h1, h2, h3⟩, hu⟩ := hc e he
    refine ⟨⟨o, List.mem_append_left _ m, h1, h2, h3⟩, ?_⟩
    intro o2 m2 h4 h5
    rcases List.mem_append.1 m2 with m2 | m2
    · exact hu o2 m2 h4 h5
    · rw [List.mem_singleton] at m2; subst m2; exact absurd h4 hne

theorem RecordsInv.same {ops : List Insertion} {s : CString} {ds : List hashTableVars}
    (h : RecordsInv ops s ds) (info : hashTableVars) :
    RecordsInv (ops ++ [(s, info)]) s (mergeRecord info ds) := by
  obtain ⟨ha, hb, hc⟩ := h
  refine ⟨mergeRecord_nodup info ds ha, ?_, ?_⟩
  · intro k
    rw [mem_keys_mergeRecord, hb k]
    constructor
    · rintro (⟨o, m, h1, h2⟩ | h)
      · exact ⟨o, List.mem_append_left _ m, h1, h2⟩
      · exact ⟨(s, info), by simp, rfl, h.symm⟩
    · rintro ⟨o, m, h1, h2⟩
      rcases List.mem_append.1 m with m | m
      · exact Or.inl ⟨o, m, h1, h2⟩
      · rw [List.mem_singleton] at m; subst m; exact Or.inr h2.symm
  · intro e he
    rcases mem_mergeRecord info ds ha e he with ⟨h1, h2⟩ | ⟨h1, h2, h3⟩ | ⟨h1, h2, h3⟩
    · obtain ⟨⟨o, m, a1, a2, a3⟩, hu⟩ := hc e h1
      refine ⟨⟨o, List.mem_append_left _ m, a1, a2, a3⟩, ?_⟩
      intro o2 m2 h4 h5
      rcases List.mem_append.1 m2 with m2 | m2
      · exact hu o2 m2 h4 h5
      · rw [List.mem_singleton] at m2; subst m2; exact absurd h5.symm h2
    · obtain ⟨⟨o, m, a1, a2, a3⟩, hu⟩ := hc e h2
      refine ⟨⟨o, List.mem_append_left _ m, a1, a2, a3⟩, ?_⟩
      intro o2 m2 h4 h5
      rcases List.mem_append.1 m2 with m2 | m2
      · exact hu o2 m2 h4 h5
      · rw [List.mem_singleton] at m2; subst m2; exact h3
    · refine ⟨⟨(s, info), by simp, rfl, h1.symm, h2.symm⟩, ?_⟩
      intro o2 m2 h4 h5
      rcases List.mem_append.1 m2 with m2 | m2
      · have hk : recordKey o2.2 ∈ ds.map recordKey := (hb _).2 ⟨o2, m2, h4, rfl⟩
        obtain ⟨e0, he0, hk0⟩ := List.mem_map.1 hk
        have hlt := h3 e0 he0 (by rw [hk0, h5, h1])
        have hle := (hc e0 he0).2 o2 m2 h4 hk0.symm
        omega
      · rw [List.mem_singleton] at m2; subst m2; simp [h2]

/-- The record list kept for a state: absent exactly when nothing was inserted under the
state, and otherwise one record per merge key with the largest death count. -/
theorem stored_spec (ops : List Insertion) (s : CString) :
    (stored ops s = none ↔ ∀ op ∈ ops, op.1 ≠ s) ∧
      RecordsInv ops s ((stored ops s).getD []) := by
  induction ops using List.reverseRecOn with
  | nil => exact ⟨by simp [stored], RecordsInv.nil s⟩
  | append_singleton ops op ih =>
    rw [stored_snoc]
    by_cases hs : op.1 = s
    · have hop : op = (s, op.2) := by rw [← hs]
      refine ⟨?_, ?_⟩
      · simp only [storeStep, hs, if_true]
        constructor
        · intro h; cases h
        · intro h; exact absurd hs (h op (by simp))
      · simp only [storeStep, hs, if_true, Option.getD_some]
        rw [hop]
        exact ih.2.same op.2
    · simp only [storeStep, hs, if_false]
      refine ⟨?_, ih.2.other op hs⟩
      rw [ih.1]
      constructor
      · intro h o m
        rcases List.mem_append.1 m with m | m
        · exact h o m
        · rw [List.mem_singleton] at m; subst m; exact hs
      · intro h o m
        exact h o (List.mem_append_left _ m)

theorem stored_ne_nil (ops : List Insertion) (s : CString) (ds : List hashTableVars)
    (h : stored ops s = some ds) : ds ≠ [] := by
  have h1 := (stored_spec ops s).1
  have h2 := (stored_spec ops s).2.2.1
  rw [h] at h1 h2
  simp only [Option.getD_some] at h2
  have : ¬ ∀ op ∈ ops, op.1 ≠ s := fun hh => by
    have := h1.2 hh; cases this
  push_neg at this
  obtain ⟨op, m, hs⟩ := this
  have hk := (h2 (recordKey op.2)).2 ⟨op, m, hs, rfl⟩
  intro hnil
  rw [hnil] at hk
  simp at hk

/-- Membership in the kept record list, in terms of the insertions only. -/
theorem mem_stored_iff (ops : List Insertion) (s : CString) (ds : List hashTableVars)
    (h : stored ops s = some ds) (e : hashTableVars) :
    e ∈ ds ↔ IsMaxDeath ops s (recordKey e) e.deathCount := by
  have h2 := (stored_spec ops s).2
  rw [h] at h2
  simp only [Option.getD_some] at h2
  obtain ⟨_, hb, hc⟩ := h2
  constructor
  · exact hc e
  · intro hm
    obtain ⟨o, m, a1, a2, _⟩ := hm.1
    have hk : recordKey e ∈ ds.map recordKey := (hb _).2 ⟨o, m, a1, a2⟩
    obtain ⟨e0, he0, hk0⟩ := List.mem_map.1 hk
    have := (hc e0 he0)
    rw [hk0] at this
    have hd := this.unique hm
    rw [← eq_of_recordKey_of_deathCount hk0 hd]
    exact he0

/-! ## In-order contents of the tree -/

namespace Node

@[simp] theorem toList_TNULL : TNULL.toList = [] := rfl

@[simp] theorem toList_node (c : Color) (l : Node) (s : CString) (d : List hashTableVars)
    (r : Node) : (node c l s d r).toList = l.toList ++ (s, d) :: r.toList := rfl

@[simp] theorem toList_setColor (c : Color) (t : Node) : (t.setColor c).toList = t.toList := by
  cases t <;> rfl

end Node

@[simp] theorem Frame.fill_leftOf (c : Color) (s : CString) (d : List hashTableVars)
    (r t : Node) : (Frame.leftOf c s d r).fill t = Node.node c t s d r := rfl

@[simp] theorem Frame.fill_rightOf (c : Color) (l : Node) (s : CString)
    (d : List hashTableVars) (t : Node) :
    (Frame.rightOf c l s d).fill t = Node.node c l s d t := rfl

@[simp] theorem plug_nil (t : Node) : plug t [] = t := rfl

@[simp] theorem plug_cons (t : Node) (f : Frame) (path : Ancestors) :
    plug t (f :: path) = plug (f.fill t) path := rfl

theorem plug_toList : ∀ (path : Ancestors) (t : Node),
    (plug t path).toList = entriesBefore path ++ t.toList ++ entriesAfter path
  | [], t => by simp [entriesBefore, entriesAfter]
  | Frame.leftOf c s d r :: path, t => by
    simp [entriesBefore, entriesAfter, plug_toList path]
  | Frame.rightOf c l s d :: path, t => by
    simp [entriesBefore, entriesAfter, plug_toList path]

theorem plug_toList_congr (path : Ancestors) {t1 t2 : Node} (h : t1.toList = t2.toList) :
    (plug t1 path).toList = (plug t2 path).toList := by
  rw [plug_toList, plug_toList, h]

@[simp] theorem Frame.fill_setColor_toList (c : Color) (f : Frame) (t : Node) :
    ((f.setColor c).fill t).toList = (f.fill t).toList := by
  cases f <;> rfl

theorem innerRight_toList {k : Node} {p : Frame} {k1 : Node} {p1 : Frame}
    (h : innerRight k p = some (k1, p1)) : (p1.fill k1).toList = (p.fill k).toList := by
  cases p with
  | rightOf c l s d => simp only [innerRight, Option.some.injEq, Prod.mk.injEq] at h; rw [← h.1, ← h.2]
  | leftOf c s d r =>
    cases k with
    | TNULL => simp [innerRight, rightRotate, rightChild] at h
    | node kc kl ks kd kr =>
      simp only [innerRight, Frame.fill_leftOf, rightRotate, rightChild, Option.some.injEq,
        Prod.mk.injEq] at h
      rw [← h.1, ← h.2]
      simp

theorem innerLeft_toList {k : Node} {p : Frame} {k1 : Node} {p1 : Frame}
    (h : innerLeft k p = some (k1, p1)) : (p1.fill k1).toList = (p.fill k).toList := by
  cases p with
  | leftOf c s d r => simp only [innerLeft, Option.some.injEq, Prod.mk.injEq] at h; rw [← h.1, ← h.2]
  | rightOf c l s d =>
    cases k with
    | TNULL => simp [innerLeft, leftRotate, leftChild] at h
    | node kc kl ks kd kr =>
      simp only [innerLeft, Frame.fill_rightOf, leftRotate, leftChild, Option.some.injEq,
        Prod.mk.injEq] at h
      rw [← h.1, ← h.2]
      simp

theorem leftRotate_toList {x y : Node} (h : leftRotate x = some y) : y.toList = x.toList := by
  unfold leftRotate at h
  split at h
  · simp only [Option.some.injEq] at h; rw [← h]; simp
  · cases h

theorem rightRotate_toList {x y : Node} (h : rightRotate x = some y) : y.toList = x.toList := by
  unfold rightRotate at h
  split at h
  · simp only [Option.some.injEq] at h; rw [← h]; simp
  · cases h

theorem rightChild_fill {o : Option Node} {k : Node} {p : Frame}
    (h : rightChild o = some (k, p)) : o = some (p.fill k) := by
  unfold rightChild at h
  split at h
  · simp only [Option.some.injEq, Prod.mk.injEq] at h; rw [← h.1, ← h.2]; rfl
  · cases h

theorem leftChild_fill {o : Option Node} {k : Node} {p : Frame}
    (h : leftChild o = some (k, p)) : o = some (p.fill k) := by
  unfold leftChild at h
  split at h
  · simp only [Option.some.injEq, Prod.mk.injEq] at h; rw [← h.1, ← h.2]; rfl
  · cases h

/-- The rebalancing loop leaves the in-order contents as they are. -/
theorem balanceLoop_toList : ∀ (fuel : Nat) (k : Node) (path : Ancestors) (t : Node),
    balanceLoop fuel k path = some t → t.toList = (plug k path).toList := by
  intro fuel
  induction fuel with
  | zero => intro k path t h; simp [balanceLoop] at h
  | succ n ih =>
    intro k path t h
    cases path with
    | nil => simp [balanceLoop] at h
    | cons p rest =>
      unfold balanceLoop at h
      simp only at h
      split at h
      · -- the parent is red
        split at h
        · cases h
        · -- parent is a right child
          rename_i u gs gd up
          split at h
          · split at h
            · simp only [Option.some.injEq] at h
              subst_vars
              simp
            · rw [ih _ _ _ h]
              simp only [plug_cons]
              apply plug_toList_congr
              simp
          · split at h
            · cases h
            · rename_i k1 p1 hin
              split at h
              · cases h
              · rename_i k2 p2 hout
                rw [ih _ _ _ h]
                simp only [plug_cons]
                apply plug_toList_congr
                have h1 := leftRotate_toList (rightChild_fill hout)
                rw [h1]
                have h2 := innerRight_toList hin
                simp [h2]
        · rename_i u gs gd up
          split at h
          · split at h
            · simp only [Option.some.injEq] at h
              subst_vars
              simp
            · rw [ih _ _ _ h]
              simp only [plug_cons]
              apply plug_toList_congr
              simp
          · split at h
            · cases h
            · rename_i k1 p1 hin
              split at h
              · cases h
              · rename_i k2 p2 hout
                rw [ih _ _ _ h]
                simp only [plug_cons]
                apply plug_toList_congr
                have h1 := rightRotate_toList (leftChild_fill hout)
                rw [h1]
                have h2 := innerLeft_toList hin
                simp [h2]
      · simp only [Option.some.injEq] at h
        rw [← h]; simp

/-! ## Red-black invariants -/

theorem Color.eq_black_of_ne_red {c : Color} (h : ¬ c = Color.RED) : c = Color.BLACK := by
  cases c
  · exact absurd rfl h
  · rfl

theorem Color.ne_red_of_eq_black {c : Color} (h : c = Color.BLACK) : ¬ c = Color.RED := by
  subst h; intro h; cases h

theorem Node.Ok_node (c : Color) (l : Node) (s : CString) (d : List hashTableVars)
    (r : Node) : (Node.node c l s d r).Ok ↔
      (c = Color.RED → l.color = Color.BLACK ∧ r.color = Color.BLACK) ∧
        l.blackHeight = r.blackHeight ∧ l.Ok ∧ r.Ok := by
  simp only [Node.Ok]

theorem Node.Ok_setColor_black {t : Node} (h : t.Ok) : (t.setColor Color.BLACK).Ok := by
  cases t with
  | TNULL => exact h
  | node c l s d r =>
    rw [Node.Ok_node] at h
    obtain ⟨_, h2, h3, h4⟩ := h
    simp only [Node.setColor]
    rw [Node.Ok_node]
    exact ⟨fun hc => Color.noConfusion hc, h2, h3, h4⟩

theorem Node.color_setColor_black (t : Node) : (t.setColor Color.BLACK).color = Color.BLACK := by
  cases t <;> rfl

theorem Node.Valid_setColor_black {t : Node} (h : t.Ok) : (t.setColor Color.BLACK).Valid :=
  And.intro (Node.color_setColor_black t) (Node.Ok_setColor_black h)

theorem Node.setColor_of_color {t : Node} {c : Color} (h : t.color = c) : t.setColor c = t := by
  cases t with
  | TNULL => rfl
  | node c1 l s d r => simp only [Node.color] at h; subst h; rfl

/-- Filling a well-coloured hole of a well-coloured path gives a red-black tree. -/
theorem plug_valid : ∀ (path : Ancestors) (k : Node) (n : Nat),
    PathOk path n → k.Ok → k.blackHeight = n → (k.color = Color.RED → topBlack path) →
      (plug k path).Valid
  | [], k, _, _, hk, _, hc => by
    refine And.intro ?_ hk
    rw [plug_nil]
    by_contra hne
    cases hcol : k.color with
    | RED => exact hc hcol
    | BLACK => exact hne hcol
  | f :: rest, k, n, hp, hk, hn, hc => by
    obtain ⟨hs, hsn, hred, hrest⟩ := hp
    rw [plug_cons]
    have hkb : f.color = Color.RED → k.color = Color.BLACK := by
      intro hf
      by_contra hne
      have hkr : k.color = Color.RED := by
        cases hcol : k.color with
        | RED => rfl
        | BLACK => exact absurd hcol hne
      have := hc hkr
      simp only [topBlack] at this
      rw [hf] at this
      cases this
    cases f with
    | leftOf c s d r =>
      simp only [Frame.sibling, Frame.color] at hs hsn hred hrest hkb
      apply plug_valid rest _ (n + (if c = Color.BLACK then 1 else 0)) hrest
      · rw [Frame.fill_leftOf, Node.Ok_node]
        exact ⟨fun hcr => ⟨hkb hcr, (hred hcr).1⟩, by rw [hn, hsn], hk, hs⟩
      · simp [Node.blackHeight, hn]
      · intro hcr
        exact (hred hcr).2
    | rightOf c l s d =>
      simp only [Frame.sibling, Frame.color] at hs hsn hred hrest hkb
      apply plug_valid rest _ (n + (if c = Color.BLACK then 1 else 0)) hrest
      · rw [Frame.fill_rightOf, Node.Ok_node]
        exact ⟨fun hcr => ⟨(hred hcr).1, hkb hcr⟩, by rw [hn, hsn], hs, hk⟩
      · simp [Node.blackHeight, hsn]
      · intro hcr
        exact (hred hcr).2

theorem Node.blackHeight_node (c : Color) (l : Node) (s : CString) (d : List hashTableVars)
    (r : Node) : (Node.node c l s d r).blackHeight =
      l.blackHeight + (if c = Color.BLACK then 1 else 0) := rfl

theorem Node.color_node (c : Color) (l : Node) (s : CString) (d : List hashTableVars)
    (r : Node) : (Node.node c l s d r).color = c := rfl

theorem PathOk_cons (f : Frame) (rest : Ancestors) (n : Nat) :
    PathOk (f :: rest) n ↔
      (f.sibling.Ok ∧ f.sibling.blackHeight = n ∧
        (f.color = Color.RED → f.sibling.color = Color.BLACK ∧ topBlack rest) ∧
        PathOk rest (n + (if f.color = Color.BLACK then 1 else 0))) := by
  simp only [PathOk]

/-- From a red node whose only possible defect is a red parent, the rebalancing loop
returns, and what it returns is a red-black tree. -/
theorem balanceLoop_valid : ∀ (fuel : Nat) (k : Node) (path : Ancestors) (n : Nat),
    path.length < fuel → path ≠ [] → k.color = Color.RED → k.Ok → k.blackHeight = n →
      PathOk path n → ∃ t, balanceLoop fuel k path = some t ∧ t.Valid := by
  intro fuel
  induction fuel with
  | zero => intro k path n h; omega
  | succ m ih =>
    intro k path n hlen hne hkc hk hn hp
    cases path with
    | nil => exact absurd rfl hne
    | cons p rest =>
      unfold balanceLoop
      simp only
      by_cases hpc : p.color = Color.RED
      · rw [if_pos hpc]
        rw [PathOk_cons] at hp
        obtain ⟨hs, hsn, hred, hrest⟩ := hp
        have hsb := (hred hpc).1
        have htop := (hred hpc).2
        simp only [hpc, if_false, Nat.add_zero, reduceCtorEq] at hrest
        cases rest with
        | nil => exact absurd htop (by simp [topBlack])
        | cons g up =>
          simp only [topBlack] at htop
          rw [PathOk_cons] at hrest
          obtain ⟨hgs, hgsn, _, hup⟩ := hrest
          simp only [htop, if_true] at hup
          have hlen2 : up.length < m := by simp only [List.length_cons] at hlen; omega
          cases k with
          | TNULL => simp [Node.color] at hkc
          | node kc kl ks kd kr =>
            simp only [Node.color] at hkc
            subst hkc
            rw [Node.Ok_node] at hk
            obtain ⟨hkch, hkbh, hkl, hkr⟩ := hk
            have hklc := (hkch rfl).1
            have hkrc := (hkch rfl).2
            simp only [Node.blackHeight_node, if_false, Nat.add_zero, reduceCtorEq] at hn
            cases g with
            | rightOf gc u gs gd =>
              simp only [Frame.sibling, Frame.color] at hgs hgsn htop
              subst htop
              simp only
              by_cases hu : u.color = Color.RED
              · rw [if_pos hu]
                cases u with
                | TNULL => simp [Node.color] at hu
                | node uc ul us ud ur =>
                  simp only [Node.color] at hu
                  subst hu
                  rw [Node.Ok_node] at hgs
                  simp only [Node.blackHeight_node, if_false, Nat.add_zero, reduceCtorEq] at hgsn
                  by_cases hnil : up = []
                  · rw [if_pos hnil]
                    refine ⟨_, rfl, Node.Valid_setColor_black ?_⟩
                    cases p <;>
                      simp_all [Node.Ok_node, Node.setColor, Frame.setColor, Frame.sibling,
                        Frame.color, Node.blackHeight_node, Node.color_node]
                  · rw [if_neg hnil]
                    refine ih _ up (n + 1) hlen2 hnil rfl ?_ ?_ hup
                    · cases p <;>
                        simp_all [Node.Ok_node, Node.setColor, Frame.setColor, Frame.sibling,
                          Frame.color, Node.blackHeight_node, Node.color_node]
                    · simp_all [Node.setColor, Node.blackHeight_node]
              · rw [if_neg hu]
                have hub := Color.eq_black_of_ne_red hu
                cases p with
                | rightOf pc pl ps pd =>
                  simp only [Frame.sibling, Frame.color] at hs hsn hpc hsb
                  subst hpc
                  simp only [innerRight, Frame.setColor, Frame.fill_rightOf, leftRotate,
                    rightChild]
                  refine ih _ _ n (by simp only [List.length_cons] at hlen ⊢; omega) (by simp) rfl ?_ ?_ ?_
                  · rw [Node.Ok_node]; exact ⟨fun _ => ⟨hklc, hkrc⟩, hkbh, hkl, hkr⟩
                  · simp [Node.blackHeight_node, hn]
                  · rw [PathOk_cons]
                    simp_all [Node.Ok_node, Frame.sibling, Frame.color, Node.blackHeight_node,
                      Node.color_node]
                | leftOf pc ps pd pr =>
                  simp only [Frame.sibling, Frame.color] at hs hsn hpc hsb
                  subst hpc
                  simp only [innerRight, Frame.setColor, Frame.fill_leftOf, Frame.fill_rightOf,
                    leftRotate, rightRotate, rightChild]
                  refine ih _ _ n (by simp only [List.length_cons] at hlen ⊢; omega) (by simp) rfl ?_ ?_ ?_
                  · rw [Node.Ok_node]; exact ⟨fun _ => ⟨hkrc, hsb⟩, by omega, hkr, hs⟩
                  · simp only [Node.blackHeight_node, if_false, Nat.add_zero, reduceCtorEq]; omega
                  · rw [PathOk_cons]
                    simp_all [Node.Ok_node, Frame.sibling, Frame.color, Node.blackHeight_node,
                      Node.color_node]
            | leftOf gc gs gd u =>
              simp only [Frame.sibling, Frame.color] at hgs hgsn htop
              subst htop
              simp only
              by_cases hu : u.color = Color.RED
              · rw [if_pos hu]
                cases u with
                | TNULL => simp [Node.color] at hu
                | node uc ul us ud ur =>
                  simp only [Node.color] at hu
                  subst hu
                  rw [Node.Ok_node] at hgs
                  simp only [Node.blackHeight_node, if_false, Nat.add_zero, reduceCtorEq] at hgsn
                  by_cases hnil : up = []
                  · rw [if_pos hnil]
                    refine ⟨_, rfl, Node.Valid_setColor_black ?_⟩
                    cases p <;>
                      simp_all [Node.Ok_node, Node.setColor, Frame.setColor, Frame.sibling,
                        Frame.color, Node.blackHeight_node, Node.color_node]
                  · rw [if_neg hnil]
                    refine ih _ up (n + 1) hlen2 hnil rfl ?_ ?_ hup
                    · cases p <;>
                        simp_all [Node.Ok_node, Node.setColor, Frame.setColor, Frame.sibling,
                          Frame.color, Node.blackHeight_node, Node.color_node]
                    · cases p <;>
                        simp_all [Node.setColor, Frame.setColor, Frame.sibling,
                          Frame.color, Node.blackHeight_node]
              · rw [if_neg hu]
                have hub := Color.eq_black_of_ne_red hu
                cases p with
                | leftOf pc ps pd pr =>
                  simp only [Frame.sibling, Frame.color] at hs hsn hpc hsb
                  subst hpc
                  simp only [innerLeft, Frame.setColor, Frame.fill_leftOf, rightRotate,
                    leftChild]
                  refine ih _ _ n (by simp only [List.length_cons] at hlen ⊢; omega) (by simp) rfl ?_ ?_ ?_
                  · rw [Node.Ok_node]; exact ⟨fun _ => ⟨hklc, hkrc⟩, hkbh, hkl, hkr⟩
                  · simp [Node.blackHeight_node, hn]
                  · rw [PathOk_cons]
                    simp_all [Node.Ok_node, Frame.sibling, Frame.color, Node.blackHeight_node,
                      Node.color_node]
                | rightOf pc pl ps pd =>
                  simp only [Frame.sibling, Frame.color] at hs hsn hpc hsb
                  subst hpc
                  simp only [innerLeft, Frame.setColor, Frame.fill_leftOf, Frame.fill_rightOf,
                    leftRotate, rightRotate, leftChild]
                  refine ih _ _ n (by simp only [List.length_cons] at hlen ⊢; omega) (by simp) rfl ?_ ?_ ?_
                  · rw [Node.Ok_node]; exact ⟨fun _ => ⟨hsb, hklc⟩, by omega, hs, hkl⟩
                  · simp only [Node.blackHeight_node, if_false, Nat.add_zero, reduceCtorEq]; omega
                  · rw [PathOk_cons]
                    simp_all [Node.Ok_node, Frame.sibling, Frame.color, Node.blackHeight_node,
                      Node.color_node]
      · rw [if_neg hpc]
        refine ⟨_, rfl, Node.Valid_setColor_black ?_⟩
        refine (plug_valid (p :: rest) _ n hp hk hn ?_).2
        intro _
        exact Color.eq_black_of_ne_red hpc

/-! ## Lists of states with their record lists -/

theorem lookupState_eq_none_iff (s : CString) :
    ∀ L : List (CString × List hashTableVars), lookupState s L = none ↔ ∀ e ∈ L, e.1 ≠ s
  | [] => by simp [lookupState]
  | e :: rest => by
    by_cases h : e.1 = s
    · simp [lookupState, h]
    · simp [lookupState, h, lookupState_eq_none_iff s rest]

theorem lookupState_append (s : CString) (B : List (CString × List hashTableVars)) :
    ∀ A : List (CString × List hashTableVars), lookupState s (A ++ B) =
      match lookupState s A with
      | some d => some d
      | none => lookupState s B
  | [] => by simp [lookupState]
  | e :: rest => by
    by_cases h : e.1 = s
    · simp [lookupState, h]
    · simp [lookupState, h, lookupState_append s B rest]

theorem lookupState_append_of_not_mem (s : CString) (A B : List (CString × List hashTableVars))
    (h : ∀ e ∈ A, e.1 ≠ s) : lookupState s (A ++ B) = lookupState s B := by
  rw [lookupState_append, (lookupState_eq_none_iff s A).2 h]

theorem lookupState_mem {s : CString} {d : List hashTableVars} :
    ∀ {L : List (CString × List hashTableVars)}, lookupState s L = some d → (s, d) ∈ L
  | [], h => by simp [lookupState] at h
  | e :: rest, h => by
    by_cases he : e.1 = s
    · simp only [lookupState, he, if_true, Option.some.injEq] at h
      rw [← he, ← h]
      exact List.mem_cons_self _ _
    · simp only [lookupState, he, if_false] at h
      exact List.mem_cons_of_mem _ (lookupState_mem h)

theorem StateSorted.lookup_of_mem {L : List (CString × List hashTableVars)} (h : StateSorted L)
    {s : CString} {d : List hashTableVars} (hm : (s, d) ∈ L) : lookupState s L = some d := by
  induction L with
  | nil => cases hm
  | cons e rest ih =>
    rw [StateSorted, List.pairwise_cons] at h
    rcases List.mem_cons.1 hm with hm | hm
    · subst hm; simp [lookupState]
    · have hlt := h.1 _ hm
      have hne : e.1 ≠ s := ne_of_lt hlt
      simp only [lookupState, hne, if_false]
      exact ih h.2 hm

/-- The effect of an insertion on the record list found for each state. -/
theorem InsertedInto.lookup {key : CString} {info : hashTableVars}
    {L1 L2 : List (CString × List hashTableVars)} (h : InsertedInto key info L1 L2)
    (hs : StateSorted L1) (s : CString) :
    lookupState s L2 = storeStep s (lookupState s L1) (key, info) := by
  obtain ⟨A, B, h | ⟨d, h⟩⟩ := h
  · obtain ⟨h1, h2, hA, hB⟩ := h
    subst h1 h2
    by_cases hk : key = s
    · subst hk
      have hA2 : ∀ e ∈ A, e.1 ≠ key := fun e he => ne_of_lt (hA e he)
      have hB2 : ∀ e ∈ B, e.1 ≠ key := fun e he => (ne_of_lt (hB e he)).symm
      rw [lookupState_append_of_not_mem _ _ _ hA2, lookupState_append_of_not_mem _ _ _ hA2,
        (lookupState_eq_none_iff key B).2 hB2]
      simp [lookupState, storeStep, mergeRecord]
    · rw [lookupState_append, lookupState_append]
      simp [lookupState, storeStep, hk]
  · obtain ⟨h1, h2⟩ := h
    subst h1 h2
    by_cases hk : key = s
    · subst hk
      have hA2 : ∀ e ∈ A, e.1 ≠ key := by
        intro e he
        rw [StateSorted, List.pairwise_append] at hs
        exact ne_of_lt (hs.2.2 e he (key, d) (List.mem_cons_self _ _))
      rw [lookupState_append_of_not_mem _ _ _ hA2, lookupState_append_of_not_mem _ _ _ hA2]
      simp [lookupState, storeStep]
    · rw [lookupState_append, lookupState_append]
      simp [lookupState, storeStep, hk]

/-- An insertion keeps the list ordered by state. -/
theorem InsertedInto.sorted {key : CString} {info : hashTableVars}
    {L1 L2 : List (CString × List hashTableVars)} (h : InsertedInto key info L1 L2)
    (hs : StateSorted L1) : StateSorted L2 := by
  obtain ⟨A, B, h | ⟨d, h⟩⟩ := h
  · obtain ⟨h1, h2, hA, hB⟩ := h
    subst h1 h2
    rw [StateSorted, List.pairwise_append] at hs ⊢
    refine ⟨hs.1, ?_, ?_⟩
    · rw [List.pairwise_cons]
      exact ⟨fun b hb => hB b hb, hs.2.1⟩
    · intro a ha b hb
      rcases List.mem_cons.1 hb with hb | hb
      · subst hb; exact hA a ha
      · exact hs.2.2 a ha b hb
  · obtain ⟨h1, h2⟩ := h
    subst h1 h2
    rw [StateSorted, List.pairwise_append, List.pairwise_cons] at hs ⊢
    refine ⟨hs.1, ⟨fun b hb => hs.2.1.1 b hb, hs.2.1.2⟩, ?_⟩
    intro a ha b hb
    rcases List.mem_cons.1 hb with hb | hb
    · subst hb; exact hs.2.2 a ha (key, d) (List.mem_cons_self _ _)
    · exact hs.2.2 a ha b (List.mem_cons_of_mem _ hb)

/-! ## The descent of `insert` -/

theorem insertLoop_entries (key : CString) (info : hashTableVars) :
    ∀ (x : Node) (path : Ancestors) (t : Node), insertLoop key info x path = some t →
      StateSorted (entriesBefore path ++ x.toList ++ entriesAfter path) →
      (∀ a ∈ entriesBefore path, a.1 < key) → (∀ b ∈ entriesAfter path, key < b.1) →
      InsertedInto key info (entriesBefore path ++ x.toList ++ entriesAfter path) t.toList
  | Node.TNULL, path, t, h, _, hB, hA => by
    have hnew : t.toList = entriesBefore path ++ (key, [info]) :: entriesAfter path := by
      unfold insertLoop at h
      split at h
      · simp only [Option.some.injEq] at h
        rw [← h]; simp [entriesBefore, entriesAfter]
      · simp only [Option.some.injEq] at h
        rw [← h, ← plug_nil (Frame.fill _ _), ← plug_cons, plug_toList]
        simp
      · rw [balanceInsert] at h
        rw [balanceLoop_toList _ _ _ _ h, plug_toList]
        simp
    refine ⟨entriesBefore path, entriesAfter path, Or.inl ⟨by simp, hnew, hB, hA⟩⟩
  | Node.node c l s d r, path, t, h, hs, hB, hA => by
    unfold insertLoop at h
    by_cases hk : key = s
    · rw [if_pos hk] at h
      simp only [Option.some.injEq] at h
      subst hk
      refine ⟨entriesBefore path ++ l.toList, r.toList ++ entriesAfter path, Or.inr ⟨d, ?_, ?_⟩⟩
      · simp
      · rw [← h, plug_toList]; simp
    · rw [if_neg hk] at h
      have hs2 := hs
      simp only [Node.toList_node, StateSorted, List.pairwise_append, List.pairwise_cons,
        List.mem_append, List.mem_cons] at hs2
      by_cases hlt : key < s
      · rw [if_pos hlt] at h
        have := insertLoop_entries key info l (Frame.leftOf c s d r :: path) t h
        simp only [entriesBefore, entriesAfter] at this
        have heq : entriesBefore path ++ l.toList ++ ((s, d) :: r.toList ++ entriesAfter path)
            = entriesBefore path ++ (Node.node c l s d r).toList ++ entriesAfter path := by
          simp
        rw [heq] at this
        apply this hs hB
        intro b hb
        rcases List.mem_cons.1 hb with hb | hb
        · subst hb; exact hlt
        · rcases List.mem_append.1 hb with hb | hb
          · exact lt_trans hlt (hs2.1.2.1.2.1.1 b hb)
          · exact hA b hb
      · rw [if_neg hlt] at h
        have hgt : s < key := lt_of_le_of_ne (not_lt.1 hlt) (Ne.symm hk)
        have := insertLoop_entries key info r (Frame.rightOf c l s d :: path) t h
        simp only [entriesBefore, entriesAfter] at this
        have heq : entriesBefore path ++ (l.toList ++ [(s, d)]) ++ r.toList ++ entriesAfter path
            = entriesBefore path ++ (Node.node c l s d r).toList ++ entriesAfter path := by
          simp
        rw [heq] at this
        apply this hs _ hA
        intro a ha
        rcases List.mem_append.1 ha with ha | ha
        · exact hB a ha
        · rcases List.mem_append.1 ha with ha | ha
          · exact lt_trans (hs2.1.2.1.2.2 a ha (s, d) (Or.inl rfl)) hgt
          · rw [List.mem_singleton] at ha; subst ha; exact hgt

theorem insertLoop_valid (key : CString) (info : hashTableVars) :
    ∀ (x : Node) (path : Ancestors), x.Ok → PathOk path x.blackHeight →
      (x.color = Color.RED → topBlack path) →
      ∃ t, insertLoop key info x path = some t ∧ t.Valid
  | Node.TNULL, path, _, hp, _ => by
    have hnew : (Node.node Color.RED Node.TNULL key [info] Node.TNULL).Ok := by
      rw [Node.Ok_node]; exact ⟨fun _ => ⟨rfl, rfl⟩, rfl, trivial, trivial⟩
    cases path with
    | nil =>
      refine ⟨_, rfl, And.intro rfl ?_⟩
      rw [Node.Ok_node]; exact ⟨fun h => Color.noConfusion h, rfl, trivial, trivial⟩
    | cons p rest =>
      cases rest with
      | nil =>
        refine ⟨_, rfl, ?_⟩
        have hpb : p.color = Color.BLACK := by
          rw [PathOk_cons] at hp
          by_contra hne
          have hr : p.color = Color.RED := by
            cases hcol : p.color with
            | RED => rfl
            | BLACK => exact absurd hcol hne
          exact (hp.2.2.1 hr).2
        have := plug_valid [p] _ 0 hp hnew rfl (fun _ => hpb)
        simpa using this
      | cons g up =>
        have : insertLoop key info Node.TNULL (p :: g :: up) =
            balanceLoop ((p :: g :: up).length + 1)
              (Node.node Color.RED Node.TNULL key [info] Node.TNULL) (p :: g :: up) := rfl
        rw [this]
        exact balanceLoop_valid _ _ _ 0 (Nat.lt_succ_self _) (by simp) rfl hnew rfl hp
  | Node.node c l s d r, path, hx, hp, hc => by
    rw [Node.Ok_node] at hx
    obtain ⟨hch, hbh, hl, hr⟩ := hx
    simp only [Node.color_node] at hc
    simp only [Node.blackHeight_node] at hp
    unfold insertLoop
    by_cases hk : key = s
    · rw [if_pos hk]
      refine ⟨_, rfl, ?_⟩
      refine plug_valid path _ _ hp ?_ rfl hc
      rw [Node.Ok_node]
      exact ⟨hch, hbh, hl, hr⟩
    · rw [if_neg hk]
      by_cases hlt : key < s
      · rw [if_pos hlt]
        apply insertLoop_valid key info l _ hl
        · rw [PathOk_cons]
          simp only [Frame.sibling, Frame.color]
          exact ⟨hr, hbh.symm, fun h => ⟨(hch h).2, hc h⟩, hp⟩
        · intro hlr
          simp only [topBlack, Frame.color]
          by_contra hne
          have hcr : c = Color.RED := by
            cases c with
            | RED => rfl
            | BLACK => exact absurd rfl hne
          rw [(hch hcr).1] at hlr
          cases hlr
      · rw [if_neg hlt]
        apply insertLoop_valid key info r _ hr
        · rw [PathOk_cons]
          simp only [Frame.sibling, Frame.color]
          rw [← hbh]
          exact ⟨hl, rfl, fun h => ⟨(hch h).1, hc h⟩, hp⟩
        · intro hrr
          simp only [topBlack, Frame.color]
          by_contra hne
          have hcr : c = Color.RED := by
            cases c with
            | RED => rfl
            | BLACK => exact absurd rfl hne
          rw [(hch hcr).2] at hrr
          cases hrr

/-- What `searchTreeHelper` returns on an ordered tree: the sentinel when the state has no
entry, and otherwise a node of that state carrying the entry's record list. -/
theorem searchTreeHelper_spec (key : CString) :
    ∀ t : Node, StateSorted t.toList →
      (searchTreeHelper t key = Node.TNULL ∧ lookupState key t.toList = none) ∨
      ∃ c l d r, searchTreeHelper t key = Node.node c l key d r ∧
        lookupState key t.toList = some d
  | Node.TNULL, _ => Or.inl ⟨rfl, rfl⟩
  | Node.node c l s d r, hs => by
    have hs2 := hs
    simp only [Node.toList_node, StateSorted, List.pairwise_append, List.pairwise_cons,
      List.mem_cons] at hs2
    obtain ⟨hl, ⟨hsr, hr⟩, hcross⟩ := hs2
    have hls : ∀ e ∈ l.toList, e.1 < s := fun e he => hcross e he (s, d) (Or.inl rfl)
    unfold searchTreeHelper
    by_cases hk : key = s
    · rw [if_pos hk]
      subst hk
      refine Or.inr ⟨c, l, d, r, rfl, ?_⟩
      rw [Node.toList_node, lookupState_append_of_not_mem _ _ _ (fun e he => ne_of_lt (hls e he))]
      simp [lookupState]
    · rw [if_neg hk]
      by_cases hlt : key < s
      · rw [if_pos hlt]
        have hright : lookupState key ((s, d) :: r.toList) = none := by
          rw [lookupState_eq_none_iff]
          intro e he
          rcases List.mem_cons.1 he with he | he
          · subst he; exact Ne.symm hk
          · exact (ne_of_lt (lt_trans hlt (hsr e he))).symm
        rcases searchTreeHelper_spec key l hl with ⟨h1, h2⟩ | ⟨c1, l1, d1, r1, h1, h2⟩
        · refine Or.inl ⟨h1, ?_⟩
          rw [Node.toList_node, lookupState_append, h2]
          exact hright
        · refine Or.inr ⟨c1, l1, d1, r1, h1, ?_⟩
          rw [Node.toList_node, lookupState_append, h2]
      · rw [if_neg hlt]
        have hgt : s < key := lt_of_le_of_ne (not_lt.1 hlt) (Ne.symm hk)
        have hleft : ∀ e ∈ l.toList, e.1 ≠ key := fun e he => ne_of_lt (lt_trans (hls e he) hgt)
        have heq : lookupState key (Node.node c l s d r).toList = lookupState key r.toList := by
          rw [Node.toList_node, lookupState_append_of_not_mem _ _ _ hleft]
          simp [lookupState, Ne.symm hk]
        rw [heq]
        exact searchTreeHelper_spec key r hr

/-- One call of `insert` on an ordered red-black tree returns, and gives an ordered
red-black tree with the record merged in. -/
theorem RBTree.insert_spec (t : RBTree) (key : CString) (info : hashTableVars)
    (hv : t.root.Valid) (hs : StateSorted t.root.toList) :
    ∃ t2, t.insert key info = some t2 ∧ t2.root.Valid ∧
      InsertedInto key info t.root.toList t2.root.toList := by
  obtain ⟨r, hr, hrv⟩ := insertLoop_valid key info t.root [] hv.2 trivial
    (fun h => by rw [hv.1] at h; cases h)
  refine ⟨⟨r⟩, by simp [RBTree.insert, hr], hrv, ?_⟩
  have := insertLoop_entries key info t.root [] r hr
  simp only [entriesBefore, entriesAfter, List.nil_append, List.append_nil] at this
  exact this hs (by simp) (by simp)

theorem RBTree.insertAll_snoc (ops : List Insertion) (op : Insertion) :
    RBTree.insertAll (ops ++ [op]) =
      (RBTree.insertAll ops).bind fun t => t.insert op.1 op.2 := by
  simp [RBTree.insertAll, List.foldl_append]

/-- Every sequence of insertions runs to the end and leaves an ordered red-black tree
in which each state carries the record list of the abstract store. -/
theorem RBTree.insertAll_spec (ops : List Insertion) :
    ∃ t, RBTree.insertAll ops = some t ∧ t.root.Valid ∧ StateSorted t.root.toList ∧
      ∀ s, lookupState s t.root.toList = stored ops s := by
  induction ops using List.reverseRecOn with
  | nil =>
    exact ⟨RBTree.new, rfl, And.intro rfl trivial, List.Pairwise.nil, fun s => rfl⟩
  | append_singleton ops op ih =>
    obtain ⟨t, ht, hv, hs, hl⟩ := ih
    obtain ⟨t2, ht2, hv2, hins⟩ := RBTree.insert_spec t op.1 op.2 hv hs
    refine ⟨t2, ?_, hv2, hins.sorted hs, ?_⟩
    · rw [RBTree.insertAll_snoc, ht]; exact ht2
    · intro s
      rw [hins.lookup hs s, hl s, stored_snoc]

theorem Node.Ok.redRedFree : ∀ {t : Node}, t.Ok → t.redRedFree = true
  | Node.TNULL, _ => rfl
  | Node.node c l s d r, h => by
    rw [Node.Ok_node] at h
    obtain ⟨hc, _, hl, hr⟩ := h
    simp only [Node.redRedFree, Bool.and_eq_true, Bool.or_eq_true, decide_eq_true_eq]
    refine ⟨⟨?_, hl.redRedFree⟩, hr.redRedFree⟩
    cases c with
    | RED => exact Or.inr (hc rfl)
    | BLACK => exact Or.inl rfl

theorem Node.Ok.blackCounts : ∀ {t : Node}, t.Ok → ∀ a ∈ t.blackCounts, a = t.blackHeight
  | Node.TNULL, _, a, ha => by
    simpa [Node.blackCounts, Node.blackHeight] using ha
  | Node.node c l s d r, h, a, ha => by
    rw [Node.Ok_node] at h
    obtain ⟨_, hbh, hl, hr⟩ := h
    simp only [Node.blackCounts, List.mem_map, List.mem_append] at ha
    obtain ⟨b, hb, rfl⟩ := ha
    rw [Node.blackHeight_node]
    rcases hb with hb | hb
    · rw [hl.blackCounts b hb]
    · rw [hr.blackCounts b hb, hbh]

theorem filter_sameRecordKey_of_nodup (info : hashTableVars) :
    ∀ (ds : List hashTableVars), (ds.map recordKey).Nodup → ∀ e ∈ ds,
      recordKey e = recordKey info → ds.filter (fun x => sameRecordKey x info) = [e]
  | [], _, e, he, _ => by cases he
  | e1 :: rest, hnd, e, he, hk => by
    rw [List.map_cons, List.nodup_cons] at hnd
    have hnone : ∀ x ∈ rest, recordKey x ≠ recordKey e1 := by
      intro x hx hxk
      exact hnd.1 (hxk ▸ List.mem_map_of_mem recordKey hx)
    rcases List.mem_cons.1 he with he | he
    · subst he
      have h1 : sameRecordKey e info = true := (sameRecordKey_iff e info).2 hk
      have h2 : rest.filter (fun x => sameRecordKey x info) = [] := by
        rw [List.filter_eq_nil_iff]
        intro x hx hxs
        exact hnone x hx (((sameRecordKey_iff x info).1 hxs).trans hk.symm)
      rw [List.filter_cons, h2]
      simp only [h1, if_true]
    · have h1 : ¬ sameRecordKey e1 info = true := by
        intro h
        exact hnone e he (hk.trans ((sameRecordKey_iff e1 info).1 h).symm)
      rw [List.filter_cons, if_neg h1]
      exact filter_sameRecordKey_of_nodup info rest hnd.2 e he hk

/-- The abstract store holds, for an inserted record, exactly one record of its merge
key, with the largest death count inserted. -/
theorem stored_merge (ops : List Insertion) (op : Insertion) (hop : op ∈ ops) :
    ∃ ds e, stored ops op.1 = some ds ∧
      ds.filter (fun x => sameRecordKey x op.2) = [e] ∧
      IsMaxDeath ops op.1 (recordKey op.2) e.deathCount := by
  have hspec := stored_spec ops op.1
  cases hst : stored ops op.1 with
  | none => exact absurd rfl (hspec.1.1 hst op hop)
  | some ds =>
    rw [hst] at hspec
    obtain ⟨hnd, hkeys, hmax⟩ := hspec.2
    simp only [Option.getD_some] at hnd hkeys hmax
    have hk : recordKey op.2 ∈ ds.map recordKey := (hkeys _).2 ⟨op, hop, rfl, rfl⟩
    obtain ⟨e, he, hek⟩ := List.mem_map.1 hk
    refine ⟨ds, e, rfl, filter_sameRecordKey_of_nodup op.2 ds hnd e he hek, ?_⟩
    rw [← hek]
    exact hmax e he



/-! ## The hash function -/

namespace HashTable

theorem hashFunction_lt (key : CString) : hashFunction key < 100 := by
  unfold hashFunction hashGroups
  exact Int.tmod_lt_of_pos _ (by decide)

theorem wrapInt32_of_range {z : Int} (h1 : -2147483648 ≤ z) (h2 : z < 2147483648) :
    wrapInt32 z = z := by
  unfold wrapInt32
  omega

theorem charValue_of_ascii {ch : Fin 256} (h : ch.val < 128) :
    0 ≤ charValue ch ∧ charValue ch ≤ 127 := by
  unfold charValue
  rw [if_pos h]
  omega

theorem hashLoop_ascii : ∀ (key : CString) (hash : Int), (∀ ch ∈ key, ch.val < 128) →
    0 ≤ hash → hash + 127 * key.length < 2147483648 →
      0 ≤ hashLoop hash key ∧ hashLoop hash key ≤ hash + 127 * key.length
  | [], hash, _, h0, _ => by simp [hashLoop, h0]
  | ch :: rest, hash, hall, h0, hlen => by
    have hc := charValue_of_ascii (hall ch (List.mem_cons_self _ _))
    simp only [List.length_cons, Nat.cast_add, Nat.cast_one] at hlen ⊢
    have hw : wrapInt32 (hash + charValue ch) = hash + charValue ch :=
      wrapInt32_of_range (by omega) (by omega)
    rw [hashLoop, hw]
    have := hashLoop_ascii rest (hash + charValue ch)
      (fun c hc2 => hall c (List.mem_cons_of_mem _ hc2)) (by omega) (by omega)
    constructor
    · exact this.1
    · have := this.2; omega

/-- For a key of 7-bit characters that is shorter than 2^24 bytes the hash is an index
of the table. -/
theorem hashFunction_ascii (key : CString) (hall : ∀ ch ∈ key, ch.val < 128)
    (hlen : key.length < 16777216) : 0 ≤ hashFunction key ∧ hashFunction key < 100 := by
  refine ⟨?_, hashFunction_lt key⟩
  have h := hashLoop_ascii key 0 hall (le_refl 0) (by omega)
  exact Int.tmod_nonneg _ h.1

theorem cell_of_nonneg (t : HashTable) (hl : t.table.length = hashGroups) (key : CString)
    (h : 0 ≤ hashFunction key) :
    ∃ c, t.cell (hashFunction key) = some c ∧
      t.table[(hashFunction key).toNat]? = some c := by
  have hlt : (hashFunction key).toNat < t.table.length := by
    rw [hl]
    have := hashFunction_lt key
    unfold hashGroups
    omega
  refine ⟨t.table[(hashFunction key).toNat], ?_, List.getElem?_eq_getElem hlt⟩
  unfold cell
  rw [if_pos h, List.getElem?_eq_getElem hlt]

theorem cell_of_neg (t : HashTable) (key : CString) (h : hashFunction key < 0) :
    t.cell (hashFunction key) = none := by
  unfold cell
  rw [if_neg (by omega)]

theorem cell_eq_some {t : HashTable} {h : Int} {c : Bucket} (hc : t.cell h = some c) :
    0 ≤ h ∧ t.table[h.toNat]? = some c := by
  unfold cell at hc
  by_cases h0 : 0 ≤ h
  · rw [if_pos h0] at hc; exact ⟨h0, hc⟩
  · rw [if_neg h0] at hc; cases hc

end HashTable

open HashTable

/-! ## Buckets -/

theorem storeStep_of_ne {s key : CString} (h : key ≠ s) (cur : Option (List hashTableVars))
    (info : hashTableVars) : storeStep s cur (key, info) = cur := by
  simp [storeStep, h]

theorem lookupState_insertCell (key : CString) (info : hashTableVars) (s : CString) :
    ∀ c : Bucket, lookupState s (insertCell key info c) =
      storeStep s (lookupState s c) (key, info)
  | [] => by
    by_cases h : key = s
    · simp [insertCell, lookupState, storeStep, h, mergeRecord]
    · simp [insertCell, lookupState, storeStep, h]
  | e :: rest => by
    by_cases he : e.1 = key
    · by_cases h : key = s
      · simp [insertCell, lookupState, storeStep, he, h]
      · have : ¬ e.1 = s := by rw [he]; exact h
        simp [insertCell, lookupState, storeStep, he, h]
    · by_cases hs : e.1 = s
      · have hks : ¬ key = s := by rw [← hs]; exact fun h => he h.symm
        rw [insertCell, if_neg he, lookupState, if_pos hs, lookupState, if_pos hs,
          storeStep_of_ne hks]
      · simp [insertCell, lookupState, he, hs, lookupState_insertCell key info s rest]

theorem displayCell_eq (state disease : CString) :
    ∀ c : Bucket, displayCell state disease c =
      displayStored state disease (lookupState state c)
  | [] => rfl
  | e :: rest => by
    by_cases h : e.1 = state
    · simp [displayCell, lookupState, displayStored, h]
    · simp [displayCell, lookupState, h, displayCell_eq state disease rest]

/-- One `insertItem` with a key that hashes into the table: the call returns, the
number of buckets stays, and the record list found for each state changes as in the
abstract store. -/
theorem HashTable.insertItem_spec (t : HashTable) (hl : t.table.length = hashGroups)
    (key : CString) (info : hashTableVars) (hk : 0 ≤ hashFunction key) :
    ∃ t2, t.insertItem key info = some t2 ∧ t2.table.length = hashGroups ∧
      ∀ s c, t.cell (hashFunction s) = some c →
        ∃ c2, t2.cell (hashFunction s) = some c2 ∧
          lookupState s c2 = storeStep s (lookupState s c) (key, info) := by
  obtain ⟨c0, hc0, hg0⟩ := cell_of_nonneg t hl key hk
  have hlt : (hashFunction key).toNat < t.table.length := by
    rw [hl]
    have := hashFunction_lt key
    unfold hashGroups
    omega
  have hins : t.insertItem key info =
      some ⟨t.table.set (hashFunction key).toNat (insertCell key info c0)⟩ := by
    unfold insertItem
    simp only [hc0]
  refine ⟨_, hins, by simp [hl], ?_⟩
  intro s c hc
  obtain ⟨hs0, hgs⟩ := cell_eq_some hc
  by_cases hh : hashFunction key = hashFunction s
  · have hcc : c = c0 := by
      rw [← hh, hg0] at hgs
      exact (Option.some.inj hgs).symm
    subst hcc
    refine ⟨insertCell key info c, ?_, lookupState_insertCell key info s c⟩
    unfold cell
    rw [if_pos hs0, ← hh]
    exact List.getElem?_set_self hlt
  · have hne : key ≠ s := fun h => hh (by rw [h])
    refine ⟨c, ?_, by rw [storeStep_of_ne hne]⟩
    unfold cell
    rw [if_pos hs0]
    simp only
    rw [List.getElem?_set_ne]
    · exact hgs
    · intro h
      apply hh
      have := congrArg Int.ofNat h
      omega

theorem HashTable.insertAll_append_one (ops : List Insertion) (op : Insertion) :
    HashTable.insertAll (ops ++ [op]) =
      (HashTable.insertAll ops).bind fun t => t.insertItem op.1 op.2 := by
  simp [HashTable.insertAll, List.foldl_append]

theorem HashTable.new_cell (s : CString) (h : 0 ≤ hashFunction s) :
    HashTable.new.cell (hashFunction s) = some [] := by
  have hlt : (hashFunction s).toNat < hashGroups := by
    have := hashFunction_lt s
    unfold hashGroups
    omega
  unfold cell HashTable.new
  rw [if_pos h]
  simp [List.getElem?_replicate, hlt]

/-- Insertions whose keys all hash into the table run to the end, and the table then
holds for each state the record list of the abstract store. -/
theorem HashTable.insertAll_lookup (ops : List Insertion)
    (hops : ∀ op ∈ ops, 0 ≤ hashFunction op.1) :
    ∃ t, HashTable.insertAll ops = some t ∧ t.table.length = hashGroups ∧
      ∀ s, 0 ≤ hashFunction s →
        ∃ c, t.cell (hashFunction s) = some c ∧ lookupState s c = stored ops s := by
  induction ops using List.reverseRecOn with
  | nil =>
    refine ⟨HashTable.new, rfl, by simp [HashTable.new], ?_⟩
    intro s hs
    exact ⟨[], HashTable.new_cell s hs, rfl⟩
  | append_singleton ops op ih =>
    obtain ⟨t, ht, hl, hst⟩ := ih (fun o ho => hops o (List.mem_append_left _ ho))
    obtain ⟨t2, ht2, hl2, hst2⟩ := HashTable.insertItem_spec t hl op.1 op.2
      (hops op (by simp))
    refine ⟨t2, ?_, hl2, ?_⟩
    · rw [HashTable.insertAll_append_one, ht]; exact ht2
    · intro s hs
      obtain ⟨c, hc, hlook⟩ := hst s hs
      obtain ⟨c2, hc2, hlook2⟩ := hst2 s c hc
      exact ⟨c2, hc2, by rw [hlook2, hlook, stored_snoc]⟩

/-- A sequence of insertions that runs to the end used only keys that hash into the
table. -/
theorem HashTable.insertAll_keys (ops : List Insertion) (t : HashTable)
    (h : HashTable.insertAll ops = some t) : ∀ op ∈ ops, 0 ≤ hashFunction op.1 := by
  induction ops using List.reverseRecOn generalizing t with
  | nil => intro op hop; cases hop
  | append_singleton ops op ih =>
    rw [HashTable.insertAll_append_one] at h
    cases h1 : HashTable.insertAll ops with
    | none => rw [h1] at h; cases h
    | some t1 =>
      rw [h1] at h
      change t1.insertItem op.1 op.2 = some t at h
      intro o ho
      rcases List.mem_append.1 ho with ho | ho
      · exact ih t1 h1 o ho
      · rw [List.mem_singleton] at ho
        subst ho
        unfold insertItem at h
        cases h2 : t1.cell (hashFunction o.1) with
        | none => simp only [h2] at h; cases h
        | some c => exact (cell_eq_some h2).1

/-- What the hash table prints after insertions with keys that hash into the table. -/
theorem HashTable.display_after_insertItems (ops : List Insertion)
    (hops : ∀ op ∈ ops, 0 ≤ hashFunction op.1) :
    ∃ t, HashTable.insertAll ops = some t ∧
      ∀ s d, 0 ≤ hashFunction s →
        t.displayDeathCount s d = some (displayStored s d (stored ops s)) := by
  obtain ⟨t, ht, _, hst⟩ := HashTable.insertAll_lookup ops hops
  refine ⟨t, ht, ?_⟩
  intro s d hs
  obtain ⟨c, hc, hlook⟩ := hst s hs
  simp [HashTable.displayDeathCount, hc, displayCell_eq, hlook]

/-- What the tree prints after insertions. -/
theorem RBTree.display_after_inserts (ops : List Insertion) :
    ∃ t, RBTree.insertAll ops = some t ∧
      ∀ s d, t.displayDeathCount s d = displayStored s d (stored ops s) := by
  obtain ⟨t, ht, _, hs, hl⟩ := RBTree.insertAll_spec ops
  refine ⟨t, ht, ?_⟩
  intro s d
  unfold RBTree.displayDeathCount
  rcases searchTreeHelper_spec s t.root hs with ⟨h1, h2⟩ | ⟨c, l, ds, r, h1, h2⟩
  · rw [h1, ← hl, h2]; rfl
  · rw [h1, ← hl, h2]; rfl


/-! ## Order of the insertions -/

theorem IsMaxDeath.of_perm {ops ops2 : List Insertion} (hp : ops.Perm ops2) {s : CString}
    {k : CString × Int × CString} {c : Int} (h : IsMaxDeath ops s k c) :
    IsMaxDeath ops2 s k c := by
  obtain ⟨⟨o, ho, h1, h2, h3⟩, hu⟩ := h
  exact ⟨⟨o, hp.mem_iff.1 ho, h1, h2, h3⟩, fun o2 ho2 => hu o2 (hp.mem_iff.2 ho2)⟩

/-- The record list kept for a state depends on the order of the insertions only in the
order of its records. -/
theorem stored_perm {ops ops2 : List Insertion} (hp : ops.Perm ops2) (s : CString) :
    (stored ops s = none ∧ stored ops2 s = none) ∨
      ∃ ds ds2, stored ops s = some ds ∧ stored ops2 s = some ds2 ∧ ds.Perm ds2 := by
  cases h1 : stored ops s with
  | none =>
    left
    refine ⟨rfl, ?_⟩
    rw [(stored_spec ops2 s).1]
    intro o ho
    exact (stored_spec ops s).1.1 h1 o (hp.mem_iff.2 ho)
  | some ds =>
    cases h2 : stored ops2 s with
    | none =>
      exfalso
      have := (stored_spec ops s).1.2 (fun o ho => (stored_spec ops2 s).1.1 h2 o (hp.mem_iff.1 ho))
      rw [h1] at this
      cases this
    | some ds2 =>
      right
      refine ⟨ds, ds2, rfl, rfl, ?_⟩
      have n1 := (stored_spec ops s).2.1
      have n2 := (stored_spec ops2 s).2.1
      rw [h1] at n1
      rw [h2] at n2
      simp only [Option.getD_some] at n1 n2
      rw [List.perm_ext_iff_of_nodup (List.Nodup.of_map _ n1) (List.Nodup.of_map _ n2)]
      intro e
      rw [mem_stored_iff ops s ds h1, mem_stored_iff ops2 s ds2 h2]
      exact ⟨fun h => h.of_perm hp, fun h => h.of_perm hp.symm⟩

/-! ## Printed lines -/

theorem recordLines_perm (state disease : CString) {ds ds2 : List hashTableVars}
    (hp : ds.Perm ds2) : (recordLines state disease ds).Perm (recordLines state disease ds2) :=
  hp.filterMap _

theorem displayRecords_perm (state disease : CString) {ds ds2 : List hashTableVars}
    (hp : ds.Perm ds2) :
    (displayRecords state disease ds).Perm (displayRecords state disease ds2) := by
  have hf := recordLines_perm state disease hp
  unfold displayRecords
  simp only
  by_cases he : recordLines state disease ds = []
  · have he2 : recordLines state disease ds2 = [] := by
      rw [he] at hf
      exact List.nil_perm.1 hf
    rw [he, he2]
  · have he2 : ¬ recordLines state disease ds2 = [] := by
      intro h
      rw [h] at hf
      exact he (List.perm_nil.1 hf)
    rw [if_neg (by simpa using he), if_neg (by simpa using he2)]
    exact hf

/-- The printed lines depend on the order of the insertions only in their order. -/
theorem displayStored_perm {ops ops2 : List Insertion} (hp : ops.Perm ops2)
    (s d : CString) :
    (displayStored s d (stored ops s)).Perm (displayStored s d (stored ops2 s)) := by
  rcases stored_perm hp s with ⟨h1, h2⟩ | ⟨ds, ds2, h1, h2, h3⟩
  · rw [h1, h2]
  · rw [h1, h2]
    exact displayRecords_perm s d h3

theorem recordLines_yearFlag (state disease : CString) :
    ∀ ds : List hashTableVars, (recordLines state disease ds).filterMap Line.yearFlag =
      (ds.filter fun e => decide (e.disease = disease)).map fun e => (e.year, e.isMortality)
  | [] => rfl
  | e :: rest => by
    have ih := recordLines_yearFlag state disease rest
    unfold recordLines at ih ⊢
    by_cases h : e.disease = disease
    · simp [List.filterMap_cons, List.filter_cons, h, Line.yearFlag, ih]
    · simp [List.filterMap_cons, List.filter_cons, h, ih]

theorem recordLines_eq_map (state disease : CString) :
    ∀ ds : List hashTableVars, recordLines state disease ds =
      (ds.filter fun e => decide (e.disease = disease)).map fun e =>
        Line.record state disease e.year e.deathCount e.isMortality
  | [] => rfl
  | e :: rest => by
    have ih := recordLines_eq_map state disease rest
    unfold recordLines at ih ⊢
    by_cases h : e.disease = disease
    · simp [List.filterMap_cons, List.filter_cons, h, ih]
    · simp [List.filterMap_cons, List.filter_cons, h, ih]

/-- With one record per merge key in the list, the record lines of a disease differ in
year or mortality flag. -/
theorem recordLines_nodup (state disease : CString) (ds : List hashTableVars)
    (hnd : (ds.map recordKey).Nodup) :
    ((recordLines state disease ds).filterMap Line.yearFlag).Nodup := by
  rw [recordLines_yearFlag]
  apply List.Nodup.map_on
  · intro x hx y hy hxy
    rw [List.mem_filter, decide_eq_true_eq] at hx hy
    simp only [Prod.mk.injEq] at hxy
    apply List.inj_on_of_nodup_map hnd hx.1 hy.1
    simp only [recordKey, Prod.mk.injEq]
    exact ⟨hx.2.trans hy.2.symm, hxy.1, hxy.2⟩
  · exact (List.Nodup.of_map _ hnd).filter _

theorem displayStored_nodup (ops : List Insertion) (s d : CString) :
    ((displayStored s d (stored ops s)).filterMap Line.yearFlag).Nodup := by
  cases h : stored ops s with
  | none => simp [displayStored, Line.yearFlag]
  | some ds =>
    have hnd := (stored_spec ops s).2.1
    rw [h] at hnd
    simp only [Option.getD_some] at hnd
    simp only [displayStored, displayRecords]
    by_cases he : recordLines s d ds = []
    · simp [he, Line.yearFlag]
    · rw [if_neg (by simpa using he)]
      exact recordLines_nodup s d ds hnd


/-! ## Buckets under insertion and removal -/

theorem mem_insertCell (key : CString) (info : hashTableVars) :
    ∀ (c : Bucket) (e : CString × List hashTableVars), e ∈ insertCell key info c →
      e.1 = key ∨ e ∈ c
  | [], e, h => by
    simp only [insertCell, List.mem_singleton] at h
    left; rw [h]
  | e1 :: rest, e, h => by
    by_cases he : e1.1 = key
    · rw [insertCell, if_pos he] at h
      rcases List.mem_cons.1 h with h | h
      · left; rw [h]; exact he
      · right; exact List.mem_cons_of_mem _ h
    · rw [insertCell, if_neg he] at h
      rcases List.mem_cons.1 h with h | h
      · right; rw [h]; exact List.mem_cons_self _ _
      · rcases mem_insertCell key info rest e h with h | h
        · left; exact h
        · right; exact List.mem_cons_of_mem _ h

theorem insertCell_states_of_mem (key : CString) (info : hashTableVars) :
    ∀ c : Bucket, key ∈ c.map Prod.fst → (insertCell key info c).map Prod.fst = c.map Prod.fst
  | [], h => by cases h
  | e1 :: rest, h => by
    by_cases he : e1.1 = key
    · rw [insertCell, if_pos he]; rfl
    · rw [insertCell, if_neg he]
      have h2 : key ∈ rest.map Prod.fst := by
        rcases List.mem_cons.1 h with h | h
        · exact absurd h.symm he
        · exact h
      simp [insertCell_states_of_mem key info rest h2]

theorem insertCell_states_of_not_mem (key : CString) (info : hashTableVars) :
    ∀ c : Bucket, key ∉ c.map Prod.fst →
      (insertCell key info c).map Prod.fst = c.map Prod.fst ++ [key]
  | [], _ => rfl
  | e1 :: rest, h => by
    have he : ¬ e1.1 = key := fun hh => h (by simp [hh])
    have h2 : key ∉ rest.map Prod.fst := fun hh => h (List.mem_cons_of_mem _ hh)
    rw [insertCell, if_neg he]
    simp [insertCell_states_of_not_mem key info rest h2]

theorem insertCell_nodup (key : CString) (info : hashTableVars) (c : Bucket)
    (h : (c.map Prod.fst).Nodup) : ((insertCell key info c).map Prod.fst).Nodup := by
  by_cases hm : key ∈ c.map Prod.fst
  · rw [insertCell_states_of_mem key info c hm]; exact h
  · rw [insertCell_states_of_not_mem key info c hm]
    exact List.Nodup.append h (List.nodup_singleton _) (by simpa using hm)

theorem removeCell_sublist (key : CString) :
    ∀ c : Bucket, (removeCell key c).1.Sublist c
  | [] => List.Sublist.refl _
  | e1 :: rest => by
    by_cases he : e1.1 = key
    · rw [removeCell, if_pos he]; exact List.sublist_cons_self _ _
    · rw [removeCell, if_neg he]
      exact (removeCell_sublist key rest).cons₂ _

theorem removeCell_found_iff (key : CString) :
    ∀ c : Bucket, (removeCell key c).2 = true ↔ ∃ e ∈ c, e.1 = key
  | [] => by simp [removeCell]
  | e1 :: rest => by
    by_cases he : e1.1 = key
    · rw [removeCell, if_pos he]
      simp [he]
    · rw [removeCell, if_neg he]
      simp [he, removeCell_found_iff key rest]

theorem removeCell_of_not_found (key : CString) :
    ∀ c : Bucket, (removeCell key c).2 = false → (removeCell key c).1 = c
  | [], _ => rfl
  | e1 :: rest, h => by
    by_cases he : e1.1 = key
    · rw [removeCell, if_pos he] at h; cases h
    · rw [removeCell, if_neg he] at h ⊢
      simp only at h ⊢
      rw [removeCell_of_not_found key rest h]

theorem removeCell_lookup (key : CString) :
    ∀ c : Bucket, (c.map Prod.fst).Nodup → lookupState key (removeCell key c).1 = none
  | [], _ => rfl
  | e1 :: rest, h => by
    rw [List.map_cons, List.nodup_cons] at h
    by_cases he : e1.1 = key
    · rw [removeCell, if_pos he, lookupState_eq_none_iff]
      intro e hm hk
      apply h.1
      rw [he, ← hk]
      exact List.mem_map_of_mem _ hm
    · rw [removeCell, if_neg he]
      simp only [lookupState, he, if_false]
      exact removeCell_lookup key rest h.2

theorem lookupState_of_mem_nodup {s : CString} {ds : List hashTableVars} :
    ∀ {c : Bucket}, (c.map Prod.fst).Nodup → (s, ds) ∈ c → lookupState s c = some ds
  | [], _, he => by cases he
  | e1 :: rest, hn, he => by
    rw [List.map_cons, List.nodup_cons] at hn
    rcases List.mem_cons.1 he with he | he
    · subst he; simp [lookupState]
    · have hne : ¬ e1.1 = s := by
        intro hh
        exact hn.1 (hh ▸ List.mem_map_of_mem Prod.fst he)
      simp only [lookupState, hne, if_false]
      exact lookupState_of_mem_nodup hn.2 he

theorem list_set_of_getElem? {α : Type} {l : List α} {i : Nat} {a : α} (h : l[i]? = some a) :
    l.set i a = l := by
  apply List.ext_getElem?
  intro n
  rw [List.getElem?_set]
  by_cases hn : i = n
  · subst hn
    rw [if_pos rfl, h]
    have := (List.getElem?_eq_some.1 h).1
    rw [if_pos this]
  · rw [if_neg hn]

theorem getElem?_set_some {α : Type} {l : List α} {i j : Nat} {a b : α}
    (h : (l.set i a)[j]? = some b) : (i = j ∧ b = a) ∨ (i ≠ j ∧ l[j]? = some b) := by
  rw [List.getElem?_set] at h
  by_cases hn : i = j
  · rw [if_pos hn] at h
    by_cases hl : i < l.length
    · rw [if_pos hl] at h
      exact Or.inl ⟨hn, (Option.some.inj h).symm⟩
    · rw [if_neg hl] at h; cases h
  · rw [if_neg hn] at h
    exact Or.inr ⟨hn, h⟩

namespace HashTable

theorem Wf.new : HashTable.new.Wf := by
  refine ⟨by simp [HashTable.new], ?_⟩
  intro i b hb
  simp only [HashTable.new, List.getElem?_replicate] at hb
  by_cases hi : i < hashGroups
  · rw [if_pos hi] at hb
    cases hb
    exact ⟨List.nodup_nil, fun e he => by cases he⟩
  · rw [if_neg hi] at hb; cases hb

theorem Wf.insertItem {t t2 : HashTable} (h : t.Wf) {key : CString} {info : hashTableVars}
    (hi : t.insertItem key info = some t2) : t2.Wf := by
  unfold HashTable.insertItem at hi
  cases hc : t.cell (hashFunction key) with
  | none => simp only [hc] at hi; cases hi
  | some c =>
    simp only [hc, Option.some.injEq] at hi
    obtain ⟨h0, hg⟩ := cell_eq_some hc
    subst hi
    refine ⟨by simp [h.1], ?_⟩
    intro i b hb
    rcases getElem?_set_some hb with ⟨h1, h2⟩ | ⟨_, h2⟩
    · subst h1 h2
      obtain ⟨hn, hh⟩ := h.2 _ c hg
      refine ⟨insertCell_nodup key info c hn, ?_⟩
      intro e he
      rcases mem_insertCell key info c e he with he | he
      · rw [he]; omega
      · exact hh e he
    · exact h.2 i b h2

theorem Wf.removeItem {t t2 : HashTable} (h : t.Wf) {key : CString} {out : List Line}
    (hr : t.removeItem key = some (t2, out)) : t2.Wf := by
  unfold HashTable.removeItem at hr
  cases hc : t.cell (hashFunction key) with
  | none => simp only [hc] at hr; cases hr
  | some c =>
    simp only [hc, Option.some.injEq, Prod.mk.injEq] at hr
    obtain ⟨h0, hg⟩ := cell_eq_some hc
    obtain ⟨hr, _⟩ := hr
    subst hr
    refine ⟨by simp [h.1], ?_⟩
    intro i b hb
    rcases getElem?_set_some hb with ⟨h1, h2⟩ | ⟨_, h2⟩
    · subst h1 h2
      obtain ⟨hn, hh⟩ := h.2 _ c hg
      have hsub := removeCell_sublist key c
      exact ⟨(hsub.map Prod.fst).nodup hn, fun e he => hh e (hsub.subset he)⟩
    · exact h.2 i b h2

theorem run_snoc (calls : List HashCall) (c : HashCall) :
    HashTable.run (calls ++ [c]) = (HashTable.run calls).bind fun t => t.call c := by
  simp [HashTable.run, List.foldl_append]

/-- Every table reached by `insertItem` and `removeItem` calls has its buckets in order. -/
theorem Wf.run : ∀ (calls : List HashCall) (t : HashTable), HashTable.run calls = some t → t.Wf := by
  intro calls
  induction calls using List.reverseRecOn with
  | nil =>
    intro t h
    simp only [HashTable.run, List.foldl_nil, Option.some.injEq] at h
    subst h
    exact Wf.new
  | append_singleton calls c ih =>
    intro t h
    rw [run_snoc] at h
    cases h1 : HashTable.run calls with
    | none => rw [h1] at h; cases h
    | some t1 =>
      rw [h1] at h
      change t1.call c = some t at h
      have hw := ih t1 h1
      cases c with
      | insertItem key info => exact hw.insertItem h
      | removeItem key =>
        simp only [HashTable.call, Option.map_eq_some', Prod.exists, exists_and_right,
          exists_eq_right] at h
        obtain ⟨out, hout⟩ := h
        exact hw.removeItem hout

/-- In a table with its buckets in order, the entry of a state is found by the scan of
the bucket of the state. -/
theorem Wf.holds_iff {t : HashTable} (h : t.Wf) (s : CString) (hs : 0 ≤ hashFunction s)
    (ds : List hashTableVars) :
    t.holds s ds ↔ ∃ c, t.cell (hashFunction s) = some c ∧ lookupState s c = some ds := by
  obtain ⟨c, hc, hg⟩ := cell_of_nonneg t h.1 s hs
  constructor
  · rintro ⟨b, hb, he⟩
    obtain ⟨i, hi⟩ := List.mem_iff_getElem?.1 hb
    obtain ⟨hn, hh⟩ := h.2 i b hi
    have hidx : (hashFunction s).toNat = i := by
      have := hh _ he
      simp only at this
      omega
    rw [hidx, hi] at hg
    have hbc : b = c := Option.some.inj hg
    rw [← hbc] at hc
    exact ⟨b, hc, lookupState_of_mem_nodup hn he⟩
  · rintro ⟨c2, hc2, hl⟩
    rw [hc] at hc2
    cases hc2
    exact ⟨c, List.mem_iff_getElem?.2 ⟨_, hg⟩, lookupState_mem hl⟩

theorem Wf.hasEntry_iff {t : HashTable} (h : t.Wf) (s : CString) (hs : 0 ≤ hashFunction s) :
    t.hasEntry s ↔ ∃ c ds, t.cell (hashFunction s) = some c ∧ lookupState s c = some ds := by
  constructor
  · rintro ⟨b, hb, e, he, hes⟩
    have : t.holds s e.2 := ⟨b, hb, by rw [← hes]; exact he⟩
    obtain ⟨c, hc, hl⟩ := (h.holds_iff s hs e.2).1 this
    exact ⟨c, e.2, hc, hl⟩
  · rintro ⟨c, ds, hc, hl⟩
    obtain ⟨b, hb, he⟩ := (h.holds_iff s hs ds).2 ⟨c, hc, hl⟩
    exact ⟨b, hb, (s, ds), he, rfl⟩

end HashTable


/-! ## The hash table for keys that hash into the table -/

/-- For insertions whose keys hash into the table: every inserted (state, record) has
exactly one record of its merge key in the record list stored for the state, with the
largest death count inserted. -/
theorem HashTable.merge_invariant_of_keys_in_table (ops : List Insertion)
    (hops : ∀ op ∈ ops, 0 ≤ hashFunction op.1) :
    ∃ t, HashTable.insertAll ops = some t ∧
      ∀ op ∈ ops, ∃ ds e, t.holds op.1 ds ∧
        ds.filter (fun x => sameRecordKey x op.2) = [e] ∧
        (∃ o ∈ ops, o.1 = op.1 ∧ sameRecordKey o.2 op.2 = true ∧
          o.2.deathCount = e.deathCount) ∧
        ∀ o ∈ ops, o.1 = op.1 → sameRecordKey o.2 op.2 = true →
          o.2.deathCount ≤ e.deathCount := by
  obtain ⟨t, ht, hl, hst⟩ := HashTable.insertAll_lookup ops hops
  refine ⟨t, ht, ?_⟩
  intro op hop
  obtain ⟨ds, e, hds, hf, hmax⟩ := stored_merge ops op hop
  obtain ⟨c, hc, hlook⟩ := hst op.1 (hops op hop)
  refine ⟨ds, e, ?_, hf, ?_, ?_⟩
  · have hg := (cell_eq_some hc).2
    rw [hds] at hlook
    exact ⟨c, List.mem_iff_getElem?.2 ⟨_, hg⟩, lookupState_mem hlook⟩
  · obtain ⟨o, ho, h3, h4, h5⟩ := hmax.1
    exact ⟨o, ho, h3, (sameRecordKey_iff _ _).2 h4, h5⟩
  · intro o ho h3 h4
    exact hmax.2 o ho h3 ((sameRecordKey_iff _ _).1 h4)

/-- The first scenario on the hash table: one line, with death count 500. -/
theorem hashTable_california_scenario :
    (HashTable.insertAll californiaTwice).bind (fun t => t.displayDeathCount California Cancer)
      = some [Line.record California Cancer 2019 500 mortality] := by
  decide

/-- The first scenario on the tree. -/
theorem rbTree_california_scenario :
    (RBTree.insertAll californiaTwice).map (fun t => t.displayDeathCount California Cancer)
      = some [Line.record California Cancer 2019 500 mortality] := by
  decide

/-- For insertions and a queried state that hash into the table, the hash table and the
tree print the same lines. -/
theorem display_agree_of_keys_in_table (ops : List Insertion)
    (hops : ∀ op ∈ ops, 0 ≤ hashFunction op.1) :
    ∃ th tr, HashTable.insertAll ops = some th ∧ RBTree.insertAll ops = some tr ∧
      ∀ s d, 0 ≤ hashFunction s →
        th.displayDeathCount s d = some (tr.displayDeathCount s d) := by
  obtain ⟨th, hth, hd⟩ := HashTable.display_after_insertItems ops hops
  obtain ⟨tr, htr, hr⟩ := RBTree.display_after_inserts ops
  refine ⟨th, tr, hth, htr, ?_⟩
  intro s d hs
  rw [hd s d hs, hr s d]

/-- The tree prints the same lines, up to their order, for every order of the
insertions. -/
theorem RBTree.display_perm {ops ops2 : List Insertion} (hp : ops.Perm ops2) :
    ∃ t t2, RBTree.insertAll ops = some t ∧ RBTree.insertAll ops2 = some t2 ∧
      ∀ s d, (t.displayDeathCount s d).Perm (t2.displayDeathCount s d) := by
  obtain ⟨t, ht, hr⟩ := RBTree.display_after_inserts ops
  obtain ⟨t2, ht2, hr2⟩ := RBTree.display_after_inserts ops2
  refine ⟨t, t2, ht, ht2, ?_⟩
  intro s d
  rw [hr s d, hr2 s d]
  exact displayStored_perm hp s d

/-- For keys that hash into the table, the hash table prints the same lines, up to their
order, for every order of the insertions. -/
theorem HashTable.display_perm_of_keys_in_table {ops ops2 : List Insertion}
    (hp : ops.Perm ops2) (hops : ∀ op ∈ ops, 0 ≤ hashFunction op.1) :
    ∃ t t2, HashTable.insertAll ops = some t ∧ HashTable.insertAll ops2 = some t2 ∧
      ∀ s d, 0 ≤ hashFunction s → ∃ out out2, t.displayDeathCount s d = some out ∧
        t2.displayDeathCount s d = some out2 ∧ out.Perm out2 := by
  obtain ⟨t, ht, hr⟩ := HashTable.display_after_insertItems ops hops
  obtain ⟨t2, ht2, hr2⟩ := HashTable.display_after_insertItems ops2
    (fun o ho => hops o (hp.mem_iff.2 ho))
  refine ⟨t, t2, ht, ht2, ?_⟩
  intro s d hs
  exact ⟨_, _, hr s d hs, hr2 s d hs, displayStored_perm hp s d⟩

theorem recordLines_eq_nil_iff (state disease : CString) (ds : List hashTableVars) :
    recordLines state disease ds = [] ↔ ∀ e ∈ ds, e.disease ≠ disease := by
  rw [recordLines_eq_map, List.map_eq_nil_iff, List.filter_eq_nil_iff]
  simp

/-- The outcomes of a query on a table reached by `insertItem` and `removeItem` calls,
for a state that hashes into the table: state-not-found exactly when no entry of the
state is stored, disease-not-found when the entry has no record of the disease, and
otherwise the records of the disease in the entry, of which there is at least one. -/
theorem HashTable.displayDeathCount_outcomes (calls : List HashCall) (t : HashTable)
    (hrun : HashTable.run calls = some t) (s d : CString) (hs : 0 ≤ hashFunction s) :
    ∃ out, t.displayDeathCount s d = some out ∧
      ((out = [Line.stateNotFound s] ∧ ¬ t.hasEntry s) ∨
       (∃ ds, t.holds s ds ∧ (∀ e ∈ ds, e.disease ≠ d) ∧
          out = [Line.diseaseNotFound d s]) ∨
       (∃ ds, t.holds s ds ∧ (∃ e ∈ ds, e.disease = d) ∧ out ≠ [] ∧
          out = (ds.filter fun e => decide (e.disease = d)).map fun e =>
            Line.record s d e.year e.deathCount e.isMortality)) := by
  have hw := Wf.run calls t hrun
  obtain ⟨c, hc, _⟩ := cell_of_nonneg t hw.1 s hs
  refine ⟨displayStored s d (lookupState s c), ?_, ?_⟩
  · simp [HashTable.displayDeathCount, hc, displayCell_eq]
  · cases hl : lookupState s c with
    | none =>
      left
      refine ⟨rfl, ?_⟩
      rw [hw.hasEntry_iff s hs]
      rintro ⟨c2, ds, hc2, hl2⟩
      rw [hc] at hc2
      cases hc2
      rw [hl] at hl2
      cases hl2
    | some ds =>
      right
      have hh : t.holds s ds := (hw.holds_iff s hs ds).2 ⟨c, hc, hl⟩
      by_cases he : recordLines s d ds = []
      · left
        refine ⟨ds, hh, (recordLines_eq_nil_iff s d ds).1 he, ?_⟩
        simp [displayStored, displayRecords, he]
      · right
        have hex : ∃ e ∈ ds, e.disease = d := by
          by_contra hno
          push_neg at hno
          exact he ((recordLines_eq_nil_iff s d ds).2 hno)
        have hout : displayStored s d (some ds) = recordLines s d ds := by
          simp only [displayStored, displayRecords]
          rw [if_neg (by simpa using he)]
        refine ⟨ds, hh, hex, ?_, ?_⟩
        · rw [hout]; exact he
        · rw [hout, recordLines_eq_map]

/-- The second scenario on the hash table. -/
theorem HashTable.texas_scenario :
    (HashTable.insertAll texasOnce).bind (fun t => t.displayDeathCount Texas Cancer)
      = some [Line.diseaseNotFound Cancer Texas] ∧
    (HashTable.insertAll texasOnce).bind (fun t => t.displayDeathCount Florida Asthma)
      = some [Line.stateNotFound Florida] := by
  decide

/-- The outcomes of `removeItem` on a table reached by `insertItem` and `removeItem`
calls, for a key that hashes into the table: found exactly when an entry of the key is
stored, the table unchanged when not, and no entry of the key afterwards. -/
theorem HashTable.removeItem_outcomes (calls : List HashCall) (t : HashTable)
    (hrun : HashTable.run calls = some t) (key : CString) (hk : 0 ≤ hashFunction key) :
    ∃ t2 out, t.removeItem key = some (t2, out) ∧
      ((out = [Line.keyRemoved] ∧ t.hasEntry key) ∨
        (out = [Line.keyNotFound] ∧ ¬ t.hasEntry key ∧ t2 = t)) ∧
      ∀ d, t2.displayDeathCount key d = some [Line.stateNotFound key] := by
  have hw := Wf.run calls t hrun
  obtain ⟨c, hc, hg⟩ := cell_of_nonneg t hw.1 key hk
  have hlt : (hashFunction key).toNat < t.table.length := (List.getElem?_eq_some.1 hg).1
  have hrem : t.removeItem key = some (⟨t.table.set (hashFunction key).toNat (removeCell key c).1⟩,
      if (removeCell key c).2 then [Line.keyRemoved] else [Line.keyNotFound]) := by
    unfold HashTable.removeItem
    simp only [hc]
  have hentry : t.hasEntry key ↔ ∃ e ∈ c, e.1 = key := by
    rw [hw.hasEntry_iff key hk]
    constructor
    · rintro ⟨c2, ds, hc2, hl⟩
      rw [hc] at hc2
      cases hc2
      exact ⟨(key, ds), lookupState_mem hl, rfl⟩
    · rintro ⟨e, he, hek⟩
      cases hl : lookupState key c with
      | none => exact absurd hek ((lookupState_eq_none_iff key c).1 hl e he)
      | some ds => exact ⟨c, ds, hc, hl⟩
  refine ⟨_, _, hrem, ?_, ?_⟩
  · cases hf : (removeCell key c).2 with
    | true =>
      left
      exact ⟨by simp, hentry.2 ((removeCell_found_iff key c).1 hf)⟩
    | false =>
      right
      refine ⟨by simp, ?_, ?_⟩
      · rw [hentry, ← removeCell_found_iff key c, hf]
        simp
      · rw [removeCell_of_not_found key c hf, list_set_of_getElem? hg]
  · intro d
    have hc2 : HashTable.cell ⟨t.table.set (hashFunction key).toNat (removeCell key c).1⟩
        (hashFunction key) = some (removeCell key c).1 := by
      unfold HashTable.cell
      rw [if_pos hk]
      exact List.getElem?_set_self hlt
    have hn := (hw.2 _ c hg).1
    simp [HashTable.displayDeathCount, hc2, displayCell_eq, removeCell_lookup key c hn,
      displayStored]
/-! ## The claims -/

/-- C1, at the key "東京" (six bytes above 0x7F, negative as `char`): the hash is -86,
so `table[hashValue]` of `insertItem` lies outside the vector and the call has no defined
result; no record list is stored for the state.  For keys that hash into the table the
claim holds: `HashTable.merge_invariant_of_keys_in_table`. -/
theorem C1_insertItem_key_outside_table :
    hashFunction Tokyo = -86 ∧ HashTable.insertAll tokyoOnce = none := by
  decide

/-- C2. After any sequence of `insert` calls on an empty tree, for every inserted
(state, record) the search for the state ends in a node of that state, every node of the
state in the tree carries the record list of that node, the list has exactly one record
with the disease, year and mortality flag of the inserted one, and the death count of
that record is the largest one inserted under the state with these three fields. -/
theorem C2_rbtree_merge_invariant (ops : List Insertion) :
    ∃ t, RBTree.insertAll ops = some t ∧
      ∀ op ∈ ops, ∃ c l d r e, searchTreeHelper t.root op.1 = Node.node c l op.1 d r ∧
        (∀ d2, (op.1, d2) ∈ t.root.toList → d2 = d) ∧
        d.filter (fun x => sameRecordKey x op.2) = [e] ∧
        (∃ o ∈ ops, o.1 = op.1 ∧ sameRecordKey o.2 op.2 = true ∧
          o.2.deathCount = e.deathCount) ∧
        ∀ o ∈ ops, o.1 = op.1 → sameRecordKey o.2 op.2 = true →
          o.2.deathCount ≤ e.deathCount := by
  obtain ⟨t, ht, _, hs, hl⟩ := RBTree.insertAll_spec ops
  refine ⟨t, ht, ?_⟩
  intro op hop
  obtain ⟨ds, e, hst, hf, hmax⟩ := stored_merge ops op hop
  rcases searchTreeHelper_spec op.1 t.root hs with ⟨_, h2⟩ | ⟨c, l, d, r, h1, h2⟩
  · rw [hl, hst] at h2; cases h2
  · rw [hl, hst] at h2
    simp only [Option.some.injEq] at h2
    subst h2
    refine ⟨c, l, ds, r, e, h1, ?_, hf, ?_, ?_⟩
    · intro d2 hd2
      have h4 := hs.lookup_of_mem hd2
      rw [hl, hst] at h4
      exact (Option.some.inj h4).symm
    · obtain ⟨o, ho, h3, h4, h5⟩ := hmax.1
      exact ⟨o, ho, h3, (sameRecordKey_iff _ _).2 h4, h5⟩
    · intro o ho h3 h4
      exact hmax.2 o ho h3 ((sameRecordKey_iff _ _).1 h4)

/-- C2 at the first scenario. -/
theorem C2_california_witness :
    ∃ t, RBTree.insertAll californiaTwice = some t ∧
      ∀ op ∈ californiaTwice, ∃ c l d r e,
        searchTreeHelper t.root op.1 = Node.node c l op.1 d r ∧
        (∀ d2, (op.1, d2) ∈ t.root.toList → d2 = d) ∧
        d.filter (fun x => sameRecordKey x op.2) = [e] ∧
        (∃ o ∈ californiaTwice, o.1 = op.1 ∧ sameRecordKey o.2 op.2 = true ∧
          o.2.deathCount = e.deathCount) ∧
        ∀ o ∈ californiaTwice, o.1 = op.1 → sameRecordKey o.2 op.2 = true →
          o.2.deathCount ≤ e.deathCount :=
  C2_rbtree_merge_invariant californiaTwice

/-- C3. After any sequence of `insert` calls on an empty tree the root is black, no red
node has a red child, and all paths from the root to the sentinel hold the same number
of black nodes. -/
theorem C3_red_black_invariants (ops : List Insertion) :
    ∃ t, RBTree.insertAll ops = some t ∧ t.root.color = Color.BLACK ∧
      t.root.redRedFree = true ∧
      ∀ a ∈ t.root.blackCounts, ∀ b ∈ t.root.blackCounts, a = b := by
  obtain ⟨t, ht, hv, _, _⟩ := RBTree.insertAll_spec ops
  refine ⟨t, ht, hv.1, hv.2.redRedFree, ?_⟩
  intro a ha b hb
  rw [hv.2.blackCounts a ha, hv.2.blackCounts b hb]

/-- C3 at the second scenario. -/
theorem C3_texas_witness :
    ∃ t, RBTree.insertAll texasSameYear = some t ∧ t.root.color = Color.BLACK ∧
      t.root.redRedFree = true ∧
      ∀ a ∈ t.root.blackCounts, ∀ b ∈ t.root.blackCounts, a = b :=
  C3_red_black_invariants texasSameYear

/-- C4. After any sequence of `insert` calls on an empty tree, `searchTreeHelper` from
the root returns a node (not the sentinel) of state `key` for every inserted `key`,
and the sentinel for every `key` that was not inserted, the empty string included. -/
theorem C4_search_correctness (ops : List Insertion) :
    ∃ t, RBTree.insertAll ops = some t ∧
      (∀ key, (∃ op ∈ ops, op.1 = key) →
        ∃ c l d r, searchTreeHelper t.root key = Node.node c l key d r) ∧
      (∀ key, (∀ op ∈ ops, op.1 ≠ key) → searchTreeHelper t.root key = Node.TNULL) ∧
      ((∀ op ∈ ops, op.1 ≠ []) → searchTreeHelper t.root [] = Node.TNULL) := by
  obtain ⟨t, ht, _, hs, hl⟩ := RBTree.insertAll_spec ops
  have hnone : ∀ key, (∀ op ∈ ops, op.1 ≠ key) → searchTreeHelper t.root key = Node.TNULL := by
    intro key hkey
    rcases searchTreeHelper_spec key t.root hs with ⟨h1, _⟩ | ⟨c, l, d, r, _, h2⟩
    · exact h1
    · rw [hl, (stored_spec ops key).1.2 hkey] at h2; cases h2
  refine ⟨t, ht, ?_, hnone, hnone []⟩
  intro key ⟨op, hop, hk⟩
  rcases searchTreeHelper_spec key t.root hs with ⟨_, h2⟩ | ⟨c, l, d, r, h1, _⟩
  · rw [hl] at h2
    exact absurd hk ((stored_spec ops key).1.1 h2 op hop)
  · exact ⟨c, l, d, r, h1⟩

/-- C4 at the second scenario. -/
theorem C4_texas_witness :
    ∃ t, RBTree.insertAll texasOnce = some t ∧
      (∀ key, (∃ op ∈ texasOnce, op.1 = key) →
        ∃ c l d r, searchTreeHelper t.root key = Node.node c l key d r) ∧
      (∀ key, (∀ op ∈ texasOnce, op.1 ≠ key) → searchTreeHelper t.root key = Node.TNULL) ∧
      ((∀ op ∈ texasOnce, op.1 ≠ []) → searchTreeHelper t.root [] = Node.TNULL) :=
  C4_search_correctness texasOnce

/-- C5, at the query state "東京" on new indexes: the tree reports state-not-found, while
`table[hashValue]` of the hash table's query lies outside the vector (hash -86) and the
query has no defined result.  For keys that hash into the table the two print the same
lines: `display_agree_of_keys_in_table`. -/
theorem C5_query_key_outside_table :
    HashTable.new.displayDeathCount Tokyo Cancer = none ∧
      RBTree.new.displayDeathCount Tokyo Cancer = [Line.stateNotFound Tokyo] := by
  decide

/-- C6, at a list with the key "東京": in either order the hash table cannot be built,
`insertItem` indexing outside the vector, while the tree is built in both.  The tree
prints the same lines up to order for every order (`RBTree.display_perm`), and so
does the hash table for keys that hash into it
(`HashTable.display_perm_of_keys_in_table`). -/
theorem C6_build_key_outside_table :
    HashTable.insertAll (tokyoOnce ++ texasOnce) = none ∧
      HashTable.insertAll (texasOnce ++ tokyoOnce) = none ∧
      (RBTree.insertAll (tokyoOnce ++ texasOnce)).isSome = true ∧
      (RBTree.insertAll (texasOnce ++ tokyoOnce)).isSome = true := by
  decide

/-- C7, at the key "東京": the sum of the six signed bytes is -386 and the remainder,
which has the sign of the sum, is -86, not an index of the 100 buckets.  Keys of 7-bit
characters shorter than 2^24 bytes do hash into the table: `HashTable.hashFunction_ascii`. -/
theorem C7_hashFunction_negative :
    hashLoop 0 Tokyo = -386 ∧ hashFunction Tokyo = -86 ∧
      HashTable.new.cell (hashFunction Tokyo) = none := by
  decide

/-- C8, at the query state "東京" after the second scenario's insertion: the index is
-86 and the query has no defined result, so none of the three outcomes is reported.  For
states that hash into the table the claim holds: `HashTable.displayDeathCount_outcomes`,
`HashTable.texas_scenario`. -/
theorem C8_displayDeathCount_key_outside_table :
    (HashTable.insertAll texasOnce).bind (fun t => t.displayDeathCount Tokyo Asthma) = none := by
  decide

/-- C9, at the key "東京" after the second scenario's insertion: `removeItem` indexes the
vector at -86 and has no defined result, where the claim has it report not-found and
leave the table unchanged.  For keys that hash into the table the claim holds:
`HashTable.removeItem_outcomes`. -/
theorem C9_removeItem_key_outside_table :
    (HashTable.insertAll texasOnce).bind (fun t => t.removeItem Tokyo) = none := by
  decide

/-- C10 as amended. For every index built by insertions and every (state, disease), the
record lines the query prints differ pairwise in year or mortality flag. -/
theorem C10_listed_records_distinct_year_flag (ops : List Insertion) (s d : CString) :
    (∃ t, RBTree.insertAll ops = some t ∧
      ((t.displayDeathCount s d).filterMap Line.yearFlag).Nodup) ∧
    ∀ t out, HashTable.insertAll ops = some t → t.displayDeathCount s d = some out →
      (out.filterMap Line.yearFlag).Nodup := by
  constructor
  · obtain ⟨t, ht, hr⟩ := RBTree.display_after_inserts ops
    exact ⟨t, ht, by rw [hr s d]; exact displayStored_nodup ops s d⟩
  · intro t out ht hout
    obtain ⟨t2, ht2, hd⟩ := HashTable.display_after_insertItems ops (HashTable.insertAll_keys ops t ht)
    rw [ht] at ht2
    cases ht2
    have hs : 0 ≤ hashFunction s := by
      unfold HashTable.displayDeathCount at hout
      cases hc : t.cell (hashFunction s) with
      | none => simp only [hc] at hout; cases hout
      | some c => exact (cell_eq_some hc).1
    rw [hd s d hs] at hout
    cases hout
    exact displayStored_nodup ops s d

/-- C10 as amended, at two records of one year. -/
theorem C10_texas_witness :
    (∃ t, RBTree.insertAll texasSameYear = some t ∧
      ((t.displayDeathCount Texas Asthma).filterMap Line.yearFlag).Nodup) ∧
    ∀ t out, HashTable.insertAll texasSameYear = some t →
      t.displayDeathCount Texas Asthma = some out → (out.filterMap Line.yearFlag).Nodup :=
  C10_listed_records_distinct_year_flag texasSameYear Texas Asthma

/-- C10 as stated fails: after two insertions for Texas and Asthma in 2020 that differ in
the mortality flag, both indexes list two records of the year 2020. -/
theorem C10_same_year_listed_twice :
    (RBTree.insertAll texasSameYear).map (fun t => t.displayDeathCount Texas Asthma)
      = some [Line.record Texas Asthma 2020 50 mortality,
          Line.record Texas Asthma 2020 70 crudeMortality] ∧
    (HashTable.insertAll texasSameYear).bind (fun t => t.displayDeathCount Texas Asthma)
      = some [Line.record Texas Asthma 2020 50 mortality,
          Line.record Texas Asthma 2020 70 crudeMortality] ∧
    ¬ ([Line.record Texas Asthma 2020 50 mortality,
          Line.record Texas Asthma 2020 70 crudeMortality].filterMap Line.year).Nodup := by
  decide

theorem Node.SameExceptAt.refl (key : CString) : ∀ t : Node, Node.SameExceptAt key t t
  | Node.TNULL => trivial
  | Node.node _ l _ _ r => ⟨rfl, rfl, fun _ => rfl, Node.SameExceptAt.refl key l,
      Node.SameExceptAt.refl key r⟩

/-- When the search finds `key`, the descent of `insert` ends at that node and puts back
the same tree with the record merged into the list of the node. -/
theorem insertLoop_of_found (key : CString) (info : hashTableVars) :
    ∀ (x : Node) (path : Ancestors), searchTreeHelper x key ≠ Node.TNULL →
      ∃ x2, insertLoop key info x path = some (plug x2 path) ∧ Node.SameExceptAt key x x2
  | Node.TNULL, _, h => absurd rfl h
  | Node.node c l s d r, path, h => by
    unfold searchTreeHelper at h
    unfold insertLoop
    by_cases hk : key = s
    · rw [if_pos hk]
      exact ⟨_, rfl, rfl, rfl, fun hne => absurd hk.symm hne, Node.SameExceptAt.refl key l,
        Node.SameExceptAt.refl key r⟩
    · rw [if_neg hk] at h ⊢
      by_cases hlt : key < s
      · rw [if_pos hlt] at h ⊢
        obtain ⟨l2, h1, h2⟩ := insertLoop_of_found key info l (Frame.leftOf c s d r :: path) h
        exact ⟨Node.node c l2 s d r, h1, rfl, rfl, fun _ => rfl, h2,
          Node.SameExceptAt.refl key r⟩
      · rw [if_neg hlt] at h ⊢
        obtain ⟨r2, h1, h2⟩ := insertLoop_of_found key info r (Frame.rightOf c l s d :: path) h
        exact ⟨Node.node c l s d r2, h1, rfl, rfl, fun _ => rfl,
          Node.SameExceptAt.refl key l, h2⟩

theorem Node.depth_le_of_ok : ∀ {t : Node}, t.Ok →
    t.depth ≤ 2 * t.blackHeight + (if t.color = Color.RED then 1 else 0)
  | Node.TNULL, _ => by simp [Node.depth, Node.blackHeight, Node.color]
  | Node.node c l s d r, h => by
    rw [Node.Ok_node] at h
    obtain ⟨hc, hbh, hl, hr⟩ := h
    have h1 := Node.depth_le_of_ok hl
    have h2 := Node.depth_le_of_ok hr
    simp only [Node.depth, Node.blackHeight_node, Node.color_node]
    cases c with
    | RED =>
      obtain ⟨hlc, hrc⟩ := hc rfl
      rw [hlc] at h1
      rw [hrc] at h2
      simp only [reduceCtorEq, if_false, if_true, Nat.add_zero] at h1 h2 ⊢
      omega
    | BLACK =>
      simp only [reduceCtorEq, if_false, if_true] at h1 h2 ⊢
      split at h1 <;> split at h2 <;> omega

theorem Node.pow_blackHeight_le_size : ∀ {t : Node}, t.Ok → 2 ^ t.blackHeight ≤ t.size + 1
  | Node.TNULL, _ => by simp [Node.size, Node.blackHeight]
  | Node.node c l s d r, h => by
    rw [Node.Ok_node] at h
    obtain ⟨_, hbh, hl, hr⟩ := h
    have h1 := Node.pow_blackHeight_le_size hl
    have h2 := Node.pow_blackHeight_le_size hr
    rw [← hbh] at h2
    simp only [Node.size, Node.blackHeight_node]
    cases c with
    | RED =>
      simp only [reduceCtorEq, if_false, Nat.add_zero]
      omega
    | BLACK =>
      simp only [if_true, Nat.pow_succ]
      omega

theorem Node.depth_le_log_of_valid {t : Node} (h : t.Valid) :
    t.depth ≤ 2 * Nat.log2 (t.size + 1) := by
  have h1 := Node.depth_le_of_ok h.2
  rw [h.1] at h1
  simp only [reduceCtorEq, if_false, Nat.add_zero] at h1
  have h2 : t.blackHeight ≤ Nat.log2 (t.size + 1) :=
    (Nat.le_log2 (Nat.succ_ne_zero _)).2 (Node.pow_blackHeight_le_size h.2)
  omega

theorem RBTree.searchVisits_le_depth (key : CString) : ∀ t : Node, searchVisits t key ≤ t.depth
  | Node.TNULL => Nat.le_refl _
  | Node.node c l s d r => by
    have h1 := searchVisits_le_depth key l
    have h2 := searchVisits_le_depth key r
    simp only [searchVisits, Node.depth]
    split
    · omega
    · split <;> omega

theorem RBTree.insertVisits_le_depth (key : CString) : ∀ t : Node, insertVisits key t ≤ t.depth
  | Node.TNULL => Nat.le_refl _
  | Node.node c l s d r => by
    have h1 := insertVisits_le_depth key l
    have h2 := insertVisits_le_depth key r
    simp only [insertVisits, Node.depth]
    split
    · omega
    · split <;> omega

theorem lookupState_ne_none_iff (s : CString) (L : List (CString × List hashTableVars)) :
    lookupState s L ≠ none ↔ s ∈ L.map Prod.fst := by
  rw [Ne, lookupState_eq_none_iff]
  simp only [List.mem_map]
  constructor
  · intro h
    by_contra hno
    exact h (fun e he hes => hno ⟨e, he, hes⟩)
  · rintro ⟨e, he, hes⟩ h
    exact h e he hes

/-- The loop with the record of passes returns what the loop returns. -/
theorem balanceLoopTrace_fst : ∀ (fuel : Nat) (k : Node) (path : Ancestors),
    (balanceLoopTrace fuel k path).map Prod.fst = balanceLoop fuel k path := by
  intro fuel
  induction fuel with
  | zero => intro k path; rfl
  | succ n ih =>
    intro k path
    cases path with
    | nil => rfl
    | cons p rest =>
      unfold balanceLoopTrace balanceLoop
      simp only
      by_cases hp : p.color = Color.RED
      · rw [if_pos hp, if_pos hp]
        cases rest with
        | nil => rfl
        | cons g up =>
          cases g with
          | rightOf gc u gs gd =>
            simp only
            by_cases hu : u.color = Color.RED
            · rw [if_pos hu, if_pos hu]
              by_cases hnil : up = []
              · rw [if_pos hnil, if_pos hnil]; rfl
              · rw [if_neg hnil, if_neg hnil, Option.map_map]; exact ih _ _
            · rw [if_neg hu, if_neg hu]
              cases innerRight k p with
              | none => rfl
              | some kp =>
                obtain ⟨k1, p1⟩ := kp
                simp only
                cases rightChild (leftRotate
                  (Node.node Color.RED u gs gd ((p1.setColor Color.BLACK).fill k1))) with
                | none => rfl
                | some kp2 =>
                  obtain ⟨k2, p2⟩ := kp2
                  simp only
                  rw [Option.map_map]; exact ih _ _
          | leftOf gc gs gd u =>
            simp only
            by_cases hu : u.color = Color.RED
            · rw [if_pos hu, if_pos hu]
              by_cases hnil : up = []
              · rw [if_pos hnil, if_pos hnil]; rfl
              · rw [if_neg hnil, if_neg hnil, Option.map_map]; exact ih _ _
            · rw [if_neg hu, if_neg hu]
              cases innerLeft k p with
              | none => rfl
              | some kp =>
                obtain ⟨k1, p1⟩ := kp
                simp only
                cases leftChild (rightRotate
                  (Node.node Color.RED ((p1.setColor Color.BLACK).fill k1) gs gd u)) with
                | none => rfl
                | some kp2 =>
                  obtain ⟨k2, p2⟩ := kp2
                  simp only
                  rw [Option.map_map]; exact ih _ _
      · rw [if_neg hp, if_neg hp]; rfl

theorem RotationsAtEnd.cons_zero {passes : List Nat} (h : RotationsAtEnd passes) :
    RotationsAtEnd (0 :: passes) := by
  obtain ⟨m, h | h | h⟩ := h
  · exact ⟨m + 1, Or.inl (by rw [h]; rfl)⟩
  · exact ⟨m + 1, Or.inr (Or.inl (by rw [h]; rfl))⟩
  · exact ⟨m + 1, Or.inr (Or.inr (by rw [h]; rfl))⟩

theorem rightChild_leftRotate_black {u : Node} {gs : CString} {gd : List hashTableVars}
    {p1 : Frame} {k1 k2 : Node} {p2 : Frame}
    (h : rightChild (leftRotate
      (Node.node Color.RED u gs gd ((p1.setColor Color.BLACK).fill k1))) = some (k2, p2)) :
    p2.color = Color.BLACK := by
  cases p1 <;>
    · simp only [Frame.setColor, Frame.fill_leftOf, Frame.fill_rightOf, leftRotate, rightChild,
        Option.some.injEq, Prod.mk.injEq] at h
      rw [← h.2]; rfl

theorem leftChild_rightRotate_black {u : Node} {gs : CString} {gd : List hashTableVars}
    {p1 : Frame} {k1 k2 : Node} {p2 : Frame}
    (h : leftChild (rightRotate
      (Node.node Color.RED ((p1.setColor Color.BLACK).fill k1) gs gd u)) = some (k2, p2)) :
    p2.color = Color.BLACK := by
  cases p1 <;>
    · simp only [Frame.setColor, Frame.fill_leftOf, Frame.fill_rightOf, rightRotate, leftChild,
        Option.some.injEq, Prod.mk.injEq] at h
      rw [← h.2]; rfl

/-- With a black parent the loop ends at its test, without a pass. -/
theorem balanceLoopTrace_of_black (fuel : Nat) (k : Node) (p : Frame) (rest : Ancestors)
    (hp : p.color = Color.BLACK) {t : Node} {passes : List Nat}
    (h : balanceLoopTrace fuel k (p :: rest) = some (t, passes)) : passes = [] := by
  cases fuel with
  | zero => cases h
  | succ n =>
    unfold balanceLoopTrace at h
    simp only at h
    rw [if_neg (Color.ne_red_of_eq_black hp)] at h
    simp only [Option.some.injEq, Prod.mk.injEq] at h
    exact h.2.symm

/-- In every run of the loop the passes that rotate are the last pass, with one or two
rotations. -/
theorem balanceLoopTrace_passes : ∀ (fuel : Nat) (k : Node) (path : Ancestors) (t : Node)
    (passes : List Nat), balanceLoopTrace fuel k path = some (t, passes) →
      RotationsAtEnd passes := by
  intro fuel
  induction fuel with
  | zero => intro k path t passes h; cases h
  | succ n ih =>
    intro k path t passes h
    cases path with
    | nil => cases h
    | cons p rest =>
      unfold balanceLoopTrace at h
      simp only at h
      by_cases hp : p.color = Color.RED
      · rw [if_pos hp] at h
        cases rest with
        | nil => cases h
        | cons g up =>
          cases g with
          | rightOf gc u gs gd =>
            simp only at h
            by_cases hu : u.color = Color.RED
            · rw [if_pos hu] at h
              by_cases hnil : up = []
              · rw [if_pos hnil] at h
                simp only [Option.some.injEq, Prod.mk.injEq] at h
                rw [← h.2]
                exact ⟨1, Or.inl rfl⟩
              · rw [if_neg hnil] at h
                simp only [Option.map_eq_some', Prod.mk.injEq] at h
                obtain ⟨r, hr, _, h2⟩ := h
                rw [← h2]
                exact (ih _ _ r.1 r.2 hr).cons_zero
            · rw [if_neg hu] at h
              cases hin : innerRight k p with
              | none => rw [hin] at h; cases h
              | some kp =>
                obtain ⟨k1, p1⟩ := kp
                rw [hin] at h
                simp only at h
                cases hout : rightChild (leftRotate
                  (Node.node Color.RED u gs gd ((p1.setColor Color.BLACK).fill k1))) with
                | none => rw [hout] at h; cases h
                | some kp2 =>
                  obtain ⟨k2, p2⟩ := kp2
                  rw [hout] at h
                  simp only [Option.map_eq_some', Prod.mk.injEq] at h
                  obtain ⟨r, hr, _, h2⟩ := h
                  have hnil := balanceLoopTrace_of_black n k2 p2 up
                    (rightChild_leftRotate_black hout) hr
                  rw [← h2, hnil]
                  cases p with
                  | leftOf _ _ _ _ => exact ⟨0, Or.inr (Or.inr rfl)⟩
                  | rightOf _ _ _ _ => exact ⟨0, Or.inr (Or.inl rfl)⟩
          | leftOf gc gs gd u =>
            simp only at h
            by_cases hu : u.color = Color.RED
            · rw [if_pos hu] at h
              by_cases hnil : up = []
              · rw [if_pos hnil] at h
                simp only [Option.some.injEq, Prod.mk.injEq] at h
                rw [← h.2]
                exact ⟨1, Or.inl rfl⟩
              · rw [if_neg hnil] at h
                simp only [Option.map_eq_some', Prod.mk.injEq] at h
                obtain ⟨r, hr, _, h2⟩ := h
                rw [← h2]
                exact (ih _ _ r.1 r.2 hr).cons_zero
            · rw [if_neg hu] at h
              cases hin : innerLeft k p with
              | none => rw [hin] at h; cases h
              | some kp =>
                obtain ⟨k1, p1⟩ := kp
                rw [hin] at h
                simp only at h
                cases hout : leftChild (rightRotate
                  (Node.node Color.RED ((p1.setColor Color.BLACK).fill k1) gs gd u)) with
                | none => rw [hout] at h; cases h
                | some kp2 =>
                  obtain ⟨k2, p2⟩ := kp2
                  rw [hout] at h
                  simp only [Option.map_eq_some', Prod.mk.injEq] at h
                  obtain ⟨r, hr, _, h2⟩ := h
                  have hnil := balanceLoopTrace_of_black n k2 p2 up
                    (leftChild_rightRotate_black hout) hr
                  rw [← h2, hnil]
                  cases p with
                  | leftOf _ _ _ _ => exact ⟨0, Or.inr (Or.inl rfl)⟩
                  | rightOf _ _ _ _ => exact ⟨0, Or.inr (Or.inr rfl)⟩
      · rw [if_neg hp] at h
        simp only [Option.some.injEq, Prod.mk.injEq] at h
        rw [← h.2]
        exact ⟨0, Or.inl rfl⟩

theorem RotationsAtEnd.sum_le {passes : List Nat} (h : RotationsAtEnd passes) :
    passes.sum ≤ 2 := by
  obtain ⟨m, h | h | h⟩ := h <;> rw [h] <;> simp

/-! ## The invariants as conditions on a tree -/

theorem Node.blackHeight_mem_blackCounts : ∀ t : Node, t.blackHeight ∈ t.blackCounts
  | Node.TNULL => by simp [Node.blackHeight, Node.blackCounts]
  | Node.node c l s d r => by
    simp only [Node.blackCounts, Node.blackHeight_node, List.mem_map, List.mem_append]
    exact ⟨l.blackHeight, Or.inl (Node.blackHeight_mem_blackCounts l), rfl⟩

/-- The colour conditions follow from the two checks on a tree. -/
theorem Node.ok_of_checks : ∀ {t : Node}, t.redRedFree = true →
    (∀ a ∈ t.blackCounts, ∀ b ∈ t.blackCounts, a = b) → t.Ok
  | Node.TNULL, _, _ => trivial
  | Node.node c l s d r, hr, hb => by
    simp only [Node.redRedFree, Bool.and_eq_true, Bool.or_eq_true, decide_eq_true_eq] at hr
    obtain ⟨⟨hc, hl⟩, hrr⟩ := hr
    have hmem : ∀ x, x ∈ l.blackCounts ∨ x ∈ r.blackCounts →
        x + (if c = Color.BLACK then 1 else 0) ∈ (Node.node c l s d r).blackCounts := by
      intro x hx
      simp only [Node.blackCounts, List.mem_map, List.mem_append]
      exact ⟨x, hx, rfl⟩
    have heq : ∀ x y, x ∈ l.blackCounts ∨ x ∈ r.blackCounts →
        y ∈ l.blackCounts ∨ y ∈ r.blackCounts → x = y := by
      intro x y hx hy
      have := hb _ (hmem x hx) _ (hmem y hy)
      omega
    rw [Node.Ok_node]
    refine ⟨?_, ?_, ?_, ?_⟩
    · intro hcr
      rcases hc with hc | hc
      · rw [hcr] at hc; cases hc
      · exact hc
    · exact heq _ _ (Or.inl (Node.blackHeight_mem_blackCounts l))
        (Or.inr (Node.blackHeight_mem_blackCounts r))
    · exact Node.ok_of_checks hl (fun a ha b hb2 => heq a b (Or.inl ha) (Or.inl hb2))
    · exact Node.ok_of_checks hrr (fun a ha b hb2 => heq a b (Or.inr ha) (Or.inr hb2))

/-- The parts of a red-black tree around a subtree satisfy the colour conditions. -/
theorem plug_valid_inv : ∀ (path : Ancestors) (x : Node), (plug x path).Valid →
    x.Ok ∧ PathOk path x.blackHeight ∧ (x.color = Color.RED → topBlack path)
  | [], x, h => by
    rw [plug_nil] at h
    refine ⟨h.2, trivial, fun hc => ?_⟩
    have h1 := h.1
    rw [hc] at h1
    cases h1
  | f :: rest, x, h => by
    rw [plug_cons] at h
    obtain ⟨hf, hrest, htop⟩ := plug_valid_inv rest (f.fill x) h
    cases f with
    | leftOf c s d r =>
      rw [Frame.fill_leftOf, Node.Ok_node] at hf
      simp only [Frame.fill_leftOf, Node.blackHeight_node, Node.color_node] at hrest htop
      obtain ⟨hc, hbh, hx, hr⟩ := hf
      refine ⟨hx, ?_, ?_⟩
      · rw [PathOk_cons]
        simp only [Frame.sibling, Frame.color]
        exact ⟨hr, hbh.symm, fun hcr => ⟨(hc hcr).2, htop hcr⟩, hrest⟩
      · intro hxr
        simp only [topBlack, Frame.color]
        by_contra hne
        have hcr : c = Color.RED := by
          cases c with
          | RED => rfl
          | BLACK => exact absurd rfl hne
        rw [(hc hcr).1] at hxr
        cases hxr
    | rightOf c l s d =>
      rw [Frame.fill_rightOf, Node.Ok_node] at hf
      simp only [Frame.fill_rightOf, Node.blackHeight_node, Node.color_node] at hrest htop
      obtain ⟨hc, hbh, hl, hx⟩ := hf
      refine ⟨hx, ?_, ?_⟩
      · rw [PathOk_cons]
        simp only [Frame.sibling, Frame.color]
        rw [← hbh]
        exact ⟨hl, rfl, fun hcr => ⟨(hc hcr).1, htop hcr⟩, hrest⟩
      · intro hxr
        simp only [topBlack, Frame.color]
        by_contra hne
        have hcr : c = Color.RED := by
          cases c with
          | RED => rfl
          | BLACK => exact absurd rfl hne
        rw [(hc hcr).2] at hxr
        cases hxr

/-! ## The order of the records of a state -/

theorem firstOccurrences_snoc {α : Type} [DecidableEq α] (l : List α) (a : α) :
    firstOccurrences (l ++ [a]) =
      if a ∈ firstOccurrences l then firstOccurrences l else firstOccurrences l ++ [a] := by
  simp [firstOccurrences, List.foldl_append]

theorem insertedKeys_snoc (ops : List Insertion) (op : Insertion) (s : CString) :
    insertedKeys (ops ++ [op]) s =
      if op.1 = s then insertedKeys ops s ++ [recordKey op.2] else insertedKeys ops s := by
  by_cases h : op.1 = s
  · simp [insertedKeys, List.filter_append, h]
  · simp [insertedKeys, List.filter_append, h]

/-- The record list kept for a state lists the merge keys inserted under the state in
the order of their first insertion. -/
theorem stored_keys (ops : List Insertion) (s : CString) :
    ((stored ops s).getD []).map recordKey = firstOccurrences (insertedKeys ops s) := by
  induction ops using List.reverseRecOn with
  | nil => rfl
  | append_singleton ops op ih =>
    rw [stored_snoc, insertedKeys_snoc]
    by_cases h : op.1 = s
    · rw [if_pos h, firstOccurrences_snoc, ← ih]
      simp only [storeStep, h, if_true, Option.getD_some]
      by_cases hm : recordKey op.2 ∈ ((stored ops s).getD []).map recordKey
      · rw [if_pos hm, mergeRecord_keys_of_mem _ _ hm]
      · rw [if_neg hm, mergeRecord_keys_of_not_mem _ _ hm]
    · rw [if_neg h]
      simp only [storeStep, h, if_false]
      exact ih

/-- A record without matching entry is appended at the end. -/
theorem mergeRecord_of_no_match (info : hashTableVars) :
    ∀ ds : List hashTableVars, (∀ e ∈ ds, sameRecordKey e info = false) →
      mergeRecord info ds = ds ++ [info]
  | [], _ => rfl
  | e :: rest, h => by
    have he : ¬ sameRecordKey e info = true := by
      rw [h e (List.mem_cons_self _ _)]; simp
    rw [mergeRecord, if_neg he,
      mergeRecord_of_no_match info rest (fun x hx => h x (List.mem_cons_of_mem _ hx))]
    rfl

/-- A record with a matching entry changes the death count of the first such entry to
the larger of the two counts, and nothing else. -/
theorem mergeRecord_of_match (info : hashTableVars) :
    ∀ ds : List hashTableVars, (∃ e ∈ ds, sameRecordKey e info = true) →
      ∃ A e B, ds = A ++ e :: B ∧ sameRecordKey e info = true ∧
        (∀ x ∈ A, sameRecordKey x info = false) ∧
        mergeRecord info ds =
          A ++ { e with deathCount := max e.deathCount info.deathCount } :: B
  | [], h => by obtain ⟨e, he, _⟩ := h; cases he
  | e1 :: rest, h => by
    by_cases he : sameRecordKey e1 info = true
    · refine ⟨[], e1, rest, rfl, he, by simp, ?_⟩
      rw [mergeRecord, if_pos he]
      by_cases hlt : info.deathCount > e1.deathCount
      · rw [if_pos hlt, max_eq_right (le_of_lt hlt)]; rfl
      · rw [if_neg hlt, max_eq_left (not_lt.1 hlt)]; rfl
    · have hrest : ∃ e ∈ rest, sameRecordKey e info = true := by
        obtain ⟨e, hm, hs⟩ := h
        rcases List.mem_cons.1 hm with hm | hm
        · subst hm; exact absurd hs he
        · exact ⟨e, hm, hs⟩
      obtain ⟨A, e, B, h1, h2, h3, h4⟩ := mergeRecord_of_match info rest hrest
      refine ⟨e1 :: A, e, B, by rw [h1]; rfl, h2, ?_, ?_⟩
      · intro x hx
        rcases List.mem_cons.1 hx with hx | hx
        · subst hx; simpa using he
        · exact h3 x hx
      · rw [mergeRecord, if_neg he, h4]; rfl

/-! ## What `insertItem` and `removeItem` leave as it is -/

theorem insertCell_filter (key : CString) (info : hashTableVars) :
    ∀ c : Bucket, (insertCell key info c).filter (fun e => decide (e.1 ≠ key)) =
      c.filter (fun e => decide (e.1 ≠ key))
  | [] => by simp [insertCell]
  | e :: rest => by
    by_cases he : e.1 = key
    · rw [insertCell, if_pos he]
      simp [List.filter_cons, he]
    · rw [insertCell, if_neg he, List.filter_cons, List.filter_cons,
        insertCell_filter key info rest]

theorem removeCell_filter (key : CString) :
    ∀ c : Bucket, (removeCell key c).1.filter (fun e => decide (e.1 ≠ key)) =
      c.filter (fun e => decide (e.1 ≠ key))
  | [] => rfl
  | e :: rest => by
    by_cases he : e.1 = key
    · rw [removeCell, if_pos he]
      simp [List.filter_cons, he]
    · rw [removeCell, if_neg he]
      simp only
      rw [List.filter_cons, List.filter_cons, removeCell_filter key rest]

theorem removeCell_erases_one (key : CString) :
    ∀ c : Bucket, (removeCell key c).1 = c ∨
      ∃ A e B, c = A ++ e :: B ∧ e.1 = key ∧ (removeCell key c).1 = A ++ B
  | [] => Or.inl rfl
  | e :: rest => by
    by_cases he : e.1 = key
    · right
      exact ⟨[], e, rest, rfl, he, by rw [removeCell, if_pos he]; rfl⟩
    · rw [removeCell, if_neg he]
      rcases removeCell_erases_one key rest with h | ⟨A, e2, B, h1, h2, h3⟩
      · left; simp only; rw [h]
      · right
        exact ⟨e :: A, e2, B, by rw [h1]; rfl, h2, by simp only; rw [h3]; rfl⟩

theorem lookupState_removeCell_of_ne (key s : CString) (hne : s ≠ key) :
    ∀ c : Bucket, lookupState s (removeCell key c).1 = lookupState s c
  | [] => rfl
  | e :: rest => by
    by_cases he : e.1 = key
    · have hes : ¬ e.1 = s := by rw [he]; exact fun h => hne h.symm
      rw [removeCell, if_pos he]
      simp only [lookupState, hes, if_false]
    · rw [removeCell, if_neg he]
      by_cases hes : e.1 = s
      · simp only [lookupState, hes, if_true]
      · simp only [lookupState, hes, if_false]
        exact lookupState_removeCell_of_ne key s hne rest

theorem toNat_ne_of_hash_ne {a b : Int} (ha : 0 ≤ a) (hb : 0 ≤ b) (h : a ≠ b) :
    a.toNat ≠ b.toNat := by
  omega

/-- The table after a write to the bucket of `key` shows every other state what it showed
before, when the scan of the new bucket finds for it what the scan of the old one found. -/
theorem displayDeathCount_set (t : HashTable) (key : CString) (hk : 0 ≤ hashFunction key)
    (c c2 : Bucket) (hc : t.table[(hashFunction key).toNat]? = some c) (s d : CString)
    (hlook : lookupState s c2 = lookupState s c) :
    HashTable.displayDeathCount ⟨t.table.set (hashFunction key).toNat c2⟩ s d =
      t.displayDeathCount s d := by
  have hlt : (hashFunction key).toNat < t.table.length := (List.getElem?_eq_some.1 hc).1
  unfold HashTable.displayDeathCount HashTable.cell
  by_cases hs : 0 ≤ hashFunction s
  · rw [if_pos hs, if_pos hs]
    simp only
    by_cases hh : hashFunction key = hashFunction s
    · rw [← hh, List.getElem?_set_self hlt, hc]
      simp only [displayCell_eq, hlook]
    · rw [List.getElem?_set_ne (toNat_ne_of_hash_ne hk hs hh)]
  · rw [if_neg hs, if_neg hs]

/-- For a key that hashes into the table, `insertItem` leaves every other bucket, the
entries of the other states in the bucket of the key with their order, and what every
other state is shown, as they are. -/
theorem HashTable.insertItem_frame (t : HashTable) (hl : t.table.length = hashGroups)
    (key : CString) (info : hashTableVars) (hk : 0 ≤ hashFunction key) :
    ∃ t2 c c2, t.insertItem key info = some t2 ∧
      (∀ i : Nat, (i : Int) ≠ hashFunction key → t2.table[i]? = t.table[i]?) ∧
      t.table[(hashFunction key).toNat]? = some c ∧
      t2.table[(hashFunction key).toNat]? = some c2 ∧
      c2.filter (fun e => decide (e.1 ≠ key)) = c.filter (fun e => decide (e.1 ≠ key)) ∧
      ∀ s d, s ≠ key → t2.displayDeathCount s d = t.displayDeathCount s d := by
  obtain ⟨c, hc, hg⟩ := cell_of_nonneg t hl key hk
  have hlt : (hashFunction key).toNat < t.table.length := (List.getElem?_eq_some.1 hg).1
  have hins : t.insertItem key info =
      some ⟨t.table.set (hashFunction key).toNat (insertCell key info c)⟩ := by
    unfold HashTable.insertItem
    simp only [hc]
  refine ⟨_, c, insertCell key info c, hins, ?_, hg, List.getElem?_set_self hlt,
    insertCell_filter key info c, ?_⟩
  · intro i hi
    simp only
    rw [List.getElem?_set_ne]
    intro h
    apply hi
    rw [← h]
    omega
  · intro s d hne
    apply displayDeathCount_set t key hk c _ hg
    rw [lookupState_insertCell, storeStep_of_ne (Ne.symm hne)]

/-- For a key that hashes into the table, `removeItem` erases at most one entry, an entry
of the key, and leaves every other bucket, the other entries of the bucket with their
order, and what every other state is shown, as they are. -/
theorem HashTable.removeItem_frame (t : HashTable) (hl : t.table.length = hashGroups)
    (key : CString) (hk : 0 ≤ hashFunction key) :
    ∃ t2 out c c2, t.removeItem key = some (t2, out) ∧
      (∀ i : Nat, (i : Int) ≠ hashFunction key → t2.table[i]? = t.table[i]?) ∧
      t.table[(hashFunction key).toNat]? = some c ∧
      t2.table[(hashFunction key).toNat]? = some c2 ∧
      (c2 = c ∨ ∃ A e B, c = A ++ e :: B ∧ e.1 = key ∧ c2 = A ++ B) ∧
      c2.filter (fun e => decide (e.1 ≠ key)) = c.filter (fun e => decide (e.1 ≠ key)) ∧
      ∀ s d, s ≠ key → t2.displayDeathCount s d = t.displayDeathCount s d := by
  obtain ⟨c, hc, hg⟩ := cell_of_nonneg t hl key hk
  have hlt : (hashFunction key).toNat < t.table.length := (List.getElem?_eq_some.1 hg).1
  have hrem : t.removeItem key =
      some (⟨t.table.set (hashFunction key).toNat (removeCell key c).1⟩,
        if (removeCell key c).2 then [Line.keyRemoved] else [Line.keyNotFound]) := by
    unfold HashTable.removeItem
    simp only [hc]
  refine ⟨_, _, c, (removeCell key c).1, hrem, ?_, hg, List.getElem?_set_self hlt,
    removeCell_erases_one key c, removeCell_filter key c, ?_⟩
  · intro i hi
    simp only
    rw [List.getElem?_set_ne]
    intro h
    apply hi
    rw [← h]
    omega
  · intro s d hne
    apply displayDeathCount_set t key hk c _ hg
    exact lookupState_removeCell_of_ne key s hne c

theorem HashTable.Wf.insertAll : ∀ (ops : List Insertion) (t : HashTable),
    HashTable.insertAll ops = some t → t.Wf := by
  intro ops
  induction ops using List.reverseRecOn with
  | nil =>
    intro t h
    simp only [HashTable.insertAll, List.foldl_nil, Option.some.injEq] at h
    subst h
    exact Wf.new
  | append_singleton ops op ih =>
    intro t h
    rw [HashTable.insertAll_append_one] at h
    cases h1 : HashTable.insertAll ops with
    | none => rw [h1] at h; cases h
    | some t1 =>
      rw [h1] at h
      exact (ih t1 h1).insertItem h

/-! ## Record order in the two indexes -/

/-- In the tree, after any insertions, the record list of the node of a state lists the
merge keys inserted under the state in the order of their first insertion. -/
theorem RBTree.record_order (ops : List Insertion) :
    ∃ t, RBTree.insertAll ops = some t ∧
      ∀ s c l d r, searchTreeHelper t.root s = Node.node c l s d r →
        d.map recordKey = firstOccurrences (insertedKeys ops s) := by
  obtain ⟨t, ht, _, hs, hl⟩ := RBTree.insertAll_spec ops
  refine ⟨t, ht, ?_⟩
  intro s c l d r hfind
  rcases searchTreeHelper_spec s t.root hs with ⟨h1, _⟩ | ⟨c1, l1, d1, r1, h1, h2⟩
  · rw [h1] at hfind; cases hfind
  · rw [h1] at hfind
    cases hfind
    rw [← stored_keys, ← hl, h2]
    rfl

/-- In the hash table, after insertions whose keys hash into the table, the record list
stored for a state lists the merge keys inserted under the state in the order of their
first insertion. -/
theorem HashTable.record_order_of_keys_in_table (ops : List Insertion)
    (hops : ∀ op ∈ ops, 0 ≤ hashFunction op.1) :
    ∃ t, HashTable.insertAll ops = some t ∧
      ∀ s ds, t.holds s ds → ds.map recordKey = firstOccurrences (insertedKeys ops s) := by
  obtain ⟨t, ht, hlen, hst⟩ := HashTable.insertAll_lookup ops hops
  refine ⟨t, ht, ?_⟩
  intro s ds hholds
  have hw := HashTable.Wf.insertAll ops t ht
  have hs : 0 ≤ hashFunction s := by
    obtain ⟨b, hb, he⟩ := hholds
    obtain ⟨i, hi⟩ := List.mem_iff_getElem?.1 hb
    have := (hw.2 i b hi).2 _ he
    simp only at this
    omega
  obtain ⟨c, hc, hlook⟩ := (hw.holds_iff s hs ds).1 hholds
  obtain ⟨c2, hc2, hlook2⟩ := hst s hs
  rw [hc] at hc2
  cases hc2
  rw [← stored_keys, ← hlook2, hlook]
  rfl
/-- Two states with the same letters share a bucket: after the insertion for Texas, an
insertion for "saxeT" is appended to bucket 17 and leaves the entry of Texas as it
is. -/
theorem HashTable.collision_scenario :
    hashFunction saxeT = 17 ∧ hashFunction Texas = 17 ∧
      (HashTable.insertAll (texasOnce ++ [(saxeT, ⟨Asthma, 2020, 70, mortality⟩)])).map
          (fun t => t.table[17]?) =
        some (some [(Texas, [⟨Asthma, 2020, 50, mortality⟩]),
          (saxeT, [⟨Asthma, 2020, 70, mortality⟩])]) := by decide

/-! ## The memory: what is read through a pointer, and the tree it holds -/

namespace Mem

theorem get_some (m : Mem) (a : Nat) : m.get (some a) = m.cells[a]? := rfl

theorem get_none (m : Mem) : m.get none = none := rfl

theorem set_of_cell {m : Mem} {a : Nat} {c : Cell} (h : m.cells[a]? = some c) (f : Cell → Cell) :
    m.set (some a) f = some { m with cells := m.cells.set a (f c) } := by
  simp [Mem.set, h]

theorem lt_of_cell {m : Mem} {a : Nat} {c : Cell} (h : m.cells[a]? = some c) :
    a < m.cells.length := by
  by_contra hlt
  rw [List.getElem?_eq_none (by omega)] at h
  cases h

theorem TreeAt_TNULL (m : Mem) (par p : Ptr) (fp : List Nat) :
    TreeAt m par p Node.TNULL fp ↔ p = m.TNULL ∧ fp = [] := Iff.rfl

theorem TreeAt_node (m : Mem) (par p : Ptr) (c : Color) (l : Node) (s : CString)
    (d : List hashTableVars) (r : Node) (fp : List Nat) :
    TreeAt m par p (Node.node c l s d r) fp ↔
      ∃ a pl pr fl fr, p = some a ∧ p ≠ m.TNULL ∧ fp = a :: (fl ++ fr) ∧
        m.cells[a]? = some ⟨s, d, c, pl, pr, par⟩ ∧
        TreeAt m (some a) pl l fl ∧ TreeAt m (some a) pr r fr := Iff.rfl

theorem PathAt_nil (m : Mem) (hole par : Ptr) (fp : List Nat) :
    PathAt m hole par [] fp ↔ par = none ∧ m.root = hole ∧ fp = [] := Iff.rfl

theorem PathAt_cons (m : Mem) (hole par : Ptr) (f : Frame) (rest : Ancestors) (fp : List Nat) :
    PathAt m hole par (f :: rest) fp ↔
      ∃ a other gp fs frest, par = some a ∧ par ≠ m.TNULL ∧ fp = a :: (fs ++ frest) ∧
        m.cells[a]? = some (f.cell hole other gp) ∧
        TreeAt m (some a) other f.sibling fs ∧ PathAt m (some a) gp rest frest := Iff.rfl

/-- A tree in memory is still there when the nodes at its addresses are unchanged. -/
theorem TreeAt.congr_tree {m m2 : Mem} (hT : m2.TNULL = m.TNULL) :
    ∀ {t : Node} {par p : Ptr} {fp : List Nat}, TreeAt m par p t fp →
      (∀ a ∈ fp, m2.cells[a]? = m.cells[a]?) → TreeAt m2 par p t fp
  | Node.TNULL, par, p, fp, h, _ => by
    rw [TreeAt_TNULL] at h ⊢; rw [hT]; exact h
  | Node.node c l s d r, par, p, fp, h, hfp => by
    rw [TreeAt_node] at h ⊢
    obtain ⟨a, pl, pr, fl, fr, hp, hne, hf, hc, hl, hr⟩ := h
    subst hf
    refine ⟨a, pl, pr, fl, fr, hp, by rw [hT]; exact hne, rfl, ?_, ?_, ?_⟩
    · rw [hfp a (List.mem_cons_self _ _)]; exact hc
    · exact TreeAt.congr_tree hT hl fun b hb =>
        hfp b (List.mem_cons_of_mem _ (List.mem_append_left _ hb))
    · exact TreeAt.congr_tree hT hr fun b hb =>
        hfp b (List.mem_cons_of_mem _ (List.mem_append_right _ hb))

/-- The ancestors in memory are still there when the nodes at their addresses and
`root` are unchanged. -/
theorem PathAt.congr_path {m m2 : Mem} (hT : m2.TNULL = m.TNULL) (hR : m2.root = m.root) :
    ∀ {path : Ancestors} {hole par : Ptr} {fp : List Nat}, PathAt m hole par path fp →
      (∀ a ∈ fp, m2.cells[a]? = m.cells[a]?) → PathAt m2 hole par path fp
  | [], hole, par, fp, h, _ => by
    rw [PathAt_nil] at h ⊢; rw [hR]; exact h
  | f :: rest, hole, par, fp, h, hfp => by
    rw [PathAt_cons] at h ⊢
    obtain ⟨a, other, gp, fs, frest, hp, hne, hf, hc, hs, hrest⟩ := h
    subst hf
    refine ⟨a, other, gp, fs, frest, hp, by rw [hT]; exact hne, rfl, ?_, ?_, ?_⟩
    · rw [hfp a (List.mem_cons_self _ _)]; exact hc
    · exact TreeAt.congr_tree hT hs fun b hb =>
        hfp b (List.mem_cons_of_mem _ (List.mem_append_left _ hb))
    · exact PathAt.congr_path hT hR hrest fun b hb =>
        hfp b (List.mem_cons_of_mem _ (List.mem_append_right _ hb))

/-- The parent of the root of a tree in memory can be any pointer when the tree is the
sentinel. -/
theorem TreeAt.of_TNULL {m : Mem} {par p : Ptr} {fp : List Nat} (par2 : Ptr)
    (h : TreeAt m par p Node.TNULL fp) : TreeAt m par2 p Node.TNULL fp := h

/-- Every address of a tree in memory is allocated. -/
theorem TreeAt.allocated {m : Mem} :
    ∀ {t : Node} {par p : Ptr} {fp : List Nat}, TreeAt m par p t fp →
      ∀ a ∈ fp, a < m.cells.length ∧ some a ≠ m.TNULL
  | Node.TNULL, par, p, fp, h, a, ha => by
    rw [TreeAt_TNULL] at h; rw [h.2] at ha; cases ha
  | Node.node c l s d r, par, p, fp, h, b, hb => by
    rw [TreeAt_node] at h
    obtain ⟨a, pl, pr, fl, fr, hp, hne, hf, hc, hl, hr⟩ := h
    subst hf
    rcases List.mem_cons.1 hb with rfl | hb
    · exact ⟨lt_of_cell hc, by rw [← hp]; exact hne⟩
    · rcases List.mem_append.1 hb with hb | hb
      · exact TreeAt.allocated hl b hb
      · exact TreeAt.allocated hr b hb

theorem PathAt.allocated_path {m : Mem} :
    ∀ {path : Ancestors} {hole par : Ptr} {fp : List Nat}, PathAt m hole par path fp →
      ∀ a ∈ fp, a < m.cells.length ∧ some a ≠ m.TNULL
  | [], hole, par, fp, h, a, ha => by
    rw [PathAt_nil] at h; rw [h.2.2] at ha; cases ha
  | f :: rest, hole, par, fp, h, b, hb => by
    rw [PathAt_cons] at h
    obtain ⟨a, other, gp, fs, frest, hp, hne, hf, hc, hs, hrest⟩ := h
    subst hf
    rcases List.mem_cons.1 hb with rfl | hb
    · exact ⟨lt_of_cell hc, by rw [← hp]; exact hne⟩
    · rcases List.mem_append.1 hb with hb | hb
      · exact TreeAt.allocated hs b hb
      · exact PathAt.allocated_path hrest b hb

/-- The root of a tree in memory that is not the sentinel is the first of its
addresses. -/
theorem TreeAt.ptr_mem {m : Mem} {t : Node} {par p : Ptr} {fp : List Nat}
    (h : TreeAt m par p t fp) (ht : t ≠ Node.TNULL) : ∃ a, p = some a ∧ a ∈ fp := by
  cases t with
  | TNULL => exact absurd rfl ht
  | node c l s d r =>
    rw [TreeAt_node] at h
    obtain ⟨a, pl, pr, fl, fr, hp, hne, hf, hc, hl, hr⟩ := h
    exact ⟨a, hp, by rw [hf]; exact List.mem_cons_self _ _⟩

/-- A pointer to a tree in memory is not an address outside the tree's addresses,
unless the tree is the sentinel. -/
theorem TreeAt.ptr_ne {m : Mem} {t : Node} {par p : Ptr} {fp : List Nat}
    (h : TreeAt m par p t fp) {b : Nat} (hb : b ∉ fp) (hbT : some b ≠ m.TNULL) :
    p ≠ some b := by
  cases t with
  | TNULL => rw [TreeAt_TNULL] at h; rw [h.1]; exact fun e => hbT e.symm
  | node c l s d r =>
    obtain ⟨a, hp, ha⟩ := h.ptr_mem (by simp)
    rw [hp]; intro e; cases e; exact hb ha

theorem parent_of_cell {m : Mem} {a : Nat} {c : Cell} (h : m.cells[a]? = some c) :
    m.parent (some a) = some c.parent := by simp [Mem.parent, Mem.get, h]

theorem left_of_cell {m : Mem} {a : Nat} {c : Cell} (h : m.cells[a]? = some c) :
    m.left (some a) = some c.left := by simp [Mem.left, Mem.get, h]

theorem right_of_cell {m : Mem} {a : Nat} {c : Cell} (h : m.cells[a]? = some c) :
    m.right (some a) = some c.right := by simp [Mem.right, Mem.get, h]

theorem color_of_cell {m : Mem} {a : Nat} {c : Cell} (h : m.cells[a]? = some c) :
    m.color (some a) = some c.color := by simp [Mem.color, Mem.get, h]

theorem state_of_cell {m : Mem} {a : Nat} {c : Cell} (h : m.cells[a]? = some c) :
    m.state (some a) = some c.state := by simp [Mem.state, Mem.get, h]

/-- The colour read through a pointer to a tree in memory is the colour of the tree;
for the sentinel it is black. -/
theorem TreeAt.color_read {m : Mem} {t : Node} {par p : Ptr} {fp : List Nat}
    (h : TreeAt m par p t fp) (hS : Sentinel m) : m.color p = some t.color := by
  cases t with
  | TNULL =>
    rw [TreeAt_TNULL] at h
    rw [h.1, Mem.color, hS.1]; rfl
  | node c l s d r =>
    rw [TreeAt_node] at h
    obtain ⟨a, pl, pr, fl, fr, hp, hne, hf, hc, hl, hr⟩ := h
    rw [hp, color_of_cell hc]; rfl

/-- Moving up: the parent of the pointer is the root of the subtree that the innermost
ancestor makes with the subtree at the pointer. -/
theorem Zip.up {m : Mem} {par k : Ptr} {kt : Node} {f : Frame} {rest : Ancestors}
    (h : Zip m par k kt (f :: rest)) :
    ∃ a other gp, par = some a ∧ some a ≠ m.TNULL ∧ k ≠ some a ∧
      (kt ≠ Node.TNULL → other ≠ k) ∧
      m.cells[a]? = some (f.cell k other gp) ∧ Zip m gp (some a) (f.fill kt) rest := by
  obtain ⟨fk, fp, hk, hp, hnd, hS⟩ := h
  rw [PathAt_cons] at hp
  obtain ⟨a, other, gp, fs, frest, hpar, hne, hf, hc, hs, hrest⟩ := hp
  subst hf; subst hpar
  have hd := List.disjoint_of_nodup_append hnd
  have hak : a ∉ fk := fun hmem => hd hmem (List.mem_cons_self _ _)
  refine ⟨a, other, gp, rfl, hne, hk.ptr_ne hak hne, ?_, hc, ?_⟩
  · intro hkt
    obtain ⟨ka, hka, hmem⟩ := hk.ptr_mem hkt
    rw [hka]
    refine hs.ptr_ne ?_ (hk.allocated ka hmem).2
    exact fun hfs => hd hmem (List.mem_cons_of_mem _ (List.mem_append_left _ hfs))
  · cases f with
    | leftOf c s d r =>
      refine ⟨a :: (fk ++ fs), frest, ?_, hrest, ?_, hS⟩
      · exact (TreeAt_node ..).2 ⟨a, k, other, fk, fs, rfl, hne, rfl, hc, hk, hs⟩
      · refine (List.Perm.nodup_iff ?_).1 hnd
        rw [← Multiset.coe_eq_coe]
        simp only [← Multiset.coe_add, ← Multiset.cons_coe, ← Multiset.singleton_add,
          List.cons_append]
        ac_rfl
    | rightOf c l s d =>
      refine ⟨a :: (fs ++ fk), frest, ?_, hrest, ?_, hS⟩
      · exact (TreeAt_node ..).2 ⟨a, other, k, fs, fk, rfl, hne, rfl, hc, hs, hk⟩
      · refine (List.Perm.nodup_iff ?_).1 hnd
        rw [← Multiset.coe_eq_coe]
        simp only [← Multiset.coe_add, ← Multiset.cons_coe, ← Multiset.singleton_add,
          List.cons_append]
        ac_rfl

/-- Moving down: the children of the node at the pointer, each below the node as its
innermost ancestor. -/
theorem Zip.down {m : Mem} {par k : Ptr} {c : Color} {l : Node} {s : CString}
    {d : List hashTableVars} {r : Node} {path : Ancestors}
    (h : Zip m par k (Node.node c l s d r) path) :
    ∃ a pl pr, k = some a ∧ some a ≠ m.TNULL ∧ m.cells[a]? = some ⟨s, d, c, pl, pr, par⟩ ∧
      Zip m (some a) pl l (Frame.leftOf c s d r :: path) ∧
      Zip m (some a) pr r (Frame.rightOf c l s d :: path) := by
  obtain ⟨fk, fp, hk, hp, hnd, hS⟩ := h
  rw [TreeAt_node] at hk
  obtain ⟨a, pl, pr, fl, fr, hka, hne, hf, hc, hl, hr⟩ := hk
  subst hf; subst hka
  refine ⟨a, pl, pr, rfl, hne, hc, ⟨fl, a :: (fr ++ fp), hl, ?_, ?_, hS⟩,
    ⟨fr, a :: (fl ++ fp), hr, ?_, ?_, hS⟩⟩
  · exact (PathAt_cons ..).2 ⟨a, pr, par, fr, fp, rfl, hne, rfl, hc, hr, hp⟩
  · refine (List.Perm.nodup_iff ?_).1 hnd
    rw [← Multiset.coe_eq_coe]
    simp only [← Multiset.coe_add, ← Multiset.cons_coe, ← Multiset.singleton_add,
      List.cons_append]
    ac_rfl
  · exact (PathAt_cons ..).2 ⟨a, pl, par, fl, fp, rfl, hne, rfl, hc, hl, hp⟩
  · refine (List.Perm.nodup_iff ?_).1 hnd
    rw [← Multiset.coe_eq_coe]
    simp only [← Multiset.coe_add, ← Multiset.cons_coe, ← Multiset.singleton_add,
      List.cons_append]
    ac_rfl

/-- Without ancestors the pointer is `root` and its parent is `nullptr`. -/
theorem Zip.of_nil {m : Mem} {par k : Ptr} {kt : Node} (h : Zip m par k kt []) :
    par = none ∧ m.root = k := by
  obtain ⟨fk, fp, hk, hp, hnd, hS⟩ := h
  rw [PathAt_nil] at hp
  exact ⟨hp.1, hp.2.1⟩

theorem Zip.sentinel {m : Mem} {par k : Ptr} {kt : Node} {path : Ancestors}
    (h : Zip m par k kt path) : Sentinel m := by
  obtain ⟨fk, fp, hk, hp, hnd, hS⟩ := h
  exact hS

/-- The pointer at the top of the ancestors is `root`. -/
theorem PathAt.root_mem {m : Mem} :
    ∀ {path : Ancestors} {hole par : Ptr} {fp : List Nat}, PathAt m hole par path fp →
      path ≠ [] → ∃ a, m.root = some a ∧ a ∈ fp
  | [], _, _, _, _, hne => absurd rfl hne
  | f :: rest, hole, par, fp, h, _ => by
    rw [PathAt_cons] at h
    obtain ⟨a, other, gp, fs, frest, hp, hne, hf, hc, hs, hrest⟩ := h
    subst hf
    cases rest with
    | nil =>
      rw [PathAt_nil] at hrest
      exact ⟨a, hrest.2.1, List.mem_cons_self _ _⟩
    | cons g up =>
      obtain ⟨b, hb, hmem⟩ := PathAt.root_mem hrest (by simp)
      exact ⟨b, hb, List.mem_cons_of_mem _ (List.mem_append_right _ hmem)⟩

/-- A node with an ancestor is not the node `root` points to. -/
theorem Zip.ne_root {m : Mem} {par k : Ptr} {kt : Node} {f : Frame} {rest : Ancestors}
    (h : Zip m par k kt (f :: rest)) : k ≠ m.root := by
  obtain ⟨fk, fp, hk, hp, hnd, hS⟩ := h
  obtain ⟨b, hb, hmem⟩ := hp.root_mem (by simp)
  rw [hb]
  refine hk.ptr_ne ?_ (hp.allocated_path b hmem).2
  exact fun hfk => List.disjoint_of_nodup_append hnd hfk hmem

/-- The whole tree that the memory holds. -/
theorem Zip.represents {m : Mem} :
    ∀ {path : Ancestors} {par k : Ptr} {kt : Node}, Zip m par k kt path →
      Represents m (plug kt path)
  | [], par, k, kt, h => by
    obtain ⟨h1, h2⟩ := h.of_nil
    subst h1; subst h2
    exact h
  | f :: rest, par, k, kt, h => by
    obtain ⟨a, other, gp, _, _, _, _, _, hz⟩ := h.up
    show Represents m (plug (f.fill kt) rest)
    exact Zip.represents hz

end Mem

/-! ## Assignments and the nodes they leave alone -/

namespace Mem

theorem SameOutside.refl_outside (S : List Nat) (m : Mem) : SameOutside S m m :=
  ⟨rfl, rfl, fun _ _ => rfl, rfl⟩

theorem SameOutside.append {S1 S2 : List Nat} {m m1 m2 : Mem} (h1 : SameOutside S1 m m1)
    (h2 : SameOutside S2 m1 m2) : SameOutside (S1 ++ S2) m m2 :=
  ⟨h2.1.trans h1.1, h2.2.1.trans h1.2.1, fun a ha => by
    rw [List.mem_append, not_or] at ha
    rw [h2.2.2.1 a ha.2, h1.2.2.1 a ha.1], h2.2.2.2.trans h1.2.2.2⟩

theorem SameOutside.cell {S : List Nat} {m m2 : Mem} (h : SameOutside S m m2) {a : Nat}
    (ha : a ∉ S) : m2.cells[a]? = m.cells[a]? := h.2.2.1 a ha

/-- An assignment through a pointer to a node changes that node only. -/
theorem set_spec {m : Mem} {a : Nat} {c : Cell} (h : m.cells[a]? = some c) (f : Cell → Cell) :
    ∃ m2, m.set (some a) f = some m2 ∧ m2.cells[a]? = some (f c) ∧ m2.root = m.root ∧
      SameOutside [a] m m2 := by
  refine ⟨_, set_of_cell h f, ?_, rfl, rfl, ?_, ?_, rfl⟩
  · simp [List.getElem?_set, lt_of_cell h]
  · simp
  · intro b hb
    rw [List.mem_singleton] at hb
    simp [List.getElem?_set, Ne.symm hb]

theorem TreeAt.frame_tree {m m2 : Mem} {S : List Nat} {t : Node} {par p : Ptr} {fp : List Nat}
    (h : TreeAt m par p t fp) (hS : SameOutside S m m2) (hd : fp.Disjoint S) :
    TreeAt m2 par p t fp :=
  h.congr_tree hS.1 fun a ha => hS.2.2.1 a fun haS => hd ha haS

theorem PathAt.frame_path {m m2 : Mem} {S : List Nat} {path : Ancestors} {hole par : Ptr}
    {fp : List Nat} (h : PathAt m hole par path fp) (hS : SameOutside S m m2)
    (hR : m2.root = m.root) (hd : fp.Disjoint S) : PathAt m2 hole par path fp :=
  h.congr_path hS.1 hR fun a ha => hS.2.2.1 a fun haS => hd ha haS

theorem Sentinel.frame_sentinel {m m2 : Mem} {S : List Nat} (h : Sentinel m) (hS : SameOutside S m m2)
    (hd : ∀ a ∈ S, some a ≠ m.TNULL) : Sentinel m2 := by
  unfold Sentinel at h ⊢
  rw [hS.1, hS.2.2.2]
  refine ⟨?_, h.2⟩
  have h := h.1
  cases hT : m.TNULL with
  | none => rw [hT] at h; cases h
  | some t0 =>
    rw [hT] at h
    rw [get_some] at h ⊢
    rw [hS.2.2.1 t0 fun ht => hd t0 ht hT.symm]
    exact h

/-- Lines 117-119 and 141-143: the subtree that changes sides gets its new parent; the
sentinel is left alone. -/
theorem TreeAt.reparent {m : Mem} {t : Node} {par p : Ptr} {fp : List Nat}
    (h : TreeAt m par p t fp) (hnd : fp.Nodup) (q : Ptr) :
    ∃ m2, (if p ≠ m.TNULL then m.setParent p q else some m) = some m2 ∧
      TreeAt m2 q p t fp ∧ m2.root = m.root ∧ SameOutside fp m m2 := by
  cases t with
  | TNULL =>
    rw [TreeAt_TNULL] at h
    refine ⟨m, ?_, ?_, rfl, SameOutside.refl_outside _ _⟩
    · rw [if_neg (by rw [h.1]; simp)]
    · rw [TreeAt_TNULL]; exact h
  | node c l s d r =>
    rw [TreeAt_node] at h
    obtain ⟨a, pl, pr, fl, fr, hp, hne, hf, hc, hl, hr⟩ := h
    subst hf; subst hp
    obtain ⟨m2, hset, hcell, hroot, hso⟩ :=
      set_spec hc fun cell => { cell with parent := q }
    have ha : a ∉ fl ++ fr := (List.nodup_cons.1 hnd).1
    refine ⟨m2, ?_, ?_, hroot, ?_⟩
    · rw [if_pos hne]; exact hset
    · rw [TreeAt_node]
      refine ⟨a, pl, pr, fl, fr, rfl, by rw [hso.1]; exact hne, rfl, hcell, ?_, ?_⟩
      · refine hl.frame_tree hso ?_
        rw [List.disjoint_left]; intro z hz hz2
        rw [List.mem_singleton] at hz2; subst hz2
        exact ha (List.mem_append_left _ hz)
      · refine hr.frame_tree hso ?_
        rw [List.disjoint_left]; intro z hz hz2
        rw [List.mem_singleton] at hz2; subst hz2
        exact ha (List.mem_append_right _ hz)
    · refine ⟨hso.1, hso.2.1, fun b hb => hso.2.2.1 b ?_, hso.2.2.2⟩
      rw [List.mem_singleton]; rintro rfl
      exact hb (List.mem_cons_self _ _)

theorem setLeft_spec {m : Mem} {a : Nat} {c : Cell} (h : m.cells[a]? = some c) (q : Ptr) :
    ∃ m2, m.setLeft (some a) q = some m2 ∧ m2.cells[a]? = some { c with left := q } ∧
      m2.root = m.root ∧ SameOutside [a] m m2 := set_spec h _

theorem setRight_spec {m : Mem} {a : Nat} {c : Cell} (h : m.cells[a]? = some c) (q : Ptr) :
    ∃ m2, m.setRight (some a) q = some m2 ∧ m2.cells[a]? = some { c with right := q } ∧
      m2.root = m.root ∧ SameOutside [a] m m2 := set_spec h _

theorem setParent_spec {m : Mem} {a : Nat} {c : Cell} (h : m.cells[a]? = some c) (q : Ptr) :
    ∃ m2, m.setParent (some a) q = some m2 ∧ m2.cells[a]? = some { c with parent := q } ∧
      m2.root = m.root ∧ SameOutside [a] m m2 := set_spec h _

/-- An assignment to a colour is an assignment to the node, then recorded. -/
theorem setColor_spec {m : Mem} {a : Nat} {c : Cell} (h : m.cells[a]? = some c) (q : Color) :
    ∃ m1, m.setColor (some a) q =
        some { m1 with colorWrites := (some a, q) :: m1.colorWrites } ∧
      m1.cells[a]? = some { c with color := q } ∧ m1.root = m.root ∧
      SameOutside [a] m m1 := by
  obtain ⟨m1, hset, hcell, hroot, hso⟩ := set_spec h fun cell => { cell with color := q }
  refine ⟨m1, ?_, hcell, hroot, hso⟩
  unfold Mem.setColor
  rw [hset]
  rfl

/-- Lines 121-129: the pointer to `x` in its parent, or `root`, now points to `y`. -/
theorem PathAt.relinkLeft {m : Mem} {xa : Nat} {par : Ptr} {path : Ancestors} {fp : List Nat}
    (hp : PathAt m (some xa) par path fp) (hnd : fp.Nodup) (hx : xa ∉ fp)
    (hxT : some xa ≠ m.TNULL) (y : Ptr) :
    ∃ m2, (if par = none then some { m with root := y }
        else (m.left par).bind fun l =>
          if some xa = l then m.setLeft par y else m.setRight par y) = some m2 ∧
      PathAt m2 y par path fp ∧ SameOutside fp m m2 := by
  cases path with
  | nil =>
    rw [PathAt_nil] at hp
    obtain ⟨h1, h2, h3⟩ := hp
    subst h1; subst h3
    exact ⟨_, if_pos rfl, (PathAt_nil ..).2 ⟨rfl, rfl, rfl⟩, rfl, rfl, fun _ _ => rfl, rfl⟩
  | cons f rest =>
    rw [PathAt_cons] at hp
    obtain ⟨a, other, gp, fs, frest, hpar, hne, hf, hc, hs, hrest⟩ := hp
    subst hf; subst hpar
    have hafs : a ∉ fs ++ frest := (List.nodup_cons.1 hnd).1
    have hd1 : fs.Disjoint [a] := by
      rw [List.disjoint_left]; intro z hz hz2
      rw [List.mem_singleton] at hz2; subst hz2
      exact hafs (List.mem_append_left _ hz)
    have hd2 : frest.Disjoint [a] := by
      rw [List.disjoint_left]; intro z hz hz2
      rw [List.mem_singleton] at hz2; subst hz2
      exact hafs (List.mem_append_right _ hz)
    have hso : ∀ {m2 : Mem}, SameOutside [a] m m2 → SameOutside (a :: (fs ++ frest)) m m2 :=
      fun h => ⟨h.1, h.2.1, fun b hb => h.2.2.1 b fun hb2 => hb (by
        rw [List.mem_singleton] at hb2; subst hb2; exact List.mem_cons_self _ _), h.2.2.2⟩
    rw [if_neg (by simp)]
    cases f with
    | leftOf c s d r =>
      have hc : m.cells[a]? = some ⟨s, d, c, some xa, other, gp⟩ := hc
      rw [left_of_cell hc, Option.some_bind]
      obtain ⟨m2, hset, hcell, hroot, hso2⟩ := setLeft_spec hc y
      refine ⟨m2, ?_, ?_, hso hso2⟩
      · rw [if_pos rfl]; exact hset
      · rw [PathAt_cons]
        exact ⟨a, other, gp, fs, frest, rfl, by rw [hso2.1]; exact hne, rfl, hcell,
          hs.frame_tree hso2 hd1, hrest.frame_path hso2 hroot hd2⟩
    | rightOf c l s d =>
      have hc : m.cells[a]? = some ⟨s, d, c, other, some xa, gp⟩ := hc
      rw [left_of_cell hc, Option.some_bind]
      obtain ⟨m2, hset, hcell, hroot, hso2⟩ := setRight_spec hc y
      have hne2 : other ≠ some xa :=
        hs.ptr_ne (fun hmem => hx (List.mem_cons_of_mem _ (List.mem_append_left _ hmem))) hxT
      refine ⟨m2, ?_, ?_, hso hso2⟩
      · rw [if_neg (fun e => hne2 e.symm)]; exact hset
      · rw [PathAt_cons]
        exact ⟨a, other, gp, fs, frest, rfl, by rw [hso2.1]; exact hne, rfl, hcell,
          hs.frame_tree hso2 hd1, hrest.frame_path hso2 hroot hd2⟩

/-- Lines 145-153: the pointer to `x` in its parent, or `root`, now points to `y`. -/
theorem PathAt.relinkRight {m : Mem} {xa : Nat} {par : Ptr} {path : Ancestors}
    {fp : List Nat} (hp : PathAt m (some xa) par path fp) (hnd : fp.Nodup) (hx : xa ∉ fp)
    (hxT : some xa ≠ m.TNULL) (y : Ptr) :
    ∃ m2, (if par = none then some { m with root := y }
        else (m.right par).bind fun l =>
          if some xa = l then m.setRight par y else m.setLeft par y) = some m2 ∧
      PathAt m2 y par path fp ∧ SameOutside fp m m2 := by
  cases path with
  | nil =>
    rw [PathAt_nil] at hp
    obtain ⟨h1, h2, h3⟩ := hp
    subst h1; subst h3
    exact ⟨_, if_pos rfl, (PathAt_nil ..).2 ⟨rfl, rfl, rfl⟩, rfl, rfl, fun _ _ => rfl, rfl⟩
  | cons f rest =>
    rw [PathAt_cons] at hp
    obtain ⟨a, other, gp, fs, frest, hpar, hne, hf, hc, hs, hrest⟩ := hp
    subst hf; subst hpar
    have hafs : a ∉ fs ++ frest := (List.nodup_cons.1 hnd).1
    have hd1 : fs.Disjoint [a] := by
      rw [List.disjoint_left]; intro z hz hz2
      rw [List.mem_singleton] at hz2; subst hz2
      exact hafs (List.mem_append_left _ hz)
    have hd2 : frest.Disjoint [a] := by
      rw [List.disjoint_left]; intro z hz hz2
      rw [List.mem_singleton] at hz2; subst hz2
      exact hafs (List.mem_append_right _ hz)
    have hso : ∀ {m2 : Mem}, SameOutside [a] m m2 → SameOutside (a :: (fs ++ frest)) m m2 :=
      fun h => ⟨h.1, h.2.1, fun b hb => h.2.2.1 b fun hb2 => hb (by
        rw [List.mem_singleton] at hb2; subst hb2; exact List.mem_cons_self _ _), h.2.2.2⟩
    rw [if_neg (by simp)]
    cases f with
    | rightOf c l s d =>
      have hc : m.cells[a]? = some ⟨s, d, c, other, some xa, gp⟩ := hc
      rw [right_of_cell hc, Option.some_bind]
      obtain ⟨m2, hset, hcell, hroot, hso2⟩ := setRight_spec hc y
      refine ⟨m2, ?_, ?_, hso hso2⟩
      · rw [if_pos rfl]; exact hset
      · rw [PathAt_cons]
        exact ⟨a, other, gp, fs, frest, rfl, by rw [hso2.1]; exact hne, rfl, hcell,
          hs.frame_tree hso2 hd1, hrest.frame_path hso2 hroot hd2⟩
    | leftOf c s d r =>
      have hc : m.cells[a]? = some ⟨s, d, c, some xa, other, gp⟩ := hc
      rw [right_of_cell hc, Option.some_bind]
      obtain ⟨m2, hset, hcell, hroot, hso2⟩ := setLeft_spec hc y
      have hne2 : other ≠ some xa :=
        hs.ptr_ne (fun hmem => hx (List.mem_cons_of_mem _ (List.mem_append_left _ hmem))) hxT
      refine ⟨m2, ?_, ?_, hso hso2⟩
      · rw [if_neg (fun e => hne2 e.symm)]; exact hset
      · rw [PathAt_cons]
        exact ⟨a, other, gp, fs, frest, rfl, by rw [hso2.1]; exact hne, rfl, hcell,
          hs.frame_tree hso2 hd1, hrest.frame_path hso2 hroot hd2⟩

end Mem

/-! ## The rotations on memory -/

namespace Mem

/-- What a rotation needs to know about the addresses of the two nodes, the three
subtrees and the ancestors. -/
theorem rotation_addresses {fa fb fc fp : List Nat} {xa ya : Nat}
    (hnd : (xa :: ya :: (fa ++ fb ++ fc ++ fp)).Nodup) :
    xa ≠ ya ∧ fb.Nodup ∧ fp.Nodup ∧ xa ∉ fp ∧ ya ∉ fp ∧ xa ∉ fb ∧ ya ∉ fb ∧
      fa.Disjoint ([xa] ++ fb ++ [ya] ++ fp ++ [ya] ++ [xa]) ∧
      fc.Disjoint ([xa] ++ fb ++ [ya] ++ fp ++ [ya] ++ [xa]) ∧
      fb.Disjoint ([ya] ++ fp ++ [ya] ++ [xa]) ∧
      fp.Disjoint ([xa] ++ fb ++ [ya]) ∧ fp.Disjoint ([ya] ++ [xa]) := by
  simp only [List.nodup_append, List.nodup_cons, List.mem_append, List.mem_cons, not_or,
    List.disjoint_left, List.cons_append, List.mem_singleton, List.not_mem_nil,
    or_false, false_or, List.nil_append] at hnd ⊢
  obtain ⟨⟨hxy, ⟨⟨hxa, hxb⟩, hxc⟩, hxp⟩, ⟨⟨⟨hya, hyb⟩, hyc⟩, hyp⟩, ⟨⟨hna, hnb, hab⟩, hnc, habc⟩, hnp, habcp⟩ := hnd
  refine ⟨hxy, hnb, hnp, hxp, hyp, hxb, hyb, ?_, ?_, ?_, ?_, ?_⟩
  all_goals intro z hz; aesop

/-- `leftRotate(x)` on a well-formed tree in memory, for a node `x` whose right child `y`
is not the sentinel: no pointer that is dereferenced is `nullptr`, and afterwards the
memory holds the well-formed tree in which `y` has taken the place of `x`, with `x` as
its left child and the former left subtree of `y` as the right subtree of `x`. -/
theorem leftRotate_spec {m : Mem} {par x : Ptr} {cx : Color} {a : Node} {sx : CString}
    {dx : List hashTableVars} {cy : Color} {b : Node} {sy : CString}
    {dy : List hashTableVars} {c : Node} {path : Ancestors}
    (h : Zip m par x (Node.node cx a sx dx (Node.node cy b sy dy c)) path) :
    ∃ m2 ya pc, m.right x = some (some ya) ∧ m.right (some ya) = some pc ∧
      m.leftRotate x = some m2 ∧
      Zip m2 par (some ya) (Node.node cy (Node.node cx a sx dx b) sy dy c) path ∧
      m2.left (some ya) = some x ∧ m2.right (some ya) = some pc ∧
      m2.parent x = some (some ya) ∧ m2.parent (some ya) = some par ∧
      m2.TNULL = m.TNULL ∧ m2.cells.length = m.cells.length := by
  obtain ⟨fk, fp, hk, hp, hnd, hS⟩ := h
  rw [TreeAt_node] at hk
  obtain ⟨xa, pa, py, fa, fy, hx, hxT, hf, hcx, ha, hy⟩ := hk
  rw [TreeAt_node] at hy
  obtain ⟨ya, pb, pc, fb, fc, hy, hyT, hfy, hcy, hb, hc⟩ := hy
  subst hf; subst hfy; subst hx; subst hy
  obtain ⟨hxy, hndb, hndp, hxp, hyp, hxb, hyb, hDa, hDc, hDb, hDp3, hDp4⟩ :=
    @rotation_addresses fa fb fc fp xa ya (by
      refine (List.Perm.nodup_iff ?_).1 hnd
      rw [← Multiset.coe_eq_coe]
      simp only [← Multiset.coe_add, ← Multiset.cons_coe, ← Multiset.singleton_add,
        List.cons_append]
      ac_rfl)
  -- line 116
  obtain ⟨m1, hset1, hc1x, hr1, hso1⟩ := setRight_spec hcx pb
  dsimp only at hc1x
  have hc1y : m1.cells[ya]? = some ⟨sy, dy, cy, pb, pc, some xa⟩ :=
    (hso1.cell (by simp [Ne.symm hxy])).trans hcy
  -- lines 117-119
  have hb1 : TreeAt m1 (some ya) pb b fb := hb.frame_tree hso1 (by
    rw [List.disjoint_left]; intro z hz hz2
    rw [List.mem_singleton] at hz2; subst hz2; exact hxb hz)
  obtain ⟨m2, hset2, hb2, hr2, hso2⟩ := hb1.reparent hndb (some xa)
  have hc2x : m2.cells[xa]? = some ⟨sx, dx, cx, pa, pb, par⟩ := (hso2.cell hxb).trans hc1x
  have hc2y : m2.cells[ya]? = some ⟨sy, dy, cy, pb, pc, some xa⟩ := (hso2.cell hyb).trans hc1y
  -- line 120
  obtain ⟨m3, hset3, hc3y, hr3, hso3⟩ := setParent_spec hc2y par
  dsimp only at hc3y
  have hc3x : m3.cells[xa]? = some ⟨sx, dx, cx, pa, pb, par⟩ :=
    (hso3.cell (by simp [hxy])).trans hc2x
  -- lines 121-129
  have hso03 := (hso1.append hso2).append hso3
  have hp3 : PathAt m3 (some xa) par path fp :=
    hp.frame_path hso03 (hr3.trans (hr2.trans hr1)) hDp3
  obtain ⟨m4, hset4, hp4, hso4⟩ :=
    hp3.relinkLeft hndp hxp (by rw [hso03.1]; exact hxT) (some ya)
  have hc4y : m4.cells[ya]? = some ⟨sy, dy, cy, pb, pc, par⟩ := (hso4.cell hyp).trans hc3y
  have hc4x : m4.cells[xa]? = some ⟨sx, dx, cx, pa, pb, par⟩ := (hso4.cell hxp).trans hc3x
  -- line 130
  obtain ⟨m5, hset5, hc5y, hr5, hso5⟩ := setLeft_spec hc4y (some xa)
  dsimp only at hc5y
  have hc5x : m5.cells[xa]? = some ⟨sx, dx, cx, pa, pb, par⟩ :=
    (hso5.cell (by simp [hxy])).trans hc4x
  -- line 131
  obtain ⟨m6, hset6, hc6x, hr6, hso6⟩ := setParent_spec hc5x (some ya)
  dsimp only at hc6x
  have hc6y : m6.cells[ya]? = some ⟨sy, dy, cy, some xa, pc, par⟩ :=
    (hso6.cell (by simp [Ne.symm hxy])).trans hc5y
  have hso06 := ((hso03.append hso4).append hso5).append hso6
  have hso26 := ((hso3.append hso4).append hso5).append hso6
  have hso46 := hso5.append hso6
  have hT6 : m6.TNULL = m.TNULL := hso06.1
  have hrun : m.leftRotate (some xa) = some m6 := by
    unfold leftRotate
    simp only [right_of_cell hcx, left_of_cell hcy, Option.bind_eq_bind, Option.some_bind,
      hset1, left_of_cell hc1y, hset2, parent_of_cell hc2x, hset3, parent_of_cell hc3x,
      hset4, hset5, hset6]
  refine ⟨m6, ya, pc, right_of_cell hcx, right_of_cell hcy, hrun, ?_, left_of_cell hc6y,
    right_of_cell hc6y, parent_of_cell hc6x, parent_of_cell hc6y, hT6, hso06.2.1⟩
  refine ⟨ya :: ((xa :: (fa ++ fb)) ++ fc), fp, ?_, ?_, ?_, ?_⟩
  · rw [TreeAt_node]
    refine ⟨ya, some xa, pc, xa :: (fa ++ fb), fc, rfl, by rw [hT6]; exact hyT, rfl, hc6y,
      ?_, ?_⟩
    · rw [TreeAt_node]
      refine ⟨xa, pa, pb, fa, fb, rfl, by rw [hT6]; exact hxT, rfl, hc6x, ?_, ?_⟩
      · exact ha.frame_tree hso06 hDa
      · exact hb2.frame_tree hso26 hDb
    · exact hc.frame_tree hso06 hDc
  · exact hp4.frame_path hso46 (hr6.trans hr5) hDp4
  · refine (List.Perm.nodup_iff ?_).1 hnd
    rw [← Multiset.coe_eq_coe]
    simp only [← Multiset.coe_add, ← Multiset.cons_coe, ← Multiset.singleton_add,
      List.cons_append]
    ac_rfl
  · refine hS.frame_sentinel hso06 ?_
    intro z hz
    simp only [List.mem_append, List.mem_cons, List.mem_singleton, List.not_mem_nil,
      or_false] at hz
    rcases hz with ((((rfl | hz) | rfl) | hz) | rfl) | rfl
    · exact hxT
    · exact (hb.allocated z hz).2
    · exact hyT
    · exact (hp.allocated_path z hz).2
    · exact hyT
    · exact hxT

/-- `rightRotate(x)` on a well-formed tree in memory, for a node `x` whose left child `y`
is not the sentinel: no pointer that is dereferenced is `nullptr`, and afterwards the
memory holds the well-formed tree in which `y` has taken the place of `x`, with `x` as
its right child and the former right subtree of `y` as the left subtree of `x`. -/
theorem rightRotate_spec {m : Mem} {par x : Ptr} {cx : Color} {a : Node} {sx : CString}
    {dx : List hashTableVars} {cy : Color} {b : Node} {sy : CString}
    {dy : List hashTableVars} {c : Node} {path : Ancestors}
    (h : Zip m par x (Node.node cx (Node.node cy a sy dy b) sx dx c) path) :
    ∃ m2 ya pa, m.left x = some (some ya) ∧ m.left (some ya) = some pa ∧
      m.rightRotate x = some m2 ∧
      Zip m2 par (some ya) (Node.node cy a sy dy (Node.node cx b sx dx c)) path ∧
      m2.right (some ya) = some x ∧ m2.left (some ya) = some pa ∧
      m2.parent x = some (some ya) ∧ m2.parent (some ya) = some par ∧
      m2.TNULL = m.TNULL ∧ m2.cells.length = m.cells.length := by
  obtain ⟨fk, fp, hk, hp, hnd, hS⟩ := h
  rw [TreeAt_node] at hk
  obtain ⟨xa, py, pc, fy, fc, hx, hxT, hf, hcx, hy, hc⟩ := hk
  rw [TreeAt_node] at hy
  obtain ⟨ya, pa, pb, fa, fb, hy, hyT, hfy, hcy, ha, hb⟩ := hy
  subst hf; subst hfy; subst hx; subst hy
  obtain ⟨hxy, hndb, hndp, hxp, hyp, hxb, hyb, hDa, hDc, hDb, hDp3, hDp4⟩ :=
    @rotation_addresses fa fb fc fp xa ya (by
      refine (List.Perm.nodup_iff ?_).1 hnd
      rw [← Multiset.coe_eq_coe]
      simp only [← Multiset.coe_add, ← Multiset.cons_coe, ← Multiset.singleton_add,
        List.cons_append])
  -- line 140
  obtain ⟨m1, hset1, hc1x, hr1, hso1⟩ := setLeft_spec hcx pb
  dsimp only at hc1x
  have hc1y : m1.cells[ya]? = some ⟨sy, dy, cy, pa, pb, some xa⟩ :=
    (hso1.cell (by simp [Ne.symm hxy])).trans hcy
  -- lines 141-143
  have hb1 : TreeAt m1 (some ya) pb b fb := hb.frame_tree hso1 (by
    rw [List.disjoint_left]; intro z hz hz2
    rw [List.mem_singleton] at hz2; subst hz2; exact hxb hz)
  obtain ⟨m2, hset2, hb2, hr2, hso2⟩ := hb1.reparent hndb (some xa)
  have hc2x : m2.cells[xa]? = some ⟨sx, dx, cx, pb, pc, par⟩ := (hso2.cell hxb).trans hc1x
  have hc2y : m2.cells[ya]? = some ⟨sy, dy, cy, pa, pb, some xa⟩ := (hso2.cell hyb).trans hc1y
  -- line 144
  obtain ⟨m3, hset3, hc3y, hr3, hso3⟩ := setParent_spec hc2y par
  dsimp only at hc3y
  have hc3x : m3.cells[xa]? = some ⟨sx, dx, cx, pb, pc, par⟩ :=
    (hso3.cell (by simp [hxy])).trans hc2x
  -- lines 145-153
  have hso03 := (hso1.append hso2).append hso3
  have hp3 : PathAt m3 (some xa) par path fp :=
    hp.frame_path hso03 (hr3.trans (hr2.trans hr1)) hDp3
  obtain ⟨m4, hset4, hp4, hso4⟩ :=
    hp3.relinkRight hndp hxp (by rw [hso03.1]; exact hxT) (some ya)
  have hc4y : m4.cells[ya]? = some ⟨sy, dy, cy, pa, pb, par⟩ := (hso4.cell hyp).trans hc3y
  have hc4x : m4.cells[xa]? = some ⟨sx, dx, cx, pb, pc, par⟩ := (hso4.cell hxp).trans hc3x
  -- line 154
  obtain ⟨m5, hset5, hc5y, hr5, hso5⟩ := setRight_spec hc4y (some xa)
  dsimp only at hc5y
  have hc5x : m5.cells[xa]? = some ⟨sx, dx, cx, pb, pc, par⟩ :=
    (hso5.cell (by simp [hxy])).trans hc4x
  -- line 155
  obtain ⟨m6, hset6, hc6x, hr6, hso6⟩ := setParent_spec hc5x (some ya)
  dsimp only at hc6x
  have hc6y : m6.cells[ya]? = some ⟨sy, dy, cy, pa, some xa, par⟩ :=
    (hso6.cell (by simp [Ne.symm hxy])).trans hc5y
  have hso06 := ((hso03.append hso4).append hso5).append hso6
  have hso26 := ((hso3.append hso4).append hso5).append hso6
  have hso46 := hso5.append hso6
  have hT6 : m6.TNULL = m.TNULL := hso06.1
  have hrun : m.rightRotate (some xa) = some m6 := by
    unfold rightRotate
    simp only [left_of_cell hcx, right_of_cell hcy, Option.bind_eq_bind, Option.some_bind,
      hset1, right_of_cell hc1y, hset2, parent_of_cell hc2x, hset3, parent_of_cell hc3x,
      hset4, hset5, hset6]
  refine ⟨m6, ya, pa, left_of_cell hcx, left_of_cell hcy, hrun, ?_, right_of_cell hc6y,
    left_of_cell hc6y, parent_of_cell hc6x, parent_of_cell hc6y, hT6, hso06.2.1⟩
  refine ⟨ya :: (fa ++ (xa :: (fb ++ fc))), fp, ?_, ?_, ?_, ?_⟩
  · rw [TreeAt_node]
    refine ⟨ya, pa, some xa, fa, xa :: (fb ++ fc), rfl, by rw [hT6]; exact hyT, rfl, hc6y,
      ?_, ?_⟩
    · exact ha.frame_tree hso06 hDa
    · rw [TreeAt_node]
      refine ⟨xa, pb, pc, fb, fc, rfl, by rw [hT6]; exact hxT, rfl, hc6x, ?_, ?_⟩
      · exact hb2.frame_tree hso26 hDb
      · exact hc.frame_tree hso06 hDc
  · exact hp4.frame_path hso46 (hr6.trans hr5) hDp4
  · refine (List.Perm.nodup_iff ?_).1 hnd
    rw [← Multiset.coe_eq_coe]
    simp only [← Multiset.coe_add, ← Multiset.cons_coe, ← Multiset.singleton_add,
      List.cons_append]
    ac_rfl
  · refine hS.frame_sentinel hso06 ?_
    intro z hz
    simp only [List.mem_append, List.mem_cons, List.mem_singleton, List.not_mem_nil,
      or_false] at hz
    rcases hz with ((((rfl | hz) | rfl) | hz) | rfl) | rfl
    · exact hxT
    · exact (hb.allocated z hz).2
    · exact hyT
    · exact (hp.allocated_path z hz).2
    · exact hyT
    · exact hxT

end Mem

/-! ## Moving through the tree in memory -/

namespace Mem

theorem SameLinks.refl_links (m : Mem) : SameLinks m m := ⟨rfl, rfl, rfl, fun _ => ⟨rfl, rfl, rfl, rfl⟩⟩

theorem SameLinks.chain {m m1 m2 : Mem} (h1 : SameLinks m m1) (h2 : SameLinks m1 m2) :
    SameLinks m m2 :=
  ⟨h2.1.trans h1.1, h2.2.1.trans h1.2.1, h2.2.2.1.trans h1.2.2.1, fun p =>
    ⟨((h2.2.2.2 p).1).trans (h1.2.2.2 p).1, ((h2.2.2.2 p).2.1).trans (h1.2.2.2 p).2.1,
      ((h2.2.2.2 p).2.2.1).trans (h1.2.2.2 p).2.2.1,
      ((h2.2.2.2 p).2.2.2).trans (h1.2.2.2 p).2.2.2⟩⟩

theorem SameLinks.left {m m2 : Mem} (h : SameLinks m m2) (p : Ptr) : m2.left p = m.left p :=
  (h.2.2.2 p).1

theorem SameLinks.right {m m2 : Mem} (h : SameLinks m m2) (p : Ptr) :
    m2.right p = m.right p := (h.2.2.2 p).2.1

theorem SameLinks.parent {m m2 : Mem} (h : SameLinks m m2) (p : Ptr) :
    m2.parent p = m.parent p := (h.2.2.2 p).2.2.1

/-- The parent read through a pointer to a node of the tree. -/
theorem Zip.parent_eq {m : Mem} {par k : Ptr} {kt : Node} {path : Ancestors}
    (h : Zip m par k kt path) (hk : kt ≠ Node.TNULL) : m.parent k = some par := by
  cases kt with
  | TNULL => exact absurd rfl hk
  | node c l s d r =>
    obtain ⟨a, pl, pr, hka, _, hc, _, _⟩ := h.down
    rw [hka, parent_of_cell hc]

/-- The colour read through a pointer into the tree. -/
theorem Zip.color_eq {m : Mem} {par k : Ptr} {kt : Node} {path : Ancestors}
    (h : Zip m par k kt path) : m.color k = some kt.color := by
  obtain ⟨fk, fp, hk, hp, hnd, hS⟩ := h
  exact hk.color_read hS

/-- Moving down to the left child through the pointer read. -/
theorem Zip.down_left {m : Mem} {par x k : Ptr} {c : Color} {l : Node} {s : CString}
    {d : List hashTableVars} {r : Node} {path : Ancestors}
    (h : Zip m par x (Node.node c l s d r) path) (hk : m.left x = some k) :
    Zip m x k l (Frame.leftOf c s d r :: path) := by
  obtain ⟨a, pl, pr, hx, _, hc, hl, _⟩ := h.down
  subst hx
  rw [left_of_cell hc] at hk
  cases hk
  exact hl

/-- Moving down to the right child through the pointer read. -/
theorem Zip.down_right {m : Mem} {par x k : Ptr} {c : Color} {l : Node} {s : CString}
    {d : List hashTableVars} {r : Node} {path : Ancestors}
    (h : Zip m par x (Node.node c l s d r) path) (hk : m.right x = some k) :
    Zip m x k r (Frame.rightOf c l s d :: path) := by
  obtain ⟨a, pl, pr, hx, _, hc, _, hr⟩ := h.down
  subst hx
  rw [right_of_cell hc] at hk
  cases hk
  exact hr

/-- Moving up from below a left-hand frame, with what is read through the parent. -/
theorem Zip.up_left {m : Mem} {par k : Ptr} {kt : Node} {c : Color} {s : CString}
    {d : List hashTableVars} {r : Node} {rest : Ancestors}
    (h : Zip m par k kt (Frame.leftOf c s d r :: rest)) :
    ∃ gp pr, par ≠ none ∧ Zip m gp par (Node.node c kt s d r) rest ∧ m.left par = some k ∧
      m.right par = some pr ∧ m.parent par = some gp ∧ (kt ≠ Node.TNULL → pr ≠ k) := by
  obtain ⟨a, other, gp, hpar, _, _, hne, hc, hz⟩ := h.up
  subst hpar
  exact ⟨gp, other, by simp, hz, left_of_cell hc, right_of_cell hc, parent_of_cell hc, hne⟩

/-- Moving up from below a right-hand frame, with what is read through the parent. -/
theorem Zip.up_right {m : Mem} {par k : Ptr} {kt : Node} {c : Color} {l : Node}
    {s : CString} {d : List hashTableVars} {rest : Ancestors}
    (h : Zip m par k kt (Frame.rightOf c l s d :: rest)) :
    ∃ gp pl, par ≠ none ∧ Zip m gp par (Node.node c l s d kt) rest ∧ m.right par = some k ∧
      m.left par = some pl ∧ m.parent par = some gp ∧ (kt ≠ Node.TNULL → pl ≠ k) := by
  obtain ⟨a, other, gp, hpar, _, _, hne, hc, hz⟩ := h.up
  subst hpar
  exact ⟨gp, other, by simp, hz, right_of_cell hc, left_of_cell hc, parent_of_cell hc, hne⟩

/-- The record of a colour assignment through a pointer other than `TNULL` changes
nothing in the tree the memory holds. -/
theorem Zip.record {m : Mem} {par k : Ptr} {kt : Node} {path : Ancestors}
    (h : Zip m par k kt path) {p : Ptr} (hp : p ≠ m.TNULL) (c : Color) :
    Zip { m with colorWrites := (p, c) :: m.colorWrites } par k kt path := by
  obtain ⟨fk, fp, hk, hpa, hnd, hS⟩ := h
  have hk2 : TreeAt { m with colorWrites := (p, c) :: m.colorWrites } par k kt fk :=
    @TreeAt.congr_tree m { m with colorWrites := (p, c) :: m.colorWrites } rfl _ _ _ _ hk
      fun _ _ => rfl
  have hpa2 : PathAt { m with colorWrites := (p, c) :: m.colorWrites } k par path fp :=
    @PathAt.congr_path m { m with colorWrites := (p, c) :: m.colorWrites } rfl rfl _ _ _ _ hpa
      fun _ _ => rfl
  refine ⟨fk, fp, hk2, hpa2, hnd, hS.1, ?_⟩
  intro e he
  rcases List.mem_cons.1 he with rfl | he
  · exact fun e => absurd e hp
  · exact hS.2 e he

/-- The assignment `k->color = c` at a node of the tree. -/
theorem Zip.setColor {m : Mem} {par k : Ptr} {c : Color} {l : Node} {s : CString}
    {d : List hashTableVars} {r : Node} {path : Ancestors}
    (h : Zip m par k (Node.node c l s d r) path) (c2 : Color) :
    ∃ m2, m.setColor k c2 = some m2 ∧ Zip m2 par k (Node.node c2 l s d r) path ∧
      SameLinks m m2 := by
  obtain ⟨fk, fp, hk, hp, hnd, hS⟩ := h
  rw [TreeAt_node] at hk
  obtain ⟨a, pl, pr, fl, fr, hka, hne, hf, hc, hl, hr⟩ := hk
  subst hf; subst hka
  obtain ⟨m1, hset, hcell, hroot, hso⟩ := setColor_spec hc c2
  dsimp only at hcell
  have hd : ∀ {l : List Nat}, a ∉ l → l.Disjoint [a] := by
    intro l hl
    rw [List.disjoint_left]; intro z hz hz2
    rw [List.mem_singleton] at hz2; subst hz2; exact hl hz
  have ha : a ∉ (fl ++ fr) ++ fp := by
    have := hnd
    rw [List.cons_append, List.nodup_cons] at this
    exact this.1
  simp only [List.mem_append, not_or] at ha
  have h1 : Zip m1 par (some a) (Node.node c2 l s d r) path := by
    refine ⟨a :: (fl ++ fr), fp, ?_, hp.frame_path hso hroot (hd ha.2), hnd, hS.frame_sentinel hso ?_⟩
    · rw [TreeAt_node]
      exact ⟨a, pl, pr, fl, fr, rfl, by rw [hso.1]; exact hne, rfl, hcell,
        hl.frame_tree hso (hd ha.1.1), hr.frame_tree hso (hd ha.1.2)⟩
    · intro z hz
      rw [List.mem_singleton] at hz; subst hz; exact hne
  refine ⟨_, hset, h1.record (by rw [hso.1]; exact hne) c2, hroot, hso.1, hso.2.1, ?_⟩
  intro p
  cases p with
  | none => exact ⟨rfl, rfl, rfl, rfl⟩
  | some b =>
    by_cases hb : b = a
    · subst hb
      simp [Mem.left, Mem.right, Mem.parent, Mem.state, Mem.get, hcell, hc]
    · have := hso.2.2.1 b (by simpa using hb)
      simp [Mem.left, Mem.right, Mem.parent, Mem.state, Mem.get, this]

theorem SameLinks.child {m m2 : Mem} (h : SameLinks m m2) (f : Frame) (p : Ptr) :
    m2.child f p = m.child f p := by
  cases f with
  | leftOf c s d r => exact h.left p
  | rightOf c l s d => exact h.right p

/-- Moving up, with what is read through the parent. -/
theorem Zip.up_any {m : Mem} {par k : Ptr} {kt : Node} {f : Frame} {rest : Ancestors}
    (h : Zip m par k kt (f :: rest)) :
    ∃ gp, par ≠ none ∧ Zip m gp par (f.fill kt) rest ∧ m.child f par = some k ∧
      m.parent par = some gp ∧ m.color par = some f.color := by
  cases f with
  | leftOf c s d r =>
    obtain ⟨gp, pr, hne, hz, hl, hr, hp, _⟩ := h.up_left
    exact ⟨gp, hne, hz, hl, hp, hz.color_eq⟩
  | rightOf c l s d =>
    obtain ⟨gp, pr, hne, hz, hl, hr, hp, _⟩ := h.up_right
    exact ⟨gp, hne, hz, hl, hp, hz.color_eq⟩

/-- Moving down through the pointer read on the side of the frame. -/
theorem Zip.down_any {m : Mem} {gp par k : Ptr} {kt : Node} {f : Frame} {rest : Ancestors}
    (h : Zip m gp par (f.fill kt) rest) (hk : m.child f par = some k) :
    Zip m par k kt (f :: rest) := by
  cases f with
  | leftOf c s d r => exact Zip.down_left h hk
  | rightOf c l s d => exact Zip.down_right h hk

theorem fill_setColor_eq (f : Frame) (c : Color) (t : Node) :
    (f.setColor c).fill t = (f.fill t).setColor c := by
  cases f <;> rfl

theorem child_setColor (m : Mem) (f : Frame) (c : Color) (p : Ptr) :
    m.child (f.setColor c) p = m.child f p := by
  cases f <;> rfl

/-- The assignment `x->color = c` at a node of the tree, whatever its fields. -/
theorem Zip.setColor_node {m : Mem} {par k : Ptr} {kt : Node} {path : Ancestors}
    (h : Zip m par k kt path) (hk : kt ≠ Node.TNULL) (c2 : Color) :
    ∃ m2, m.setColor k c2 = some m2 ∧ Zip m2 par k (kt.setColor c2) path ∧
      SameLinks m m2 := by
  cases kt with
  | TNULL => exact absurd rfl hk
  | node c l s d r => exact h.setColor c2

/-- Line 70, 79, 89 or 98: the assignment `k->parent->color = c`. -/
theorem Zip.setColor_parent {m : Mem} {par k : Ptr} {kt : Node} {f : Frame}
    {rest : Ancestors} (h : Zip m par k kt (f :: rest)) (c2 : Color) :
    ∃ m2, m.setColor par c2 = some m2 ∧ Zip m2 par k kt (f.setColor c2 :: rest) ∧
      SameLinks m m2 := by
  obtain ⟨gp, _, hz, hch, _, _⟩ := h.up_any
  obtain ⟨m2, hset, hz2, hsl⟩ := hz.setColor_node (by cases f <;> simp [Frame.fill]) c2
  refine ⟨m2, hset, ?_, hsl⟩
  rw [← fill_setColor_eq] at hz2
  exact hz2.down_any (by rw [child_setColor, hsl.child, hch])

/-- Line 71, 80, 90 or 99: the assignment `k->parent->parent->color = c`. -/
theorem Zip.setColor_grandparent {m : Mem} {par k : Ptr} {kt : Node} {f g : Frame}
    {rest : Ancestors} (h : Zip m par k kt (f :: g :: rest)) (c2 : Color) :
    ∃ gp m2, m.parent par = some gp ∧ m.setColor gp c2 = some m2 ∧
      Zip m2 par k kt (f :: g.setColor c2 :: rest) ∧ SameLinks m m2 := by
  obtain ⟨gp, _, hz, hch, hp, _⟩ := h.up_any
  obtain ⟨m2, hset, hz2, hsl⟩ := hz.setColor_parent c2
  exact ⟨gp, m2, hp, hset, hz2.down_any (by rw [hsl.child, hch]), hsl⟩

/-- Line 69: the assignment `u->color = c` for an uncle `u` on the left that is a
node. -/
theorem Zip.setColor_uncle_left {m : Mem} {par k : Ptr} {kt : Node} {f : Frame}
    {gc uc : Color} {ul : Node} {us : CString} {ud : List hashTableVars} {ur : Node}
    {gs : CString} {gd : List hashTableVars} {rest : Ancestors}
    (h : Zip m par k kt (f :: Frame.rightOf gc (Node.node uc ul us ud ur) gs gd :: rest))
    (c2 : Color) :
    ∃ gp u m2, m.parent par = some gp ∧ m.left gp = some u ∧ m.setColor u c2 = some m2 ∧
      Zip m2 par k kt (f :: Frame.rightOf gc (Node.node c2 ul us ud ur) gs gd :: rest) ∧
      SameLinks m m2 := by
  obtain ⟨gp, _, hz, hch, hp, _⟩ := h.up_any
  obtain ⟨ggp, u, _, hzz, hr, hl, _, _⟩ := hz.up_right
  obtain ⟨m2, hset, hu2, hsl⟩ := (hzz.down_left hl).setColor c2
  obtain ⟨_, _, _, hg2, _, _, _, _⟩ := hu2.up_left
  have hz2 := hg2.down_right (by rw [hsl.right, hr])
  exact ⟨gp, u, m2, hp, hl, hset, hz2.down_any (by rw [hsl.child, hch]), hsl⟩

/-- Line 88: the assignment `u->color = c` for an uncle `u` on the right that is a
node. -/
theorem Zip.setColor_uncle_right {m : Mem} {par k : Ptr} {kt : Node} {f : Frame}
    {gc uc : Color} {ul : Node} {us : CString} {ud : List hashTableVars} {ur : Node}
    {gs : CString} {gd : List hashTableVars} {rest : Ancestors}
    (h : Zip m par k kt (f :: Frame.leftOf gc gs gd (Node.node uc ul us ud ur) :: rest))
    (c2 : Color) :
    ∃ gp u m2, m.parent par = some gp ∧ m.right gp = some u ∧ m.setColor u c2 = some m2 ∧
      Zip m2 par k kt (f :: Frame.leftOf gc gs gd (Node.node c2 ul us ud ur) :: rest) ∧
      SameLinks m m2 := by
  obtain ⟨gp, _, hz, hch, hp, _⟩ := h.up_any
  obtain ⟨ggp, u, _, hzz, hl, hr, _, _⟩ := hz.up_left
  obtain ⟨m2, hset, hu2, hsl⟩ := (hzz.down_right hr).setColor c2
  obtain ⟨_, _, _, hg2, _, _, _, _⟩ := hu2.up_right
  have hz2 := hg2.down_left (by rw [hsl.left, hl])
  exact ⟨gp, u, m2, hp, hr, hset, hz2.down_any (by rw [hsl.child, hch]), hsl⟩

/-- Line 81: `leftRotate(k->parent->parent)` when `k` is the right child of a right
child. -/
theorem Zip.leftRotate_grandparent {m : Mem} {par k : Ptr} {kt : Node} {c1 : Color}
    {l1 : Node} {s1 : CString} {d1 : List hashTableVars} {gc : Color} {u : Node}
    {gs : CString} {gd : List hashTableVars} {rest : Ancestors}
    (h : Zip m par k kt (Frame.rightOf c1 l1 s1 d1 :: Frame.rightOf gc u gs gd :: rest)) :
    ∃ gp m2, m.parent par = some gp ∧ m.leftRotate gp = some m2 ∧
      Zip m2 par k kt (Frame.rightOf c1 (Node.node gc u gs gd l1) s1 d1 :: rest) ∧
      m2.TNULL = m.TNULL ∧ m2.cells.length = m.cells.length := by
  obtain ⟨gp, pl, _, hz, hr, _, hp, _⟩ := h.up_right
  obtain ⟨ggp, pu, _, hzz, hgr, _, _, _⟩ := hz.up_right
  obtain ⟨m2, ya, pc, hy, hyr, hrot, hz2, _, hyr2, _, _, hT, hlen⟩ := leftRotate_spec hzz
  rw [hgr] at hy
  cases hy
  rw [hr] at hyr
  cases hyr
  exact ⟨gp, m2, hp, hrot, hz2.down_right hyr2, hT, hlen⟩

/-- Line 100: `rightRotate(k->parent->parent)` when `k` is the left child of a left
child. -/
theorem Zip.rightRotate_grandparent {m : Mem} {par k : Ptr} {kt : Node} {c1 : Color}
    {r1 : Node} {s1 : CString} {d1 : List hashTableVars} {gc : Color} {u : Node}
    {gs : CString} {gd : List hashTableVars} {rest : Ancestors}
    (h : Zip m par k kt (Frame.leftOf c1 s1 d1 r1 :: Frame.leftOf gc gs gd u :: rest)) :
    ∃ gp m2, m.parent par = some gp ∧ m.rightRotate gp = some m2 ∧
      Zip m2 par k kt (Frame.leftOf c1 s1 d1 (Node.node gc r1 gs gd u) :: rest) ∧
      m2.TNULL = m.TNULL ∧ m2.cells.length = m.cells.length := by
  obtain ⟨gp, pl, _, hz, hl, _, hp, _⟩ := h.up_left
  obtain ⟨ggp, pu, _, hzz, hgl, _, _, _⟩ := hz.up_left
  obtain ⟨m2, ya, pc, hy, hyl, hrot, hz2, _, hyl2, _, _, hT, hlen⟩ := rightRotate_spec hzz
  rw [hgl] at hy
  cases hy
  rw [hl] at hyl
  cases hyl
  exact ⟨gp, m2, hp, hrot, hz2.down_left hyl2, hT, hlen⟩

/-- Lines 76-77: `k = k->parent; rightRotate(k)` when `k` is a left child. -/
theorem Zip.rightRotate_parent {m : Mem} {par k : Ptr} {ck : Color} {kl : Node}
    {ks : CString} {kd : List hashTableVars} {kr : Node} {pc : Color} {ps : CString}
    {pd : List hashTableVars} {pr : Node} {rest : Ancestors}
    (h : Zip m par k (Node.node ck kl ks kd kr) (Frame.leftOf pc ps pd pr :: rest)) :
    ∃ m2, m.rightRotate par = some m2 ∧
      Zip m2 k par (Node.node pc kr ps pd pr) (Frame.rightOf ck kl ks kd :: rest) ∧
      m2.TNULL = m.TNULL ∧ m2.cells.length = m.cells.length := by
  obtain ⟨gp, pl, _, hz, hl, _, hp, _⟩ := h.up_left
  obtain ⟨m2, ya, pc, hy, _, hrot, hz2, hyr2, _, _, _, hT, hlen⟩ := rightRotate_spec hz
  rw [hl] at hy
  cases hy
  exact ⟨m2, hrot, hz2.down_right hyr2, hT, hlen⟩

/-- Lines 95-96: `k = k->parent; leftRotate(k)` when `k` is a right child. -/
theorem Zip.leftRotate_parent {m : Mem} {par k : Ptr} {ck : Color} {kl : Node}
    {ks : CString} {kd : List hashTableVars} {kr : Node} {pc : Color} {pl : Node}
    {ps : CString} {pd : List hashTableVars} {rest : Ancestors}
    (h : Zip m par k (Node.node ck kl ks kd kr) (Frame.rightOf pc pl ps pd :: rest)) :
    ∃ m2, m.leftRotate par = some m2 ∧
      Zip m2 k par (Node.node pc pl ps pd kl) (Frame.leftOf ck ks kd kr :: rest) ∧
      m2.TNULL = m.TNULL ∧ m2.cells.length = m.cells.length := by
  obtain ⟨gp, pl, _, hz, hr, _, hp, _⟩ := h.up_right
  obtain ⟨m2, ya, pc, hy, _, hrot, hz2, hyl2, _, _, _, hT, hlen⟩ := leftRotate_spec hz
  rw [hr] at hy
  cases hy
  exact ⟨m2, hrot, hz2.down_left hyl2, hT, hlen⟩

end Mem

/-! ## The rebalancing loop on memory -/

namespace Mem

theorem fill_ne_TNULL (f : Frame) (t : Node) : f.fill t ≠ Node.TNULL := by
  cases f <;> simp [Frame.fill]

/-- Lines 69-72: the uncle on the left is red. -/
theorem balanceRecolor_left {m : Mem} {par k : Ptr} {kt : Node} {p : Frame}
    {gc uc : Color} {ul : Node} {us : CString} {ud : List hashTableVars} {ur : Node}
    {gs : CString} {gd : List hashTableVars} {rest : Ancestors}
    (h : Zip m par k kt (p :: Frame.rightOf gc (Node.node uc ul us ud ur) gs gd :: rest))
    (hk : kt ≠ Node.TNULL) :
    ∃ gp u m2 ggp, m.parent par = some gp ∧ m.left gp = some u ∧
      m.balanceRecolor k u = some (m2, gp) ∧
      Zip m2 ggp gp (Node.node Color.RED (Node.node Color.BLACK ul us ud ur) gs gd
        ((p.setColor Color.BLACK).fill kt)) rest ∧
      m2.TNULL = m.TNULL ∧ m2.cells.length = m.cells.length := by
  obtain ⟨gp, u, m1, hp, hu, hset1, h1, hsl1⟩ := h.setColor_uncle_left Color.BLACK
  obtain ⟨m2, hset2, h2, hsl2⟩ := h1.setColor_parent Color.BLACK
  obtain ⟨gp3, m3, hp3, hset3, h3, hsl3⟩ := h2.setColor_grandparent Color.RED
  have e2 : m2.parent par = some gp := by rw [hsl2.parent, hsl1.parent, hp]
  rw [e2] at hp3; cases hp3
  obtain ⟨gp4, _, h4, _, hp4, _⟩ := h3.up_any
  have e3 : m3.parent par = some gp := by rw [hsl3.parent, e2]
  rw [e3] at hp4; cases hp4
  obtain ⟨ggp, _, _, h5, _, _, _, _⟩ := h4.up_right
  have hsl := (hsl1.chain hsl2).chain hsl3
  refine ⟨gp, u, m3, ggp, hp, hu, ?_, h5, hsl.2.1, hsl.2.2.1⟩
  unfold balanceRecolor
  simp only [hset1, h1.parent_eq hk, hset2, h2.parent_eq hk, e2, hset3, h3.parent_eq hk, e3,
    Option.bind_eq_bind, Option.some_bind]

/-- Lines 88-91: the uncle on the right is red. -/
theorem balanceRecolor_right {m : Mem} {par k : Ptr} {kt : Node} {p : Frame}
    {gc uc : Color} {ul : Node} {us : CString} {ud : List hashTableVars} {ur : Node}
    {gs : CString} {gd : List hashTableVars} {rest : Ancestors}
    (h : Zip m par k kt (p :: Frame.leftOf gc gs gd (Node.node uc ul us ud ur) :: rest))
    (hk : kt ≠ Node.TNULL) :
    ∃ gp u m2 ggp, m.parent par = some gp ∧ m.right gp = some u ∧
      m.balanceRecolor k u = some (m2, gp) ∧
      Zip m2 ggp gp (Node.node Color.RED ((p.setColor Color.BLACK).fill kt) gs gd
        (Node.node Color.BLACK ul us ud ur)) rest ∧
      m2.TNULL = m.TNULL ∧ m2.cells.length = m.cells.length := by
  obtain ⟨gp, u, m1, hp, hu, hset1, h1, hsl1⟩ := h.setColor_uncle_right Color.BLACK
  obtain ⟨m2, hset2, h2, hsl2⟩ := h1.setColor_parent Color.BLACK
  obtain ⟨gp3, m3, hp3, hset3, h3, hsl3⟩ := h2.setColor_grandparent Color.RED
  have e2 : m2.parent par = some gp := by rw [hsl2.parent, hsl1.parent, hp]
  rw [e2] at hp3; cases hp3
  obtain ⟨gp4, _, h4, _, hp4, _⟩ := h3.up_any
  have e3 : m3.parent par = some gp := by rw [hsl3.parent, e2]
  rw [e3] at hp4; cases hp4
  obtain ⟨ggp, _, _, h5, _, _, _, _⟩ := h4.up_left
  have hsl := (hsl1.chain hsl2).chain hsl3
  refine ⟨gp, u, m3, ggp, hp, hu, ?_, h5, hsl.2.1, hsl.2.2.1⟩
  unfold balanceRecolor
  simp only [hset1, h1.parent_eq hk, hset2, h2.parent_eq hk, e2, hset3, h3.parent_eq hk, e3,
    Option.bind_eq_bind, Option.some_bind]

/-- Lines 79-81 for the right child of a right child. -/
theorem balanceOuterLeft_spec {m : Mem} {par k : Ptr} {kt : Node} {c1 : Color}
    {l1 : Node} {s1 : CString} {d1 : List hashTableVars} {gc : Color} {u : Node}
    {gs : CString} {gd : List hashTableVars} {rest : Ancestors}
    (h : Zip m par k kt (Frame.rightOf c1 l1 s1 d1 :: Frame.rightOf gc u gs gd :: rest))
    (hk : kt ≠ Node.TNULL) :
    ∃ m2, m.balanceOuterLeft k = some (m2, k) ∧
      Zip m2 par k kt
        (Frame.rightOf Color.BLACK (Node.node Color.RED u gs gd l1) s1 d1 :: rest) ∧
      m2.TNULL = m.TNULL ∧ m2.cells.length = m.cells.length := by
  obtain ⟨m1, hset1, h1, hsl1⟩ := h.setColor_parent Color.BLACK
  obtain ⟨gp, m2, hp2, hset2, h2, hsl2⟩ := h1.setColor_grandparent Color.RED
  obtain ⟨gp3, m3, hp3, hrot, h3, hT, hlen⟩ := h2.leftRotate_grandparent
  have hsl := hsl1.chain hsl2
  refine ⟨m3, ?_, h3, hT.trans hsl.2.1, hlen.trans hsl.2.2.1⟩
  unfold balanceOuterLeft
  simp only [h.parent_eq hk, hset1, h1.parent_eq hk, hp2, hset2, h2.parent_eq hk, hp3, hrot,
    Option.bind_eq_bind, Option.some_bind]

/-- Lines 98-100 for the left child of a left child. -/
theorem balanceOuterRight_spec {m : Mem} {par k : Ptr} {kt : Node} {c1 : Color}
    {r1 : Node} {s1 : CString} {d1 : List hashTableVars} {gc : Color} {u : Node}
    {gs : CString} {gd : List hashTableVars} {rest : Ancestors}
    (h : Zip m par k kt (Frame.leftOf c1 s1 d1 r1 :: Frame.leftOf gc gs gd u :: rest))
    (hk : kt ≠ Node.TNULL) :
    ∃ m2, m.balanceOuterRight k = some (m2, k) ∧
      Zip m2 par k kt
        (Frame.leftOf Color.BLACK s1 d1 (Node.node Color.RED r1 gs gd u) :: rest) ∧
      m2.TNULL = m.TNULL ∧ m2.cells.length = m.cells.length := by
  obtain ⟨m1, hset1, h1, hsl1⟩ := h.setColor_parent Color.BLACK
  obtain ⟨gp, m2, hp2, hset2, h2, hsl2⟩ := h1.setColor_grandparent Color.RED
  obtain ⟨gp3, m3, hp3, hrot, h3, hT, hlen⟩ := h2.rightRotate_grandparent
  have hsl := hsl1.chain hsl2
  refine ⟨m3, ?_, h3, hT.trans hsl.2.1, hlen.trans hsl.2.2.1⟩
  unfold balanceOuterRight
  simp only [h.parent_eq hk, hset1, h1.parent_eq hk, hp2, hset2, h2.parent_eq hk, hp3, hrot,
    Option.bind_eq_bind, Option.some_bind]

/-- Lines 75-78: what `innerRight` does to the subtree and its ancestors is what the
statements do to the memory. -/
theorem balanceInnerRight_spec {m : Mem} {par k : Ptr} {kt : Node} {p : Frame}
    {rest : Ancestors} (h : Zip m par k kt (p :: rest)) (hk : kt ≠ Node.TNULL) :
    ∃ k1 c1 l1 s1 d1, innerRight kt p = some (k1, Frame.rightOf c1 l1 s1 d1) ∧
      k1 ≠ Node.TNULL ∧
      ∃ m2 par2 k2, m.balanceInnerRight k = some (m2, k2) ∧
        Zip m2 par2 k2 k1 (Frame.rightOf c1 l1 s1 d1 :: rest) ∧
        m2.TNULL = m.TNULL ∧ m2.cells.length = m.cells.length := by
  cases p with
  | leftOf pc ps pd pr =>
    cases kt with
    | TNULL => exact absurd rfl hk
    | node ck kl ks kd kr =>
      obtain ⟨gp, _, _, _, hl, _, _, _⟩ := h.up_left
      obtain ⟨m2, hrot, h2, hT, hlen⟩ := h.rightRotate_parent
      refine ⟨_, _, _, _, _, rfl, by simp, m2, k, par, ?_, h2, hT, hlen⟩
      unfold balanceInnerRight
      simp only [h.parent_eq hk, hl, hrot, Option.bind_eq_bind, Option.some_bind, if_true]
  | rightOf pc pl ps pd =>
    obtain ⟨gp, pl2, _, _, _, hl, _, hne⟩ := h.up_right
    refine ⟨_, _, _, _, _, rfl, hk, m, par, k, ?_, h, rfl, rfl⟩
    unfold balanceInnerRight
    simp only [h.parent_eq hk, hl, Option.bind_eq_bind, Option.some_bind]
    rw [if_neg (fun e : k = pl2 => hne hk e.symm)]

/-- Lines 94-97: what `innerLeft` does to the subtree and its ancestors is what the
statements do to the memory. -/
theorem balanceInnerLeft_spec {m : Mem} {par k : Ptr} {kt : Node} {p : Frame}
    {rest : Ancestors} (h : Zip m par k kt (p :: rest)) (hk : kt ≠ Node.TNULL) :
    ∃ k1 c1 s1 d1 r1, innerLeft kt p = some (k1, Frame.leftOf c1 s1 d1 r1) ∧
      k1 ≠ Node.TNULL ∧
      ∃ m2 par2 k2, m.balanceInnerLeft k = some (m2, k2) ∧
        Zip m2 par2 k2 k1 (Frame.leftOf c1 s1 d1 r1 :: rest) ∧
        m2.TNULL = m.TNULL ∧ m2.cells.length = m.cells.length := by
  cases p with
  | rightOf pc pl ps pd =>
    cases kt with
    | TNULL => exact absurd rfl hk
    | node ck kl ks kd kr =>
      obtain ⟨gp, _, _, _, hr, _, _, _⟩ := h.up_right
      obtain ⟨m2, hrot, h2, hT, hlen⟩ := h.leftRotate_parent
      refine ⟨_, _, _, _, _, rfl, by simp, m2, k, par, ?_, h2, hT, hlen⟩
      unfold balanceInnerLeft
      simp only [h.parent_eq hk, hr, hrot, Option.bind_eq_bind, Option.some_bind, if_true]
  | leftOf pc ps pd pr =>
    obtain ⟨gp, pr2, _, _, _, hr, _, hne⟩ := h.up_left
    refine ⟨_, _, _, _, _, rfl, hk, m, par, k, ?_, h, rfl, rfl⟩
    unfold balanceInnerLeft
    simp only [h.parent_eq hk, hr, Option.bind_eq_bind, Option.some_bind]
    rw [if_neg (fun e : k = pr2 => hne hk e.symm)]

/-- The last statement of `balanceInsert`, line 107, on a tree that is not empty. -/
theorem Represents.setColor_root {m : Mem} {t : Node} (h : Represents m t)
    (ht : t ≠ Node.TNULL) (c : Color) :
    ∃ m2, m.setColor m.root c = some m2 ∧ Represents m2 (t.setColor c) ∧
      m2.TNULL = m.TNULL ∧ m2.cells.length = m.cells.length := by
  obtain ⟨m2, hset, h2, hsl⟩ := Zip.setColor_node h ht c
  refine ⟨m2, hset, ?_, hsl.2.1, hsl.2.2.1⟩
  unfold Represents
  rw [hsl.1]
  exact h2

theorem plug_ne_TNULL : ∀ (path : Ancestors) (t : Node), t ≠ Node.TNULL →
    plug t path ≠ Node.TNULL
  | [], _, h => h
  | f :: rest, t, _ => plug_ne_TNULL rest (f.fill t) (fill_ne_TNULL f t)

/-- The loop of `balanceInsert` on memory does what the loop on the tree does: it
dereferences no `nullptr`, and it leaves the tree in memory, well formed. -/
theorem balanceLoop_refines : ∀ (fuel : Nat) (kt : Node) (path : Ancestors) (t : Node),
    RBTree.balanceLoop fuel kt path = some t → kt ≠ Node.TNULL →
    ∀ (m : Mem) (par k : Ptr), Zip m par k kt path → ∀ fuel2, fuel ≤ fuel2 →
      ∃ m2, m.balanceLoop fuel2 k = some m2 ∧ Represents m2 t ∧
        m2.TNULL = m.TNULL ∧ m2.cells.length = m.cells.length := by
  intro fuel
  induction fuel with
  | zero => intro kt path t h; simp [RBTree.balanceLoop] at h
  | succ n ih =>
    intro kt path t h hk m par k hz fuel2 hfuel
    obtain ⟨f2, rfl⟩ : ∃ f2, fuel2 = f2 + 1 := ⟨fuel2 - 1, by omega⟩
    have hf2 : n ≤ f2 := by omega
    cases path with
    | nil => simp [RBTree.balanceLoop] at h
    | cons p rest =>
      obtain ⟨gp, _, hzp, _, hpp, hpc⟩ := hz.up_any
      unfold RBTree.balanceLoop at h
      simp only at h
      unfold Mem.balanceLoop
      simp only [hz.parent_eq hk, hpc, Option.bind_eq_bind, Option.some_bind]
      by_cases hred : p.color = Color.RED
      · rw [if_pos hred] at h
        rw [if_pos hred]
        cases rest with
        | nil => simp at h
        | cons g up =>
          cases g with
          | rightOf gc u gs gd =>
            simp only at h
            obtain ⟨ggp, pu, _, hzg, hgr, hgl, _, _⟩ := hzp.up_right
            have huc : m.color pu = some u.color := (hzg.down_left hgl).color_eq
            unfold balancePass
            simp only [hz.parent_eq hk, hpp, hgr, hgl, huc, Option.bind_eq_bind,
              Option.some_bind, if_true]
            by_cases hu : u.color = Color.RED
            · rw [if_pos hu] at h
              rw [if_pos hu]
              cases u with
              | TNULL => cases hu
              | node uc ul us ud ur =>
                obtain ⟨gp2, u2, m2, ggp2, e1, e2, hrun, hz2, hT, hlen⟩ :=
                  balanceRecolor_left hz hk
                rw [hpp] at e1; cases e1
                rw [hgl] at e2; cases e2
                rw [hrun, Option.some_bind]
                simp only
                by_cases hup : up = []
                · subst hup
                  rw [if_pos rfl] at h
                  cases h
                  rw [if_pos hz2.of_nil.2.symm]
                  obtain ⟨h1, h2⟩ := hz2.of_nil
                  subst h1
                  rw [← h2] at hz2
                  obtain ⟨m3, hset, h3, hT3, hlen3⟩ :=
                    Represents.setColor_root hz2 (by simp) Color.BLACK
                  exact ⟨m3, hset, h3, hT3.trans hT, hlen3.trans hlen⟩
                · rw [if_neg hup] at h
                  obtain ⟨g2, up2, rfl⟩ := List.exists_cons_of_ne_nil hup
                  rw [if_neg hz2.ne_root]
                  obtain ⟨m3, hrun3, h3, hT3, hlen3⟩ :=
                    ih _ _ _ h (by simp) m2 _ _ hz2 f2 hf2
                  exact ⟨m3, hrun3, h3, hT3.trans hT, hlen3.trans hlen⟩
            · rw [if_neg hu] at h
              rw [if_neg hu]
              obtain ⟨k1, c1, l1, s1, d1, hin, hk1, m2, par2, k2, hrun, hz2, hT, hlen⟩ :=
                balanceInnerRight_spec hz hk
              rw [hin] at h
              simp only [Frame.setColor, Frame.fill, RBTree.leftRotate, RBTree.rightChild] at h
              obtain ⟨m3, hrun3, hz3, hT3, hlen3⟩ := balanceOuterLeft_spec hz2 hk1
              rw [hrun, Option.some_bind]
              simp only
              rw [hrun3, Option.some_bind]
              simp only
              rw [if_neg hz3.ne_root]
              obtain ⟨m4, hrun4, h4, hT4, hlen4⟩ := ih _ _ _ h hk1 m3 _ _ hz3 f2 hf2
              exact ⟨m4, hrun4, h4, (hT4.trans hT3).trans hT, (hlen4.trans hlen3).trans hlen⟩
          | leftOf gc gs gd u =>
            simp only at h
            obtain ⟨ggp, pu, _, hzg, hgl, hgr, _, hne⟩ := hzp.up_left
            have huc : m.color pu = some u.color := (hzg.down_right hgr).color_eq
            have hne2 : par ≠ pu := fun e => hne (fill_ne_TNULL p kt) e.symm
            unfold balancePass
            simp only [hz.parent_eq hk, hpp, hgr, hgl, huc, Option.bind_eq_bind,
              Option.some_bind, if_neg hne2]
            by_cases hu : u.color = Color.RED
            · rw [if_pos hu] at h
              rw [if_pos hu]
              cases u with
              | TNULL => cases hu
              | node uc ul us ud ur =>
                obtain ⟨gp2, u2, m2, ggp2, e1, e2, hrun, hz2, hT, hlen⟩ :=
                  balanceRecolor_right hz hk
                rw [hpp] at e1; cases e1
                rw [hgr] at e2; cases e2
                rw [hrun, Option.some_bind]
                simp only
                by_cases hup : up = []
                · subst hup
                  rw [if_pos rfl] at h
                  cases h
                  rw [if_pos hz2.of_nil.2.symm]
                  obtain ⟨h1, h2⟩ := hz2.of_nil
                  subst h1
                  rw [← h2] at hz2
                  obtain ⟨m3, hset, h3, hT3, hlen3⟩ :=
                    Represents.setColor_root hz2 (by simp) Color.BLACK
                  exact ⟨m3, hset, h3, hT3.trans hT, hlen3.trans hlen⟩
                · rw [if_neg hup] at h
                  obtain ⟨g2, up2, rfl⟩ := List.exists_cons_of_ne_nil hup
                  rw [if_neg hz2.ne_root]
                  obtain ⟨m3, hrun3, h3, hT3, hlen3⟩ :=
                    ih _ _ _ h (by simp) m2 _ _ hz2 f2 hf2
                  exact ⟨m3, hrun3, h3, hT3.trans hT, hlen3.trans hlen⟩
            · rw [if_neg hu] at h
              rw [if_neg hu]
              obtain ⟨k1, c1, s1, d1, r1, hin, hk1, m2, par2, k2, hrun, hz2, hT, hlen⟩ :=
                balanceInnerLeft_spec hz hk
              rw [hin] at h
              simp only [Frame.setColor, Frame.fill, RBTree.rightRotate, RBTree.leftChild] at h
              obtain ⟨m3, hrun3, hz3, hT3, hlen3⟩ := balanceOuterRight_spec hz2 hk1
              rw [hrun, Option.some_bind]
              simp only
              rw [hrun3, Option.some_bind]
              simp only
              rw [if_neg hz3.ne_root]
              obtain ⟨m4, hrun4, h4, hT4, hlen4⟩ := ih _ _ _ h hk1 m3 _ _ hz3 f2 hf2
              exact ⟨m4, hrun4, h4, (hT4.trans hT3).trans hT, (hlen4.trans hlen3).trans hlen⟩
      · rw [if_neg hred] at h
        rw [if_neg hred]
        cases h
        exact Represents.setColor_root hz.represents
          (plug_ne_TNULL _ _ hk) Color.BLACK

end Mem

/-! ## `insert` on memory -/

namespace Mem

/-- Lines 173-177 of `insert`: the new node is red, its children are the sentinel and
its parent is `nullptr`. -/
theorem insert_eq (m : Mem) (key : CString) (info : hashTableVars) :
    m.insert key info =
      insertLoop (m.cells.length + 1) (m.withNode key info) (some m.cells.length) info none
        m.root := by
  unfold insert
  simp [Mem.setParent, Mem.setLeft, Mem.setRight, Mem.setColor, Mem.set, newCell,
    Mem.withNode]

/-- An assignment to the colour, state or record list of a node of the tree. -/
theorem Zip.set_fields {m : Mem} {par k : Ptr} {c : Color} {l : Node} {s : CString}
    {d : List hashTableVars} {r : Node} {path : Ancestors}
    (h : Zip m par k (Node.node c l s d r) path) (c2 : Color) (s2 : CString)
    (d2 : List hashTableVars) :
    ∃ a pl pr, k = some a ∧ m.cells[a]? = some ⟨s, d, c, pl, pr, par⟩ ∧
      Zip { m with cells := m.cells.set a ⟨s2, d2, c2, pl, pr, par⟩ } par k
        (Node.node c2 l s2 d2 r) path := by
  obtain ⟨fk, fp, hk, hp, hnd, hS⟩ := h
  rw [TreeAt_node] at hk
  obtain ⟨a, pl, pr, fl, fr, hka, hne, hf, hc, hl, hr⟩ := hk
  subst hf; subst hka
  obtain ⟨m2, hset, hcell, hroot, hso⟩ :=
    set_spec hc fun _ => (⟨s2, d2, c2, pl, pr, par⟩ : Cell)
  rw [set_of_cell hc] at hset
  cases hset
  have hd : ∀ {l : List Nat}, a ∉ l → l.Disjoint [a] := by
    intro l hl
    rw [List.disjoint_left]; intro z hz hz2
    rw [List.mem_singleton] at hz2; subst hz2; exact hl hz
  have ha : a ∉ (fl ++ fr) ++ fp := by
    have := hnd
    rw [List.cons_append, List.nodup_cons] at this
    exact this.1
  simp only [List.mem_append, not_or] at ha
  refine ⟨a, pl, pr, rfl, hc, a :: (fl ++ fr), fp, ?_, hp.frame_path hso hroot (hd ha.2), hnd,
    hS.frame_sentinel hso ?_⟩
  · rw [TreeAt_node]
    exact ⟨a, pl, pr, fl, fr, rfl, hne, rfl, hcell,
      hl.frame_tree hso (hd ha.1.1), hr.frame_tree hso (hd ha.1.2)⟩
  · intro z hz
    rw [List.mem_singleton] at hz; subst hz; exact hne

/-- Lines 186-199 with `delete node`, for the node allocated last: the record list of
`*x` is merged, and the memory is otherwise as before the allocation. -/
theorem mergeAt_alloc (m : Mem) (key : CString) (info0 : hashTableVars) {a : Nat}
    {c : Cell} (info : hashTableVars) (h : m.cells[a]? = some c) :
    mergeAt (m.withNode key info0) (some a) info =
      some { m with
        cells := m.cells.set a { c with diseases := mergeRecord info c.diseases }
        colorWrites := (some m.cells.length, Color.RED) :: m.colorWrites } := by
  have hlt := lt_of_cell h
  have h2 : (m.withNode key info0).cells[a]? = some c := by
    unfold Mem.withNode
    simp only
    rw [List.getElem?_append_left hlt]; exact h
  unfold mergeAt
  rw [set_of_cell h2]
  simp only [Option.bind_eq_bind, Option.some_bind, Mem.withNode]
  rw [List.set_append_left _ _ hlt, List.dropLast_concat]

theorem nodup_length_le {l : List Nat} {n : Nat} (hnd : l.Nodup) (h : ∀ a ∈ l, a < n) :
    l.length ≤ n := by
  have hs : l ⊆ List.range n := fun a ha => List.mem_range.2 (h a ha)
  have := (List.subperm_of_subset hnd hs).length_le
  rwa [List.length_range] at this

theorem PathAt.length_le {m : Mem} :
    ∀ {path : Ancestors} {hole par : Ptr} {fp : List Nat}, PathAt m hole par path fp →
      path.length ≤ fp.length
  | [], _, _, _, _ => Nat.zero_le _
  | f :: rest, hole, par, fp, h => by
    rw [PathAt_cons] at h
    obtain ⟨a, other, gp, fs, frest, hp, hne, hf, hc, hs, hrest⟩ := h
    subst hf
    have := PathAt.length_le hrest
    simp only [List.length_cons, List.length_append]
    omega

theorem TreeAt.length_eq {m : Mem} :
    ∀ {t : Node} {par p : Ptr} {fp : List Nat}, TreeAt m par p t fp → fp.length = t.size
  | Node.TNULL, _, _, _, h => by
    rw [TreeAt_TNULL] at h; rw [h.2]; rfl
  | Node.node c l s d r, par, p, fp, h => by
    rw [TreeAt_node] at h
    obtain ⟨a, pl, pr, fl, fr, hp, hne, hf, hc, hl, hr⟩ := h
    subst hf
    simp only [List.length_cons, List.length_append, Node.size, hl.length_eq, hr.length_eq]

/-- The sentinel is allocated. -/
theorem Sentinel.address {m : Mem} (h : Sentinel m) :
    ∃ t0, m.TNULL = some t0 ∧ m.cells[t0]? = some sentinelCell := by
  have h1 := h.1
  cases hT : m.TNULL with
  | none => rw [hT] at h1; cases h1
  | some t0 => rw [hT, get_some] at h1; exact ⟨t0, rfl, h1⟩

/-- The tree and the ancestors fit into the memory. -/
theorem Zip.size_le {m : Mem} {par k : Ptr} {kt : Node} {path : Ancestors}
    (h : Zip m par k kt path) : kt.size + path.length + 1 ≤ m.cells.length := by
  obtain ⟨fk, fp, hk, hp, hnd, hS⟩ := h
  obtain ⟨t0, hT, hcell⟩ := hS.address
  have h1 : (t0 :: (fk ++ fp)).Nodup := by
    rw [List.nodup_cons]
    refine ⟨fun hmem => ?_, hnd⟩
    rcases List.mem_append.1 hmem with hmem | hmem
    · exact (hk.allocated t0 hmem).2 hT.symm
    · exact (hp.allocated_path t0 hmem).2 hT.symm
  have h2 : (t0 :: (fk ++ fp)).length ≤ m.cells.length := by
    refine nodup_length_le h1 ?_
    intro a ha
    rcases List.mem_cons.1 ha with rfl | ha
    · exact lt_of_cell hcell
    · rcases List.mem_append.1 ha with ha | ha
      · exact (hk.allocated a ha).1
      · exact (hp.allocated_path a ha).1
  have h3 := hp.length_le
  have h4 := hk.length_eq
  simp only [List.length_cons, List.length_append] at h2
  omega

theorem withNode_cell_low (m : Mem) (key : CString) (info : hashTableVars) {a : Nat}
    (h : a < m.cells.length) : (m.withNode key info).cells[a]? = m.cells[a]? :=
  List.getElem?_append_left h

theorem withNode_cell_new (m : Mem) (key : CString) (info : hashTableVars) :
    (m.withNode key info).cells[m.cells.length]? =
      some ⟨key, [info], Color.RED, m.TNULL, m.TNULL, none⟩ := by
  simp [Mem.withNode]

/-- The new node is not the sentinel. -/
theorem Sentinel.new_ne {m : Mem} (h : Sentinel m) : some m.cells.length ≠ m.TNULL := by
  obtain ⟨t0, hT, hcell⟩ := h.address
  rw [hT]
  intro e
  cases e
  exact Nat.lt_irrefl _ (lt_of_cell hcell)

/-- The sentinel after the allocation of the new node and assignments to nodes other
than the sentinel. -/
theorem Sentinel.withNode {m m2 : Mem} {key : CString} {info : hashTableVars} {S : List Nat}
    (h : Sentinel m) (hso : SameOutside S (m.withNode key info) m2)
    (hS : ∀ a ∈ S, some a ≠ m.TNULL) : Sentinel m2 := by
  obtain ⟨t0, hT, hcell⟩ := h.address
  refine ⟨?_, ?_⟩
  · rw [hso.1]
    show m2.get m.TNULL = _
    rw [hT, get_some, hso.cell fun hmem => hS t0 hmem hT.symm,
      withNode_cell_low m key info (lt_of_cell hcell)]
    exact hcell
  · rw [hso.2.2.2, hso.1]
    intro e he
    rcases List.mem_cons.1 he with rfl | he
    · exact fun e => absurd e h.new_ne
    · exact h.2 e he

/-- Lines 210-219 for a new node that gets a parent: the new node is linked below the
innermost ancestor, on the side of the key. -/
theorem Zip.link {m : Mem} {y x : Ptr} {key : CString} (info : hashTableVars) {f : Frame}
    {rest : Ancestors} (hz : Zip m y x Node.TNULL (f :: rest))
    (hside : keySide key (f :: rest)) :
    ∃ m5 m6 sy, y ≠ none ∧
      setParent (m.withNode key info) (some m.cells.length) y = some m5 ∧
      m5.state (some m.cells.length) = some key ∧ m5.state y = some sy ∧
      (if key < sy then m5.setLeft y (some m.cells.length)
        else m5.setRight y (some m.cells.length)) = some m6 ∧
      Zip m6 y (some m.cells.length) (Node.node Color.RED Node.TNULL key [info] Node.TNULL)
        (f :: rest) ∧
      m6.TNULL = m.TNULL ∧ m6.cells.length = m.cells.length + 1 := by
  obtain ⟨fk, fp, hk, hp, hnd, hS⟩ := hz
  rw [TreeAt_TNULL] at hk
  obtain ⟨hx, hfk⟩ := hk
  subst hfk; subst hx
  have hlt : ∀ a ∈ fp, a < m.cells.length := fun a ha => (hp.allocated_path a ha).1
  have hnfp : m.cells.length ∉ fp := fun hmem => Nat.lt_irrefl _ (hlt _ hmem)
  rw [PathAt_cons] at hp
  obtain ⟨a, other, gp, fs, frest, hy, hyT, hf, hc, hs, hrest⟩ := hp
  subst hf; subst hy
  have halt : a < m.cells.length := lt_of_cell hc
  have han : a ≠ m.cells.length := Nat.ne_of_lt halt
  have hnT : some m.cells.length ≠ m.TNULL := hS.new_ne
  obtain ⟨m5, hset5, hc5n, hr5, hso5⟩ := setParent_spec (withNode_cell_new m key info) (some a)
  dsimp only at hc5n
  have hr5 : m5.root = m.root := hr5
  have hT5 : m5.TNULL = m.TNULL := hso5.1
  have hc5a : m5.cells[a]? = some (f.cell m.TNULL other gp) := by
    rw [hso5.cell (by simpa using han)]
    exact (withNode_cell_low m key info halt).trans hc
  have hafs : a ∉ fs ++ frest := by
    rw [List.nil_append, List.nodup_cons] at hnd
    exact hnd.1
  have key1 : ∀ (m6 : Mem), SameOutside [a] m5 m6 → m6.root = m5.root →
      m6.cells[a]? = some (f.cell (some m.cells.length) other gp) →
      Zip m6 (some a) (some m.cells.length)
          (Node.node Color.RED Node.TNULL key [info] Node.TNULL) (f :: rest) ∧
        m6.TNULL = m.TNULL ∧ m6.cells.length = m.cells.length + 1 := by
    intro m6 hso6 hr6 hc6a
    have hT6 : m6.TNULL = m.TNULL := hso6.1.trans hT5
    have hlow : ∀ b ∈ fs ++ frest, m6.cells[b]? = m.cells[b]? := by
      intro b hb
      have hb1 : b < m.cells.length := hlt b (List.mem_cons_of_mem _ hb)
      have hb2 : b ≠ a := fun e => hafs (e ▸ hb)
      rw [hso6.cell (by simpa using hb2), hso5.cell (by simpa using Nat.ne_of_lt hb1)]
      exact withNode_cell_low m key info hb1
    refine ⟨⟨[m.cells.length], a :: (fs ++ frest), ?_, ?_, ?_, ?_⟩, hT6, ?_⟩
    · rw [TreeAt_node]
      refine ⟨m.cells.length, m.TNULL, m.TNULL, [], [], rfl, by rw [hT6]; exact hnT, rfl,
        ?_, ⟨hT6.symm, rfl⟩, ⟨hT6.symm, rfl⟩⟩
      rw [hso6.cell (by simpa using han.symm)]
      exact hc5n
    · rw [PathAt_cons]
      refine ⟨a, other, gp, fs, frest, rfl, by rw [hT6]; exact hyT, rfl, hc6a, ?_, ?_⟩
      · exact hs.congr_tree hT6 fun b hb => hlow b (List.mem_append_left _ hb)
      · exact hrest.congr_path hT6 (hr6.trans hr5) fun b hb => hlow b (List.mem_append_right _ hb)
    · rw [List.singleton_append, List.nodup_cons]
      exact ⟨hnfp, by simpa using hnd⟩
    · refine hS.withNode (hso5.append hso6) ?_
      intro z hz
      simp only [List.mem_append, List.mem_singleton] at hz
      rcases hz with rfl | rfl
      · exact hnT
      · exact hyT
    · rw [hso6.2.1, hso5.2.1]
      simp [Mem.withNode]
  cases f with
  | leftOf c s d r =>
    have hc5a2 : m5.cells[a]? = some ⟨s, d, c, m.TNULL, other, gp⟩ := hc5a
    obtain ⟨m6, hset6, hc6a, hr6, hso6⟩ := setLeft_spec hc5a2 (some m.cells.length)
    have hlt2 : key < s := hside
    refine ⟨m5, m6, s, by simp, hset5, state_of_cell hc5n, state_of_cell hc5a2, ?_,
      key1 m6 hso6 hr6 hc6a⟩
    rw [if_pos hlt2]; exact hset6
  | rightOf c l s d =>
    have hc5a2 : m5.cells[a]? = some ⟨s, d, c, other, m.TNULL, gp⟩ := hc5a
    obtain ⟨m6, hset6, hc6a, hr6, hso6⟩ := setRight_spec hc5a2 (some m.cells.length)
    have hlt2 : ¬ key < s := hside
    refine ⟨m5, m6, s, by simp, hset5, state_of_cell hc5n, state_of_cell hc5a2, ?_,
      key1 m6 hso6 hr6 hc6a⟩
    rw [if_neg hlt2]; exact hset6

/-- Lines 209-231 of `insert`, reached with `x` the sentinel: the new node is linked in
and the tree rebalanced as on the tree model. -/
theorem link_refines (key : CString) (info : hashTableVars) (path : Ancestors) (t : Node)
    (hzip : RBTree.insertLoop key info Node.TNULL path = some t) (m : Mem) (y x : Ptr)
    (hz : Zip m y x Node.TNULL path) (hside : keySide key path) (fuel : Nat) :
    ∃ m2, Mem.insertLoop (fuel + 1) (m.withNode key info) (some m.cells.length) info y x =
        some m2 ∧ Represents m2 t ∧ m2.TNULL = m.TNULL := by
  have hx : x = (m.withNode key info).TNULL := by
    obtain ⟨fk, fp, hk, _, _, _⟩ := hz
    rw [TreeAt_TNULL] at hk
    exact hk.1
  unfold Mem.insertLoop
  simp only [hx, ne_eq, not_true_eq_false, if_false, Option.bind_eq_bind]
  cases path with
  | nil =>
    obtain ⟨fk, fp, hk, hp, hnd, hS⟩ := hz
    rw [PathAt_nil] at hp
    obtain ⟨hy, _, _⟩ := hp
    subst hy
    have hnT : some m.cells.length ≠ m.TNULL := hS.new_ne
    obtain ⟨m5, hset5, hc5n, hr5, hso5⟩ := setParent_spec (withNode_cell_new m key info) none
    dsimp only at hc5n
    have hc6n : ({ m5 with root := some m.cells.length } : Mem).cells[m.cells.length]? =
        some ⟨key, [info], Color.RED, m.TNULL, m.TNULL, none⟩ := hc5n
    obtain ⟨m7, hset7, hc7n, hr7, hso7⟩ := setColor_spec hc6n Color.BLACK
    dsimp only at hc7n hr7
    have hso57 : SameOutside [m.cells.length] m5 m7 := hso7
    have hT7 : m7.TNULL = m.TNULL := hso57.1.trans hso5.1
    unfold RBTree.insertLoop at hzip
    cases hzip
    have h7 : Zip m7 none (some m.cells.length)
        (Node.node Color.BLACK Node.TNULL key [info] Node.TNULL) [] := by
      refine ⟨[m.cells.length], [], ?_, ?_, by simp, ?_⟩
      · rw [TreeAt_node]
        exact ⟨m.cells.length, m.TNULL, m.TNULL, [], [], rfl, by rw [hT7]; exact hnT,
          rfl, hc7n, ⟨hT7.symm, rfl⟩, ⟨hT7.symm, rfl⟩⟩
      · rw [PathAt_nil]; exact ⟨rfl, hr7, rfl⟩
      · refine hS.withNode (hso5.append hso57) ?_
        intro z hz
        simp only [List.mem_append, List.mem_singleton] at hz
        rcases hz with rfl | rfl <;> exact hnT
    refine ⟨{ m7 with colorWrites := (some m.cells.length, Color.BLACK) :: m7.colorWrites },
      ?_, ?_, hT7⟩
    · simp only [hset5, Option.some_bind, if_true, parent_of_cell hc6n, hset7]
    · have h8 := @Zip.record _ _ _ _ _ h7 (some m.cells.length) (by rw [hT7]; exact hnT)
        Color.BLACK
      exact h8.represents
  | cons f rest =>
    have hsize := hz.size_le
    obtain ⟨m5, m6, sy, hy, hset5, hsn, hsy, hset6, hz6, hT6, hlen6⟩ := hz.link info hside
    have hk6 : (Node.node Color.RED Node.TNULL key [info] Node.TNULL) ≠ Node.TNULL := by simp
    obtain ⟨gp, _, hzp, _, hpp, _⟩ := hz6.up_any
    simp only [hset5, Option.some_bind, if_neg hy, hsn, hsy, hset6, hz6.parent_eq hk6, hpp]
    cases rest with
    | nil =>
      unfold RBTree.insertLoop at hzip
      cases hzip
      obtain ⟨hgp, _⟩ := hzp.of_nil
      subst hgp
      exact ⟨m6, by simp, hz6.represents, hT6⟩
    | cons g up =>
      obtain ⟨_, hgp, _, _, _, _⟩ := hzp.up_any
      unfold RBTree.insertLoop at hzip
      simp only [RBTree.balanceInsert] at hzip
      obtain ⟨m7, hrun, h7, hT7, _⟩ :=
        balanceLoop_refines _ _ _ _ hzip hk6 m6 _ _ hz6 m6.cells.length (by
          rw [hlen6]
          simp only [Node.size, List.length_cons] at hsize ⊢
          omega)
      refine ⟨m7, ?_, h7, hT7.trans hT6⟩
      simp only [if_neg hy, if_neg hgp, Mem.balanceInsert, hrun]

/-- The keys of the ancestors seen from a child of a node. -/
theorem keySide_left {key s : CString} (c : Color) (d : List hashTableVars) (r : Node)
    (path : Ancestors) (h : key < s) : keySide key (Frame.leftOf c s d r :: path) := h

theorem keySide_right {key s : CString} (c : Color) (l : Node) (d : List hashTableVars)
    (path : Ancestors) (h : ¬ key < s) : keySide key (Frame.rightOf c l s d :: path) := h

/-- The descent of `insert` and what follows it do to the memory what `insertLoop` does
to the tree: no `nullptr` is dereferenced, and the memory holds the tree afterwards. -/
theorem insertLoop_refines (key : CString) (info : hashTableVars) :
    ∀ (xt : Node) (path : Ancestors) (t : Node),
      RBTree.insertLoop key info xt path = some t →
      ∀ (m : Mem) (y x : Ptr), Zip m y x xt path → keySide key path →
      ∀ fuel, xt.depth < fuel →
        ∃ m2, Mem.insertLoop fuel (m.withNode key info) (some m.cells.length) info y x =
          some m2 ∧ Represents m2 t ∧ m2.TNULL = m.TNULL
  | Node.TNULL, path, t, hzip, m, y, x, hz, hside, fuel, hfuel => by
    obtain ⟨f2, rfl⟩ : ∃ f2, fuel = f2 + 1 := ⟨fuel - 1, by omega⟩
    exact link_refines key info path t hzip m y x hz hside f2
  | Node.node c l s d r, path, t, hzip, m, y, x, hz, hside, fuel, hfuel => by
    obtain ⟨f2, rfl⟩ : ∃ f2, fuel = f2 + 1 := ⟨fuel - 1, by omega⟩
    simp only [Node.depth] at hfuel
    obtain ⟨a, pl, pr, hx, hxT, hc, hzl, hzr⟩ := hz.down
    subst hx
    have halt : a < m.cells.length := lt_of_cell hc
    have hca : (m.withNode key info).cells[a]? = some ⟨s, d, c, pl, pr, y⟩ :=
      (withNode_cell_low m key info halt).trans hc
    have hcn := withNode_cell_new m key info
    have hxT2 : some a ≠ (m.withNode key info).TNULL := hxT
    unfold Mem.insertLoop
    unfold RBTree.insertLoop at hzip
    simp only [ne_eq, hxT2, not_false_eq_true, if_true, state_of_cell hca, state_of_cell hcn,
      Option.bind_eq_bind, Option.some_bind, left_of_cell hca, right_of_cell hca]
    by_cases hks : key = s
    · rw [if_pos hks] at hzip
      cases hzip
      rw [if_pos hks, mergeAt_alloc m key info info hc]
      obtain ⟨a2, pl2, pr2, ha2, hc2, hz2⟩ := hz.set_fields c s (mergeRecord info d)
      cases ha2
      rw [hc] at hc2
      cases hc2
      exact ⟨_, rfl,
        (@Zip.record _ _ _ _ _ hz2 (some m.cells.length) hz.sentinel.new_ne
          Color.RED).represents, rfl⟩
    · rw [if_neg hks] at hzip
      rw [if_neg hks]
      by_cases hlt : key < s
      · rw [if_pos hlt] at hzip
        rw [if_pos hlt]
        exact insertLoop_refines key info l _ t hzip m _ _ hzl
          (keySide_left c d r path hlt) f2 (by omega)
      · rw [if_neg hlt] at hzip
        rw [if_neg hlt]
        exact insertLoop_refines key info r _ t hzip m _ _ hzr
          (keySide_right c l d path hlt) f2 (by omega)

/-- The tree an empty memory holds. -/
theorem represents_new : Represents Mem.new Node.TNULL :=
  ⟨[], [], ⟨rfl, rfl⟩, ⟨rfl, rfl, rfl⟩, List.nodup_nil, rfl, by
    intro e he
    rw [show Mem.new.colorWrites = [(some 0, Color.BLACK)] from rfl, List.mem_singleton] at he
    subst he
    exact fun _ => rfl⟩

theorem depth_le_size : ∀ (t : Node), t.depth ≤ t.size
  | Node.TNULL => Nat.le_refl _
  | Node.node _ l _ _ r => by
    have h1 := depth_le_size l
    have h2 := depth_le_size r
    simp only [Node.depth, Node.size]
    omega

/-- `insert` on memory does what `insert` does on the tree the memory holds. -/
theorem insert_refines {m : Mem} {t : RBTree} (h : Represents m t.root) (key : CString)
    (info : hashTableVars) {t2 : RBTree} (ht : t.insert key info = some t2) :
    ∃ m2, m.insert key info = some m2 ∧ Represents m2 t2.root ∧ m2.TNULL = m.TNULL := by
  unfold RBTree.insert at ht
  cases hl : RBTree.insertLoop key info t.root [] with
  | none => rw [hl] at ht; cases ht
  | some r =>
    rw [hl] at ht
    cases ht
    rw [insert_eq]
    have hsize := Zip.size_le h
    have hd := depth_le_size t.root
    exact insertLoop_refines key info t.root [] r hl m none m.root h trivial _ (by omega)

/-- Every sequence of insertions runs to the end on memory, dereferencing no `nullptr`,
and leaves in memory the tree that it leaves on the tree model, with child and parent
links that agree and the sentinel as the constructor made it. -/
theorem insertAll_refines (ops : List Insertion) :
    ∃ m t, Mem.insertAll ops = some m ∧ RBTree.insertAll ops = some t ∧
      Represents m t.root ∧ m.TNULL = some 0 := by
  induction ops using List.reverseRecOn with
  | nil => exact ⟨Mem.new, RBTree.new, rfl, rfl, represents_new, rfl⟩
  | append_singleton ops op ih =>
    obtain ⟨m, t, hm, ht, hrep, hT⟩ := ih
    obtain ⟨t2, ht2, _⟩ := RBTree.insertAll_spec (ops ++ [op])
    rw [RBTree.insertAll_snoc, ht] at ht2
    obtain ⟨m2, hm2, hrep2, hT2⟩ := insert_refines hrep op.1 op.2 ht2
    refine ⟨m2, t2, ?_, ?_, hrep2, hT2.trans hT⟩
    · simp only [Mem.insertAll, List.foldl_append, List.foldl_cons, List.foldl_nil]
      rw [show List.foldl (fun acc op => acc.bind fun m => m.insert op.1 op.2)
        (some Mem.new) ops = Mem.insertAll ops from rfl, hm]
      exact hm2
    · rw [RBTree.insertAll_snoc, ht]; exact ht2

end Mem

/-! ## An existing key, and the memories of the rotation scenario -/

namespace Mem

/-- When the search finds `key`, `insert` on memory changes nothing but the record list
of the node found. -/
theorem insertLoop_found (key : CString) (info : hashTableVars) :
    ∀ (xt : Node) (path : Ancestors), RBTree.searchTreeHelper xt key ≠ Node.TNULL →
      ∀ (m : Mem) (y x : Ptr), Zip m y x xt path → ∀ fuel, xt.depth < fuel →
        ∃ m2, Mem.insertLoop fuel (m.withNode key info) (some m.cells.length) info y x =
          some m2 ∧ SameExceptRecordsAt key m m2
  | Node.TNULL, _, h, _, _, _, _, _, _ => absurd rfl h
  | Node.node c l s d r, path, h, m, y, x, hz, fuel, hfuel => by
    obtain ⟨f2, rfl⟩ : ∃ f2, fuel = f2 + 1 := ⟨fuel - 1, by omega⟩
    simp only [Node.depth] at hfuel
    obtain ⟨a, pl, pr, hx, hxT, hc, hzl, hzr⟩ := hz.down
    subst hx
    have halt : a < m.cells.length := lt_of_cell hc
    have hca : (m.withNode key info).cells[a]? = some ⟨s, d, c, pl, pr, y⟩ :=
      (withNode_cell_low m key info halt).trans hc
    have hcn := withNode_cell_new m key info
    have hxT2 : some a ≠ (m.withNode key info).TNULL := hxT
    unfold Mem.insertLoop
    unfold RBTree.searchTreeHelper at h
    simp only [ne_eq, hxT2, not_false_eq_true, if_true, state_of_cell hca, state_of_cell hcn,
      Option.bind_eq_bind, Option.some_bind, left_of_cell hca, right_of_cell hca]
    by_cases hks : key = s
    · rw [if_pos hks, mergeAt_alloc m key info info hc]
      refine ⟨_, rfl, rfl, rfl, List.length_set _ _ _, ?_⟩
      intro b cb hb
      by_cases hba : b = a
      · subst hba
        rw [hc] at hb
        cases hb
        refine ⟨⟨s, mergeRecord info d, c, pl, pr, y⟩, ?_, rfl, rfl, rfl, rfl, rfl,
          fun hne => absurd hks.symm hne⟩
        simp [List.getElem?_set, halt]
      · refine ⟨cb, ?_, rfl, rfl, rfl, rfl, rfl, fun _ => rfl⟩
        simp only [List.getElem?_set, if_neg (Ne.symm hba)]
        exact hb
    · rw [if_neg hks] at h ⊢
      by_cases hlt : key < s
      · rw [if_pos hlt] at h ⊢
        exact insertLoop_found key info l _ h m _ _ hzl f2 (by omega)
      · rw [if_neg hlt] at h ⊢
        exact insertLoop_found key info r _ h m _ _ hzr f2 (by omega)

/-- An `insert` under a state that the tree in memory has leaves every node where it is,
with its colour, state and links. -/
theorem insert_found {m : Mem} {t : Node} (h : Represents m t) (key : CString)
    (info : hashTableVars) (hfound : RBTree.searchTreeHelper t key ≠ Node.TNULL) :
    ∃ m2, m.insert key info = some m2 ∧ SameExceptRecordsAt key m m2 := by
  rw [insert_eq]
  have hsize := Zip.size_le h
  have hd := depth_le_size t
  exact insertLoop_found key info t [] hfound m none m.root h _ (by omega)

/-- A node without parent is the node `root` points to. -/
theorem Zip.root_of_none {m : Mem} {par k : Ptr} {kt : Node} {path : Ancestors}
    (h : Zip m par k kt path) (hp : par = none) : m.root = k := by
  cases path with
  | nil => exact h.of_nil.2
  | cons f rest =>
    obtain ⟨a, _, _, hpar, _⟩ := h.up
    rw [hp] at hpar
    cases hpar

/-- `balanceInsert(k)` for a new red leaf `k` with a parent, linked into a tree in
memory that satisfied the red-black invariants: the call dereferences no `nullptr`, and
afterwards the memory holds a red-black tree and the sentinel is as before. -/
theorem balanceInsert_safe {m : Mem} {par k : Ptr} {key : CString} {info : hashTableVars}
    {path : Ancestors}
    (hz : Zip m par k (Node.node Color.RED Node.TNULL key [info] Node.TNULL) path)
    (hv : (plug Node.TNULL path).Valid) (hne : path ≠ []) :
    ∃ m2 t, m.balanceInsert k = some m2 ∧
      RBTree.balanceInsert (Node.node Color.RED Node.TNULL key [info] Node.TNULL) path =
        some t ∧
      Represents m2 t ∧ t.Valid ∧ m2.TNULL = m.TNULL ∧ Sentinel m2 := by
  obtain ⟨_, hp, _⟩ := plug_valid_inv path Node.TNULL hv
  have hnew : (Node.node Color.RED Node.TNULL key [info] Node.TNULL).Ok := by
    rw [Node.Ok_node]; exact ⟨fun _ => ⟨rfl, rfl⟩, rfl, trivial, trivial⟩
  obtain ⟨t, ht, htv⟩ := balanceLoop_valid (path.length + 1)
    (Node.node Color.RED Node.TNULL key [info] Node.TNULL) path 0 (Nat.lt_succ_self _)
    hne rfl hnew rfl hp
  have hsize := hz.size_le
  obtain ⟨m2, hrun, hrep, hT, _⟩ := balanceLoop_refines _ _ _ _ ht (by simp) m _ _ hz
    m.cells.length (by simp only [Node.size] at hsize; omega)
  exact ⟨m2, t, hrun, ht, hrep, htv, hT, hrep.sentinel⟩

/-- The two memories of the rotation scenario: the insertions give the first, and the
rotations lead from each to the other. -/
theorem rotation_scenario :
    Mem.insertAll floridaTexas = some floridaTexasMem ∧
      floridaTexasMem.leftRotate (some 1) = some texasFloridaMem ∧
      texasFloridaMem.rightRotate (some 2) = some floridaTexasMem := by decide

/-- A rotation at a node whose child on the side rotated up is the sentinel dereferences
`nullptr` (lines 118 and 142), and so does `balanceInsert` at a node without parent
(line 65): on the memory after the insertion for Texas, `leftRotate`, `rightRotate` and
`balanceInsert` at the root have no result. -/
theorem dereferences_without_result :
    (Mem.insertAll texasOnce).bind (fun m => m.leftRotate m.root) = none ∧
      (Mem.insertAll texasOnce).bind (fun m => m.rightRotate m.root) = none ∧
      (Mem.insertAll texasOnce).bind (fun m => m.balanceInsert m.root) = none := by decide

end Mem

/-! ## Search and query on memory -/

namespace Mem

/-- The tree read from memory at a pointer is the tree the memory holds there. -/
theorem TreeAt.readTree_eq {m : Mem} :
    ∀ {t : Node} {par p : Ptr} {fp : List Nat}, TreeAt m par p t fp →
      ∀ fuel, t.depth < fuel → m.readTree fuel p = some t
  | Node.TNULL, par, p, fp, h, fuel, hfuel => by
    obtain ⟨f2, rfl⟩ : ∃ f2, fuel = f2 + 1 := ⟨fuel - 1, by omega⟩
    rw [TreeAt_TNULL] at h
    unfold readTree
    rw [if_pos h.1]
  | Node.node c l s d r, par, p, fp, h, fuel, hfuel => by
    obtain ⟨f2, rfl⟩ : ∃ f2, fuel = f2 + 1 := ⟨fuel - 1, by omega⟩
    simp only [Node.depth] at hfuel
    rw [TreeAt_node] at h
    obtain ⟨a, pl, pr, fl, fr, hp, hne, hf, hc, hl, hr⟩ := h
    subst hp
    unfold readTree
    rw [if_neg hne]
    simp only [get_some, hc, Option.bind_eq_bind, Option.some_bind,
      TreeAt.readTree_eq hl f2 (by omega), TreeAt.readTree_eq hr f2 (by omega)]

/-- The tree read from `root` is the tree the memory holds. -/
theorem Represents.readTree_root {m : Mem} {t : Node} (h : Represents m t) :
    m.readTree m.cells.length m.root = some t := by
  have hsize := Zip.size_le h
  have hd := depth_le_size t
  obtain ⟨fk, fp, hk, _, _, _⟩ := h
  exact hk.readTree_eq _ (by omega)

/-- A memory holds one tree only. -/
theorem Represents.one_tree {m : Mem} {t t2 : Node} (h : Represents m t)
    (h2 : Represents m t2) : t = t2 := by
  have e1 := h.readTree_root
  rw [h2.readTree_root] at e1
  cases e1
  rfl

/-- `searchTreeHelper` on memory returns the pointer to the node that `searchTreeHelper`
returns on the tree: `TNULL` for the sentinel, else a node with the fields of the node
found. -/
theorem TreeAt.search_eq {m : Mem} (key : CString) :
    ∀ {t : Node} {par p : Ptr} {fp : List Nat}, TreeAt m par p t fp →
      ∀ fuel, t.depth < fuel →
        ∃ q, m.searchTreeHelper fuel p key = some q ∧
          ((RBTree.searchTreeHelper t key = Node.TNULL ∧ q = m.TNULL) ∨
            ∃ c l d r a pl pr par2,
              RBTree.searchTreeHelper t key = Node.node c l key d r ∧ q = some a ∧
                q ≠ m.TNULL ∧ m.cells[a]? = some ⟨key, d, c, pl, pr, par2⟩)
  | Node.TNULL, par, p, fp, h, fuel, hfuel => by
    obtain ⟨f2, rfl⟩ : ∃ f2, fuel = f2 + 1 := ⟨fuel - 1, by omega⟩
    rw [TreeAt_TNULL] at h
    unfold Mem.searchTreeHelper
    exact ⟨p, by simp [h.1], Or.inl ⟨rfl, h.1⟩⟩
  | Node.node c l s d r, par, p, fp, h, fuel, hfuel => by
    obtain ⟨f2, rfl⟩ : ∃ f2, fuel = f2 + 1 := ⟨fuel - 1, by omega⟩
    simp only [Node.depth] at hfuel
    rw [TreeAt_node] at h
    obtain ⟨a, pl, pr, fl, fr, hp, hne, hf, hc, hl, hr⟩ := h
    subst hp
    unfold Mem.searchTreeHelper RBTree.searchTreeHelper
    simp only [if_neg hne, state_of_cell hc, left_of_cell hc, right_of_cell hc,
      Option.bind_eq_bind, Option.some_bind]
    by_cases hks : key = s
    · subst hks
      rw [if_pos rfl, if_pos rfl]
      exact ⟨some a, rfl, Or.inr ⟨c, l, d, r, a, pl, pr, par, rfl, rfl, hne, hc⟩⟩
    · rw [if_neg hks, if_neg hks]
      by_cases hlt : key < s
      · rw [if_pos hlt, if_pos hlt]
        exact TreeAt.search_eq key hl f2 (by omega)
      · rw [if_neg hlt, if_neg hlt]
        exact TreeAt.search_eq key hr f2 (by omega)

/-- `displayDeathCount` on memory prints what it prints on the tree the memory holds. -/
theorem Represents.displayDeathCount_eq {m : Mem} {t : RBTree} (h : Represents m t.root)
    (state disease : CString) :
    m.displayDeathCount state disease = some (t.displayDeathCount state disease) := by
  have hsize := Zip.size_le h
  have hd := depth_le_size t.root
  obtain ⟨fk, fp, hk, _, _, _⟩ := h
  obtain ⟨q, hq, hcase⟩ := hk.search_eq state m.cells.length (by omega)
  unfold Mem.displayDeathCount RBTree.displayDeathCount
  rw [hq]
  rcases hcase with ⟨h1, h2⟩ | ⟨c, l, d, r, a, pl, pr, par2, h1, h2, h3, h4⟩
  · rw [h1, h2]
    simp
  · rw [h1]
    subst h2
    simp [if_neg h3, get_some, h4]

/-- After any sequence of insertions on memory, a query prints the records of the
disease in the record list of the state in the abstract store. -/
theorem display_after_inserts_mem (ops : List Insertion) (state disease : CString) :
    ∃ m, Mem.insertAll ops = some m ∧
      m.displayDeathCount state disease =
        some (displayStored state disease (stored ops state)) := by
  obtain ⟨m, t, hm, ht, hrep, _⟩ := insertAll_refines ops
  refine ⟨m, hm, ?_⟩
  rw [hrep.displayDeathCount_eq]
  obtain ⟨t0, ht0, hd⟩ := RBTree.display_after_inserts ops
  rw [ht] at ht0
  cases ht0
  rw [hd]

end Mem

/-! ## The claims C11 to C20 -/

/-- C11. For a tree reached by insertions and a key that was inserted, one more `insert`
under the key returns a tree of the same shape, with the same colour and state at every
node and the same record list at every node of another state; and in memory, where the
trees are held before and after with links that agree, `root` is the same, every node
is at the same address with the same colour, state, `left`, `right` and `parent`, and
every node of another state has the same record list. -/
theorem C11_insert_existing_key_keeps_shape (ops : List Insertion) (key : CString)
    (info : hashTableVars) (hkey : ∃ op ∈ ops, op.1 = key) :
    ∃ t t2 m m2, RBTree.insertAll ops = some t ∧ t.insert key info = some t2 ∧
      Node.SameExceptAt key t.root t2.root ∧
      Mem.insertAll ops = some m ∧ m.insert key info = some m2 ∧
      m.Represents t.root ∧ m2.Represents t2.root ∧ Mem.SameExceptRecordsAt key m m2 := by
  obtain ⟨m, t, hm, ht, hrep, _⟩ := Mem.insertAll_refines ops
  obtain ⟨t0, ht0, _, hs, hl⟩ := RBTree.insertAll_spec ops
  rw [ht] at ht0
  cases ht0
  have hfound : searchTreeHelper t.root key ≠ Node.TNULL := by
    obtain ⟨op, hop, hk⟩ := hkey
    rcases searchTreeHelper_spec key t.root hs with ⟨_, h2⟩ | ⟨c, l, d, r, h1, _⟩
    · rw [hl] at h2
      exact absurd hk ((stored_spec ops key).1.1 h2 op hop)
    · rw [h1]; intro h; cases h
  obtain ⟨x2, h1, h2⟩ := insertLoop_of_found key info t.root [] hfound
  have ht2 : t.insert key info = some ⟨x2⟩ := by simp [RBTree.insert, h1]
  obtain ⟨m2, hm2, hrep2, _⟩ := Mem.insert_refines hrep key info ht2
  obtain ⟨m3, hm3, hsame⟩ := Mem.insert_found hrep key info hfound
  rw [hm2] at hm3
  cases hm3
  exact ⟨t, ⟨x2⟩, m, m2, ht, ht2, h2, hm, hm2, hrep, hrep2, hsame⟩

/-- C11 at the first scenario and one more record for California. -/
theorem C11_california_witness :
    ∃ t t2 m m2, RBTree.insertAll californiaTwice = some t ∧
      t.insert California ⟨Cancer, 2020, 10, mortality⟩ = some t2 ∧
      Node.SameExceptAt California t.root t2.root ∧
      Mem.insertAll californiaTwice = some m ∧
      m.insert California ⟨Cancer, 2020, 10, mortality⟩ = some m2 ∧
      m.Represents t.root ∧ m2.Represents t2.root ∧
      Mem.SameExceptRecordsAt California m m2 :=
  C11_insert_existing_key_keeps_shape californiaTwice California ⟨Cancer, 2020, 10, mortality⟩
    ⟨(California, ⟨Cancer, 2019, 500, mortality⟩), List.mem_cons_self _ _, rfl⟩

/-- C12. Every table reached from the new table by `insertItem` and `removeItem` calls
has 100 buckets, no two entries of one bucket have the same state, and every entry lies
in the bucket whose index is the hash of its state. -/
theorem C12_bucket_invariant (calls : List HashCall) (t : HashTable)
    (hrun : HashTable.run calls = some t) :
    t.table.length = 100 ∧
      ∀ (i : Nat) (b : Bucket), t.table[i]? = some b →
        (b.map Prod.fst).Nodup ∧ ∀ e ∈ b, hashFunction e.1 = (i : Int) :=
  Wf.run calls t hrun

/-- C12 at the table reached by an insertion for Texas and a removal. -/
theorem C12_texas_table_witness :
    HashTable.run texasCalls = some texasTable ∧ texasTable.table.length = 100 ∧
      ∀ (i : Nat) (b : Bucket), texasTable.table[i]? = some b →
        (b.map Prod.fst).Nodup ∧ ∀ e ∈ b, hashFunction e.1 = (i : Int) :=
  ⟨by decide, C12_bucket_invariant texasCalls texasTable (by decide)⟩

/-- C13. On a memory that holds a well-formed tree, child and parent links agreeing,
`leftRotate(x)` at a node `x` whose right child `y` is not the sentinel dereferences no
`nullptr`, and afterwards the memory holds a well-formed tree again in which `y` is in
the place of `x`, below the former parent of `x` or at `root` when `x` had no parent,
`x` is the left child of `y` and `y` the parent of `x`, and the states and record lists
of the whole tree are in the same order from left to right as before.  The same holds
for `rightRotate(x)` at a node whose left child `y` is not the sentinel, with `x` the
right child of `y` afterwards. -/
theorem C13_rotations_keep_order (m : Mem) (par x : Ptr) (path : Ancestors) (m3 : Mem)
    (par3 x3 : Ptr) (path3 : Ancestors) (cx cy : Color) (a b c : Node) (sx sy : CString)
    (dx dy : List hashTableVars)
    (hl : m.Zip par x (Node.node cx a sx dx (Node.node cy b sy dy c)) path)
    (hr : m3.Zip par3 x3 (Node.node cy (Node.node cx a sx dx b) sy dy c) path3) :
    (∃ m2 y, m.right x = some y ∧ m.leftRotate x = some m2 ∧
        m2.Zip par y (Node.node cy (Node.node cx a sx dx b) sy dy c) path ∧
        m2.Represents (plug (Node.node cy (Node.node cx a sx dx b) sy dy c) path) ∧
        (plug (Node.node cy (Node.node cx a sx dx b) sy dy c) path).toList =
          (plug (Node.node cx a sx dx (Node.node cy b sy dy c)) path).toList ∧
        m2.parent x = some y ∧ m2.left y = some x ∧ m2.parent y = some par ∧
        (par = none → m2.root = y)) ∧
      (∃ m4 y, m3.left x3 = some y ∧ m3.rightRotate x3 = some m4 ∧
        m4.Zip par3 y (Node.node cx a sx dx (Node.node cy b sy dy c)) path3 ∧
        m4.Represents (plug (Node.node cx a sx dx (Node.node cy b sy dy c)) path3) ∧
        (plug (Node.node cx a sx dx (Node.node cy b sy dy c)) path3).toList =
          (plug (Node.node cy (Node.node cx a sx dx b) sy dy c) path3).toList ∧
        m4.parent x3 = some y ∧ m4.right y = some x3 ∧ m4.parent y = some par3 ∧
        (par3 = none → m4.root = y)) := by
  obtain ⟨m2, ya, pc, h1, _, h2, h3, h4, _, h5, h6, _, _⟩ := Mem.leftRotate_spec hl
  obtain ⟨m4, yb, pa, g1, _, g2, g3, g4, _, g5, g6, _, _⟩ := Mem.rightRotate_spec hr
  exact ⟨⟨m2, some ya, h1, h2, h3, h3.represents, plug_toList_congr path (by simp), h5, h4,
      h6, fun hp => h3.root_of_none hp⟩,
    ⟨m4, some yb, g1, g2, g3, g3.represents, plug_toList_congr path3 (by simp), g5, g4, g6,
      fun hp => g3.root_of_none hp⟩⟩

/-- C13 at the memory after the insertions for Florida and Texas, for `leftRotate` at
Florida, and at the memory after this rotation, for `rightRotate` at Texas. -/
theorem C13_florida_texas_witness :
    (∃ m2 y, floridaTexasMem.right (some 1) = some y ∧
        floridaTexasMem.leftRotate (some 1) = some m2 ∧
        m2.Zip none y (Node.node Color.RED
          (Node.node Color.BLACK Node.TNULL Florida [⟨Asthma, 2020, 60, mortality⟩]
            Node.TNULL) Texas [⟨Asthma, 2020, 50, mortality⟩] Node.TNULL) [] ∧
        m2.Represents (plug (Node.node Color.RED
          (Node.node Color.BLACK Node.TNULL Florida [⟨Asthma, 2020, 60, mortality⟩]
            Node.TNULL) Texas [⟨Asthma, 2020, 50, mortality⟩] Node.TNULL) []) ∧
        (plug (Node.node Color.RED
          (Node.node Color.BLACK Node.TNULL Florida [⟨Asthma, 2020, 60, mortality⟩]
            Node.TNULL) Texas [⟨Asthma, 2020, 50, mortality⟩] Node.TNULL) []).toList =
          (plug (Node.node Color.BLACK Node.TNULL Florida [⟨Asthma, 2020, 60, mortality⟩]
            (Node.node Color.RED Node.TNULL Texas [⟨Asthma, 2020, 50, mortality⟩]
              Node.TNULL)) []).toList ∧
        m2.parent (some 1) = some y ∧ m2.left y = some (some 1) ∧ m2.parent y = some none ∧
        ((none : Ptr) = none → m2.root = y)) ∧
      (∃ m4 y, texasFloridaMem.left (some 2) = some y ∧
        texasFloridaMem.rightRotate (some 2) = some m4 ∧
        m4.Zip none y (Node.node Color.BLACK Node.TNULL Florida
          [⟨Asthma, 2020, 60, mortality⟩]
          (Node.node Color.RED Node.TNULL Texas [⟨Asthma, 2020, 50, mortality⟩]
            Node.TNULL)) [] ∧
        m4.Represents (plug (Node.node Color.BLACK Node.TNULL Florida
          [⟨Asthma, 2020, 60, mortality⟩]
          (Node.node Color.RED Node.TNULL Texas [⟨Asthma, 2020, 50, mortality⟩]
            Node.TNULL)) []) ∧
        (plug (Node.node Color.BLACK Node.TNULL Florida [⟨Asthma, 2020, 60, mortality⟩]
          (Node.node Color.RED Node.TNULL Texas [⟨Asthma, 2020, 50, mortality⟩]
            Node.TNULL)) []).toList =
          (plug (Node.node Color.RED
            (Node.node Color.BLACK Node.TNULL Florida [⟨Asthma, 2020, 60, mortality⟩]
              Node.TNULL) Texas [⟨Asthma, 2020, 50, mortality⟩] Node.TNULL) []).toList ∧
        m4.parent (some 2) = some y ∧ m4.right y = some (some 2) ∧
        m4.parent y = some none ∧ ((none : Ptr) = none → m4.root = y)) :=
  C13_rotations_keep_order floridaTexasMem none (some 1) [] texasFloridaMem none (some 2) []
    Color.BLACK Color.RED Node.TNULL Node.TNULL Node.TNULL Florida Texas
    [⟨Asthma, 2020, 60, mortality⟩] [⟨Asthma, 2020, 50, mortality⟩]
    ⟨[1, 2], [],
      ⟨1, some 0, some 2, [], [2], rfl, by decide, rfl, rfl, ⟨rfl, rfl⟩,
        ⟨2, some 0, some 0, [], [], rfl, by decide, rfl, rfl, ⟨rfl, rfl⟩, ⟨rfl, rfl⟩⟩⟩,
      ⟨rfl, rfl, rfl⟩, by decide, rfl, by decide⟩
    ⟨[2, 1], [],
      ⟨2, some 1, some 0, [1], [], rfl, by decide, rfl, rfl,
        ⟨1, some 0, some 0, [], [], rfl, by decide, rfl, rfl, ⟨rfl, rfl⟩, ⟨rfl, rfl⟩⟩,
        ⟨rfl, rfl⟩⟩,
      ⟨rfl, rfl, rfl⟩, by decide, rfl, by decide⟩

/-- C14. After any sequence of `insert` calls the longest path from the root to the
sentinel has at most 2 log2 (n + 1) nodes, n being the number of nodes of the tree, and
`searchTreeHelper` and the descent of `insert` visit at most that many nodes for every
key. -/
theorem C14_height_bound (ops : List Insertion) :
    ∃ t, RBTree.insertAll ops = some t ∧
      t.root.depth ≤ 2 * Nat.log2 (t.root.size + 1) ∧
      ∀ key, searchVisits t.root key ≤ 2 * Nat.log2 (t.root.size + 1) ∧
        insertVisits key t.root ≤ 2 * Nat.log2 (t.root.size + 1) := by
  obtain ⟨t, ht, hv, _, _⟩ := RBTree.insertAll_spec ops
  have hd := Node.depth_le_log_of_valid hv
  refine ⟨t, ht, hd, fun key => ⟨?_, ?_⟩⟩
  · exact Nat.le_trans (searchVisits_le_depth key t.root) hd
  · exact Nat.le_trans (insertVisits_le_depth key t.root) hd

/-- C15. For a tree that satisfies the red-black invariants and a new red leaf linked
below one of its nodes in the place of a sentinel: `balanceInsert` on the leaf returns,
every pass of its loop that takes the uncle-black branch (one or two rotations) is the
last pass, so that at most two rotations are called, and the root returned is black. -/
theorem C15_rebalancing (path : Ancestors) (key : CString) (info : hashTableVars)
    (hroot : (plug Node.TNULL path).color = Color.BLACK)
    (hred : (plug Node.TNULL path).redRedFree = true)
    (hblack : ∀ a ∈ (plug Node.TNULL path).blackCounts,
      ∀ b ∈ (plug Node.TNULL path).blackCounts, a = b)
    (hparent : path ≠ []) :
    ∃ t passes,
      balanceLoopTrace (path.length + 1)
        (Node.node Color.RED Node.TNULL key [info] Node.TNULL) path = some (t, passes) ∧
      balanceInsert (Node.node Color.RED Node.TNULL key [info] Node.TNULL) path = some t ∧
      RotationsAtEnd passes ∧ passes.sum ≤ 2 ∧ t.color = Color.BLACK := by
  have hv : (plug Node.TNULL path).Valid := And.intro hroot (Node.ok_of_checks hred hblack)
  obtain ⟨_, hp, _⟩ := plug_valid_inv path Node.TNULL hv
  have hnew : (Node.node Color.RED Node.TNULL key [info] Node.TNULL).Ok := by
    rw [Node.Ok_node]; exact ⟨fun _ => ⟨rfl, rfl⟩, rfl, trivial, trivial⟩
  obtain ⟨t, ht, htv⟩ := balanceLoop_valid (path.length + 1)
    (Node.node Color.RED Node.TNULL key [info] Node.TNULL) path 0 (Nat.lt_succ_self _)
    hparent rfl hnew rfl hp
  have hfst := balanceLoopTrace_fst (path.length + 1)
    (Node.node Color.RED Node.TNULL key [info] Node.TNULL) path
  rw [ht] at hfst
  simp only [Option.map_eq_some', Prod.exists, exists_and_right, exists_eq_right] at hfst
  obtain ⟨passes, hpasses⟩ := hfst
  have hpat := balanceLoopTrace_passes _ _ _ _ _ hpasses
  exact ⟨t, passes, hpasses, ht, hpat, hpat.sum_le, htv.1⟩

/-- C15 at a red leaf below the red right child of a black root: one rotation. -/
theorem C15_right_spine_witness :
    ∃ t passes,
      balanceLoopTrace (rightSpine.length + 1)
        (Node.node Color.RED Node.TNULL Utah [⟨Asthma, 2020, 70, mortality⟩] Node.TNULL)
        rightSpine = some (t, passes) ∧
      balanceInsert
        (Node.node Color.RED Node.TNULL Utah [⟨Asthma, 2020, 70, mortality⟩] Node.TNULL)
        rightSpine = some t ∧
      RotationsAtEnd passes ∧ passes.sum ≤ 2 ∧ t.color = Color.BLACK :=
  C15_rebalancing rightSpine Utah ⟨Asthma, 2020, 70, mortality⟩ (by decide) (by decide)
    (by decide) (by decide)

/-- C16, at two insertions under the key "東京": the tree lists the two records in the
order of their insertion, while `insertItem` indexes the vector at -86 and stores no
record list.  The order of first insertion is proved for the tree
(`RBTree.record_order`) and for keys that hash into the table
(`HashTable.record_order_of_keys_in_table`), the three cases of one insertion in
`mergeRecord_of_no_match` and `mergeRecord_of_match`. -/
theorem C16_record_order_key_outside_table :
    HashTable.insertAll tokyoTwice = none ∧
      (RBTree.insertAll tokyoTwice).map (fun t => t.displayDeathCount Tokyo Cancer) =
        some [Line.record Tokyo Cancer 2019 500 mortality,
          Line.record Tokyo Cancer 2020 400 mortality] := by
  decide

/-- C17. After any sequence of `insert` calls on an empty tree the states listed from
left to right increase strictly, no state is listed twice, and the states listed are
the states inserted. -/
theorem C17_search_tree_order (ops : List Insertion) :
    ∃ t, RBTree.insertAll ops = some t ∧
      (t.root.toList.map Prod.fst).Pairwise (fun a b => a < b) ∧
      (t.root.toList.map Prod.fst).Nodup ∧
      ∀ s, s ∈ t.root.toList.map Prod.fst ↔ ∃ op ∈ ops, op.1 = s := by
  obtain ⟨t, ht, _, hs, hl⟩ := RBTree.insertAll_spec ops
  have hp : (t.root.toList.map Prod.fst).Pairwise (fun a b => a < b) := by
    rw [List.pairwise_map]
    exact hs
  refine ⟨t, ht, hp, hp.imp (fun h => ne_of_lt h), ?_⟩
  intro s
  rw [← lookupState_ne_none_iff, hl, Ne, (stored_spec ops s).1]
  constructor
  · intro h
    by_contra hno
    exact h (fun op hop hk => hno ⟨op, hop, hk⟩)
  · rintro ⟨op, hop, hk⟩ h
    exact h op hop hk

/-- C18. For every tree reached by insertions, one more `insert` runs to its end on
memory, where reading or writing through `nullptr` has no result: in `balanceInsert`
the colour of `k->parent`, the children of `k->parent->parent` and the colour of the
uncle are read through pointers to nodes, and the rotations are called at nodes whose
child to be rotated up is not the sentinel.  Before and after the call the memory holds
the tree of the tree model with links that agree; `TNULL` is unchanged, the sentinel is
as the constructor made it, black, and no assignment to a `color` field since the
construction of the tree went through `TNULL` with a colour other than black. -/
theorem C18_no_null_dereference (ops : List Insertion) (key : CString)
    (info : hashTableVars) :
    ∃ t t2 m m2, RBTree.insertAll ops = some t ∧ t.insert key info = some t2 ∧
      Mem.insertAll ops = some m ∧ m.insert key info = some m2 ∧
      m.Represents t.root ∧ m2.Represents t2.root ∧ m2.TNULL = m.TNULL ∧
      m2.get m2.TNULL = some Mem.sentinelCell ∧ m2.color m2.TNULL = some Color.BLACK ∧
      ∀ e ∈ m2.colorWrites, e.1 = m2.TNULL → e.2 = Color.BLACK := by
  obtain ⟨m, t, hm, ht, hrep, _⟩ := Mem.insertAll_refines ops
  obtain ⟨t0, ht0, hv, hs, _⟩ := RBTree.insertAll_spec ops
  rw [ht] at ht0
  cases ht0
  obtain ⟨t2, ht2, _, _⟩ := RBTree.insert_spec t key info hv hs
  obtain ⟨m2, hm2, hrep2, hT⟩ := Mem.insert_refines hrep key info ht2
  have hS := hrep2.sentinel
  refine ⟨t, t2, m, m2, ht, ht2, hm, hm2, hrep, hrep2, hT, hS.1, ?_, hS.2⟩
  unfold Mem.color
  rw [hS.1]
  rfl

/-- C19, at the key "東京" on the table of the second scenario: `insertItem` indexes the
vector at -86 and has no defined result, where the claim has every bucket other than
that of the key unchanged.  For keys that hash into the table the claim holds:
`HashTable.insertItem_frame`. -/
theorem C19_insertItem_frame_key_outside_table :
    (HashTable.insertAll texasOnce).bind
      (fun t => t.insertItem Tokyo ⟨Cancer, 2019, 500, mortality⟩) = none := by
  decide

/-- C20, at the key "東京" on a new table: `removeItem` indexes the vector at -86 and has
no defined result, where the claim has it erase at most one entry and leave the rest.
For keys that hash into the table the claim holds: `HashTable.removeItem_frame`. -/
theorem C20_removeItem_frame_key_outside_table :
    hashFunction Tokyo = -86 ∧ HashTable.new.removeItem Tokyo = none := by
  decide
